import Mathlib

/-!
Buffered file archives of `Core/Inc/FFileManagerLinux.h`.

A shallow embedding of `FArchiveFileReader` and `FArchiveFileWriter` and of the
C stream (`FILE*`) they drive, followed by the properties proved about them.

Conventions of the embedding.

* `INT` is the signed 32-bit integer.  The writer's `Pos += Length` is stored
  as an `INT` holds it, reduced modulo `2^32` into `-2^31 .. 2^31 - 1`
  (`wrapINT`): no test bounds that sum, and a fresh writer reaches `2^31` with
  two calls.  The other `INT` values are integers (`Int`): the writer's
  `BufferCount` stays within `0 .. 4096`, and a run of the reader in which an
  `INT` computation leaves the 32-bit range is outside the model.
* A call whose behaviour is undefined in C++ (a call on a null `FILE*`, a
  `memcpy` or `fread`/`fwrite` outside the archive's array, a negative byte
  count) and a failed `check(...)` assertion have no result: the operation
  returns `none`.  The macros `check`, `checkSlow`, `guard` and `unguard` are
  not defined in these sources: `check` is taken as the assertion that stops
  the program, `checkSlow` as the debug-only assertion that leaves the state
  alone, `guard`/`unguard` as having no effect.  `ARRAY_COUNT(Buffer)` is the
  declared length of the array (1024 in the reader, 4096 in the writer) and
  `Min` the smaller of two `INT`s.
* The streams are those of the C library: `fseek`, `fread`, `fwrite` and
  `fclose` follow the C standard, with the file as a list of bytes and the
  failures decided by the environment.  A stream opened in append mode
  (`CreateFileWriter` under `FILEWRITE_Append`) writes at the end of the file
  wherever `fseek` left the file position indicator; any other stream writes
  at the indicator.
* A data pointer together with its `INT Length` is a list of bytes `V` with
  `Length = V.length`; for the reader the list is the content of the
  destination before the call and the returned list its content afterwards.
-/

/-- One byte. -/
abbrev BYTE : Type := Fin 256

/-- Modelled from the spec: the macro `MAXINT` is not defined in these sources; it is the
largest `INT`, the "effectively unbounded hint" `Serialize` passes to `Precache`. -/
def MAXINT : Int := 2147483647

/-- Modelled from the spec: the type `INT` is not defined in these sources; it is the signed
32-bit integer, whose largest value is `MAXINT`.  `wrapINT x` is the value an
`INT` holds after a computation whose mathematical result is `x`: the result
reduced modulo `2^32` to the range `-2^31 .. 2^31 - 1`. -/
def wrapINT (x : Int) : Int := (x + 2147483648) % 4294967296 - 2147483648

/-! ## The C stream behind a `FILE*` -/

/-- What the environment decides for one call on the stream: the call goes
through, or it fails after having moved `moved` bytes (reads and writes). -/
inductive Fate where
  | ok
  | fail (moved : Nat)
deriving DecidableEq, Repr

/-- A call issued on the stream, with whether it succeeded. -/
inductive Call where
  | fseek (offset : Int) (ok : Bool)
  | fread (size : Nat) (ok : Bool)
  | fwrite (bytes : List BYTE) (ok : Bool)
  | fclose (ok : Bool)
deriving DecidableEq, Repr

/-- Whether the recorded call succeeded. -/
def Call.ok : Call → Bool
  | .fseek _ b => b
  | .fread _ b => b
  | .fwrite _ b => b
  | .fclose b => b

/-- Whether the recorded call is an `fwrite`. -/
def Call.isWrite : Call → Bool
  | .fwrite _ _ => true
  | _ => false

/-- The object a `FILE*` designates: the bytes of the file, the file position
indicator, the fate the environment has in store for the call number `i`
(calls are numbered from 0 in the order they are issued), the calls
issued so far, oldest first, and whether the stream was opened in append
mode (`"ab"`, the mode `CreateFileWriter` passes to `fopen` under
`FILEWRITE_Append`; it passes `"wb"` otherwise). -/
structure FILE where
  data : List BYTE
  off : Nat
  script : Nat → Fate
  calls : List Call
  append : Bool

/-- The offset at which the next write of the stream lands: the end of the file on a
stream opened in append mode, whatever `fseek` did, and the file position
indicator otherwise. -/
def FILE.wpos (f : FILE) : Nat := if f.append = true then f.data.length else f.off

/-- The fate of the next call on the stream. -/
def FILE.fate (f : FILE) : Fate := f.script f.calls.length

/-- No call on the stream ever fails for a reason of the environment. -/
def FILE.faultless (f : FILE) : Prop := ∀ i, f.script i = Fate.ok

/-- The file content after `bytes` are written at offset `off`; a gap between
the end of the file and `off` reads as zero bytes, and writing no byte changes
nothing. -/
def pwrite (data : List BYTE) (off : Nat) (bytes : List BYTE) : List BYTE :=
  if bytes.length = 0 then data
  else
    data.take off ++ List.replicate (off - data.length) 0 ++ bytes
      ++ data.drop (off + bytes.length)

/-- The call `fseek(File, offset, SEEK_SET)`: the stream afterwards and the value returned
(0 on success). -/
def fseek (f : FILE) (offset : Int) : FILE × Int :=
  if f.fate = Fate.ok ∧ 0 ≤ offset then
    ({ f with off := offset.toNat, calls := f.calls ++ [Call.fseek offset true] }, 0)
  else
    ({ f with calls := f.calls ++ [Call.fseek offset false] }, -1)

/-- The call `fread(ptr, size, 1, File)`: the stream afterwards, the bytes stored at `ptr`,
and the value returned (1 when the whole item was read, else 0).  A request of
size 0 returns 0 and leaves the stream alone. -/
def fread (f : FILE) (size : Nat) : FILE × List BYTE × Int :=
  if size = 0 then (f, [], 0)
  else
    match f.fate with
    | Fate.ok =>
      if size ≤ (f.data.drop f.off).length then
        ({ f with off := f.off + size, calls := f.calls ++ [Call.fread size true] },
          (f.data.drop f.off).take size, 1)
      else
        ({ f with off := f.off + (f.data.drop f.off).length,
                  calls := f.calls ++ [Call.fread size false] },
          f.data.drop f.off, 0)
    | Fate.fail moved =>
      ({ f with off := f.off + ((f.data.drop f.off).take (min moved (size - 1))).length,
                calls := f.calls ++ [Call.fread size false] },
        (f.data.drop f.off).take (min moved (size - 1)), 0)

/-- The call `fwrite(ptr, size, 1, File)` where `bytes` are the `size` bytes at `ptr`: the
stream afterwards and the value returned (1 when the whole item was written,
else 0).  The bytes land at the write offset of the stream (`FILE.wpos`) and
the file position indicator ends behind them.  A request of size 0 returns 0
and leaves the stream alone. -/
def fwrite (f : FILE) (bytes : List BYTE) : FILE × Int :=
  if bytes.length = 0 then (f, 0)
  else
    match f.fate with
    | Fate.ok =>
      ({ f with data := pwrite f.data f.wpos bytes, off := f.wpos + bytes.length,
                calls := f.calls ++ [Call.fwrite bytes true] }, 1)
    | Fate.fail moved =>
      ({ f with data := pwrite f.data f.wpos (bytes.take (min moved (bytes.length - 1))),
                off := f.wpos + (bytes.take (min moved (bytes.length - 1))).length,
                calls := f.calls ++ [Call.fwrite bytes false] }, 0)

/-- The call `fclose(File)`: the stream afterwards and the value returned (0 on success). -/
def fclose (f : FILE) : FILE × Int :=
  if f.fate = Fate.ok then
    ({ f with calls := f.calls ++ [Call.fclose true] }, 0)
  else
    ({ f with calls := f.calls ++ [Call.fclose false] }, -1)

/-- Modelled from the spec: `appMemcpy` is not defined in these sources; it copies the bytes of
the source over the destination.  This is the effect of
`appMemcpy( Dest+ofs, Src, Src.length )` on the array `Dest`; the same function
gives the effect on the array at `ptr` of an `fread` that stored `Src` there. -/
def appMemcpy (Dest : List BYTE) (ofs : Nat) (Src : List BYTE) : List BYTE :=
  Dest.take ofs ++ Src ++ Dest.drop (ofs + Src.length)

/-! ## The error sink -/

/-- A line sent to the `FOutputDevice* Error` with `Logf`.  The arguments are those of the
format string, the trailing `ferror(File)` left out. -/
inductive Report where
  /-- Line `fread failed: BufferCount=%i Error=%i`. -/
  | freadFailedBufferCount (BufferCount : Int)
  /-- Line `seek Failed %i/%i: %i %i`. -/
  | seekFailed (InPos Size Pos : Int)
  /-- Line `fread failed: Length=%i Error=%i`. -/
  | freadFailedLength (Length : Int)
  /-- Line `ReadFile beyond EOF %i+%i/%i`. -/
  | readBeyondEOF (Pos Length Size : Int)
  /-- The text `LocalizeError("SeekFailed", "Core")`. -/
  | SeekFailed
  /-- The text `LocalizeError("WriteFailed", "Core")`. -/
  | WriteFailed
deriving DecidableEq, Repr

/-! ## `FArchiveFileReader` -/

/-- The reader.  `File` tells whether the pointer `File` is non-null and `stream` is the
object it designates (kept after `fclose`, so that the calls issued stay
observable).  `Error` holds the lines sent to the error sink, oldest first. -/
structure FArchiveFileReader where
  File : Bool
  stream : FILE
  Error : List Report
  ArIsError : Bool
  ArIsLoading : Bool
  ArIsPersistent : Bool
  Size : Int
  Pos : Int
  BufferBase : Int
  BufferCount : Int
  Buffer : List BYTE

namespace FArchiveFileReader

/-- The constructor.  `Buffer` is the content the uninitialised array happens to have; the
base class `FArchive` starts with `ArIsError` clear. -/
def new (InFile : FILE) (InError : List Report) (InSize : Int) (Buffer : List BYTE) :
    FArchiveFileReader :=
  { File := true
    stream := (fseek InFile 0).1
    Error := InError
    ArIsError := false
    ArIsLoading := true
    ArIsPersistent := true
    Size := InSize
    Pos := 0
    BufferBase := 0
    BufferCount := 0
    Buffer := Buffer }

/-- Method `Precache( INT HintCount )`. -/
def Precache (r : FArchiveFileReader) (HintCount : Int) : Option FArchiveFileReader :=
  let BufferBase := r.Pos
  let BufferCount := min (min HintCount (1024 - Int.land r.Pos (1024 - 1))) (r.Size - r.Pos)
  if r.File = false ∨ BufferCount < 0 then none
  else
    let res := fread r.stream BufferCount.toNat
    let r1 := { r with BufferBase := BufferBase, BufferCount := BufferCount, stream := res.1,
                       Buffer := appMemcpy r.Buffer 0 res.2.1 }
    if res.2.2 ≠ 1 ∧ BufferCount ≠ 0 then
      some { r1 with ArIsError := true,
                     Error := r1.Error ++ [Report.freadFailedBufferCount BufferCount] }
    else some r1

/-- Method `Seek( INT InPos )`. -/
def Seek (r : FArchiveFileReader) (InPos : Int) : Option FArchiveFileReader :=
  if ¬ (InPos ≥ 0) then none
  else if ¬ (InPos ≤ r.Size) then none
  else if r.File = false then none
  else
    let res := fseek r.stream InPos
    let r1 := { r with stream := res.1 }
    let r2 := if res.2 ≠ 0 then
        { r1 with ArIsError := true,
                  Error := r1.Error ++ [Report.seekFailed InPos r1.Size r1.Pos] }
      else r1
    some { r2 with Pos := InPos, BufferBase := InPos, BufferCount := 0 }

/-- Method `Tell()`. -/
def Tell (r : FArchiveFileReader) : Int := r.Pos

/-- Method `TotalSize()`. -/
def TotalSize (r : FArchiveFileReader) : Int := r.Size

/-- Method `Close()`: the reader afterwards and the value returned. -/
def Close (r : FArchiveFileReader) : FArchiveFileReader × Bool :=
  let r1 := if r.File = true then { r with stream := (fclose r.stream).1 } else r
  let r2 := { r1 with File := false }
  (r2, !r2.ArIsError)

/-- What one turn of the `while( Length>0 )` loop of `Serialize` ends in. -/
inductive Turn where
  /-- The turn executed `return`: the reader and the destination afterwards. -/
  | ret (r : FArchiveFileReader) (V : List BYTE)
  /-- The turn reached the end of the loop body: the reader afterwards and the bytes
  copied to the front of the destination. -/
  | next (r : FArchiveFileReader) (copied : List BYTE)

/-- The tail of the loop body of `Serialize`, from `appMemcpy( V, Buffer+Pos-BufferBase, Copy )` on. -/
def SerializeCopy (r : FArchiveFileReader) (Copy : Int) : Option Turn :=
  if Copy < 0 ∨ r.Pos - r.BufferBase < 0 ∨ r.Pos - r.BufferBase + Copy > 1024 then none
  else
    some (Turn.next { r with Pos := r.Pos + Copy }
      ((r.Buffer.drop (r.Pos - r.BufferBase).toNat).take Copy.toNat))

/-- The body of the `while( Length>0 )` loop of `Serialize`, entered with `Length = V.length > 0`. -/
def SerializeTurn (r : FArchiveFileReader) (V : List BYTE) : Option Turn :=
  let Length : Int := V.length
  let Copy := min Length (r.BufferBase + r.BufferCount - r.Pos)
  if Copy = 0 then
    if Length ≥ 1024 then
      if r.File = false then none
      else
        let res := fread r.stream V.length
        let r1 := { r with stream := res.1 }
        let r2 := if res.2.2 ≠ 1 then
            { r1 with ArIsError := true,
                      Error := r1.Error ++ [Report.freadFailedLength Length] }
          else r1
        some (Turn.ret { r2 with Pos := r2.Pos + Length, BufferBase := r2.BufferBase + Length }
          (appMemcpy V 0 res.2.1))
    else
      match r.Precache MAXINT with
      | none => none
      | some r1 =>
        let Copy := min Length (r1.BufferBase + r1.BufferCount - r1.Pos)
        let r2 := if Copy ≤ 0 then
            { r1 with ArIsError := true,
                      Error := r1.Error ++ [Report.readBeyondEOF r1.Pos Length r1.Size] }
          else r1
        if r2.ArIsError = true then some (Turn.ret r2 V)
        else r2.SerializeCopy Copy
  else r.SerializeCopy Copy

/-- The loop `while( Length>0 )` of `Serialize`, run for at most `fuel` turns: the reader
and the destination afterwards. -/
def SerializeLoop : Nat → FArchiveFileReader → List BYTE → Option (FArchiveFileReader × List BYTE)
  | 0, _, _ => none
  | fuel + 1, r, V =>
    if (V.length : Int) > 0 then
      match r.SerializeTurn V with
      | none => none
      | some (Turn.ret r1 V1) => some (r1, V1)
      | some (Turn.next r1 copied) =>
        match SerializeLoop fuel r1 (V.drop copied.length) with
        | none => none
        | some (r2, V2) => some (r2, copied ++ V2)
    else some (r, V)

/-- Method `Serialize( void* V, INT Length )`: the reader and the destination afterwards. -/
def Serialize (r : FArchiveFileReader) (V : List BYTE) : Option (FArchiveFileReader × List BYTE) :=
  SerializeLoop (V.length + 1) r V

end FArchiveFileReader

/-! ## `FArchiveFileWriter` -/

/-- The writer; the fields read as those of the reader. -/
structure FArchiveFileWriter where
  File : Bool
  stream : FILE
  Error : List Report
  ArIsError : Bool
  ArIsSaving : Bool
  ArIsPersistent : Bool
  Pos : Int
  BufferCount : Int
  Buffer : List BYTE

namespace FArchiveFileWriter

/-- The constructor.  `Buffer` is the content the uninitialised array happens to have; the
base class `FArchive` starts with `ArIsError` clear. -/
def new (InFile : FILE) (InError : List Report) (Buffer : List BYTE) : FArchiveFileWriter :=
  { File := true
    stream := InFile
    Error := InError
    ArIsError := false
    ArIsSaving := true
    ArIsPersistent := true
    Pos := 0
    BufferCount := 0
    Buffer := Buffer }

/-- Method `Flush()`. -/
def Flush (w : FArchiveFileWriter) : Option FArchiveFileWriter :=
  if w.BufferCount ≠ 0 then
    if w.File = false ∨ w.BufferCount < 0 ∨ w.BufferCount > 4096 then none
    else
      let res := fwrite w.stream (w.Buffer.take w.BufferCount.toNat)
      let w1 := { w with stream := res.1 }
      let w2 := if res.2 ≠ 1 then
          { w1 with ArIsError := true, Error := w1.Error ++ [Report.WriteFailed] }
        else w1
      some { w2 with BufferCount := 0 }
  else some { w with BufferCount := 0 }

/-- Method `Seek( INT InPos )`. -/
def Seek (w : FArchiveFileWriter) (InPos : Int) : Option FArchiveFileWriter :=
  match w.Flush with
  | none => none
  | some w1 =>
    if w1.File = false then none
    else
      let res := fseek w1.stream InPos
      let w2 := { w1 with stream := res.1 }
      let w3 := if res.2 ≠ 0 then
          { w2 with ArIsError := true, Error := w2.Error ++ [Report.SeekFailed] }
        else w2
      some { w3 with Pos := InPos }

/-- Method `Tell()`. -/
def Tell (w : FArchiveFileWriter) : Int := w.Pos

/-- Method `Close()`: the writer afterwards and the value returned. -/
def Close (w : FArchiveFileWriter) : Option (FArchiveFileWriter × Bool) :=
  match w.Flush with
  | none => none
  | some w1 =>
    let w2 := if w1.File = true then
        let res := fclose w1.stream
        let w1c := { w1 with stream := res.1 }
        if res.2 ≠ 0 then
          { w1c with ArIsError := true, Error := w1c.Error ++ [Report.WriteFailed] }
        else w1c
      else w1
    let w3 := { w2 with File := false }
    some (w3, !w3.ArIsError)

/-- The loop `while( Length > (Copy=ARRAY_COUNT(Buffer)-BufferCount) )` of `Serialize`, run for at
most `fuel` tests of its condition: the writer afterwards and the bytes of `V`
not yet consumed. -/
def SerializeLoop : Nat → FArchiveFileWriter → List BYTE → Option (FArchiveFileWriter × List BYTE)
  | 0, _, _ => none
  | fuel + 1, w, V =>
    let Copy : Int := 4096 - w.BufferCount
    if (V.length : Int) > Copy then
      if Copy < 0 ∨ w.BufferCount < 0 then none
      else
        let w1 := { w with Buffer := appMemcpy w.Buffer w.BufferCount.toNat (V.take Copy.toNat),
                           BufferCount := w.BufferCount + Copy }
        match w1.Flush with
        | none => none
        | some w2 => SerializeLoop fuel w2 (V.drop Copy.toNat)
    else some (w, V)

/-- Method `Serialize( void* V, INT Length )`.  The statement `Pos += Length` comes first and
is not guarded by any test: the sum is stored as an `INT` holds it. -/
def Serialize (w : FArchiveFileWriter) (V : List BYTE) : Option FArchiveFileWriter :=
  match SerializeLoop (V.length + 1) { w with Pos := wrapINT (w.Pos + V.length) } V with
  | none => none
  | some (w1, V1) =>
    if (V1.length : Int) ≠ 0 then
      if w1.BufferCount < 0 then none
      else
        some { w1 with Buffer := appMemcpy w1.Buffer w1.BufferCount.toNat V1,
                       BufferCount := w1.BufferCount + V1.length }
    else some w1

end FArchiveFileWriter

/-! ## Sequences of calls -/

/-- A call on a reader. -/
inductive ReaderCall where
  | Seek (InPos : Int)
  | Precache (HintCount : Int)
  | Serialize (V : List BYTE)
  | Tell
  | TotalSize
  | Close

/-- The reader after the call. -/
def ReaderCall.run : ReaderCall → FArchiveFileReader → Option FArchiveFileReader
  | .Seek InPos, r => r.Seek InPos
  | .Precache HintCount, r => r.Precache HintCount
  | .Serialize V, r => (r.Serialize V).map (fun res => res.1)
  | .Tell, r => some r
  | .TotalSize, r => some r
  | .Close, r => some r.Close.1

/-- The reader after the calls, made in order. -/
def ReaderCall.runAll : List ReaderCall → FArchiveFileReader → Option FArchiveFileReader
  | [], r => some r
  | c :: cs, r => (c.run r).bind (ReaderCall.runAll cs)

/-- A call on a writer. -/
inductive WriterCall where
  | Seek (InPos : Int)
  | Serialize (V : List BYTE)
  | Flush
  | Tell
  | Close

/-- The writer after the call. -/
def WriterCall.run : WriterCall → FArchiveFileWriter → Option FArchiveFileWriter
  | .Seek InPos, w => w.Seek InPos
  | .Serialize V, w => w.Serialize V
  | .Flush, w => w.Flush
  | .Tell, w => some w
  | .Close, w => w.Close.map (fun res => res.1)

/-- The writer after the calls, made in order. -/
def WriterCall.runAll : List WriterCall → FArchiveFileWriter → Option FArchiveFileWriter
  | [], w => some w
  | c :: cs, w => (c.run w).bind (WriterCall.runAll cs)

/-! ## Sample streams -/

/-- A stream over a file holding `d`, positioned at the start, on which no call fails. -/
def soundFile (d : List BYTE) : FILE :=
  { data := d, off := 0, script := fun _ => Fate.ok, calls := [], append := false }

/-- A stream over a file holding `d`, positioned at the start, on which every call fails
without moving a byte. -/
def brokenFile (d : List BYTE) : FILE :=
  { data := d, off := 0, script := fun _ => Fate.fail 0, calls := [], append := false }


/-- The reader a turn of the loop of `Serialize` ends with. -/
def FArchiveFileReader.Turn.reader : FArchiveFileReader.Turn → FArchiveFileReader
  | .ret r _ => r
  | .next r _ => r


/-- A reader over a three-byte file whose error flag is set. -/
def flaggedReader : FArchiveFileReader :=
  { FArchiveFileReader.new (soundFile [1, 2, 3]) [] 3 (List.replicate 1024 0) with
    ArIsError := true }

/-- A writer over an empty file whose error flag is set. -/
def flaggedWriter : FArchiveFileWriter :=
  { FArchiveFileWriter.new (soundFile []) [] (List.replicate 4096 0) with ArIsError := true }


/-! ## Well-formed writers -/

/-- The writer's handle is open, its array has its 4096 bytes, and the staged count lies
within the array. -/
def FArchiveFileWriter.WellFormed (w : FArchiveFileWriter) : Prop :=
  w.File = true ∧ 0 ≤ w.BufferCount ∧ w.BufferCount ≤ 4096 ∧ w.Buffer.length = 4096

/-- The staged bytes: `Buffer[0 .. BufferCount)`. -/
def FArchiveFileWriter.staged (w : FArchiveFileWriter) : List BYTE :=
  w.Buffer.take w.BufferCount.toNat

/-- Some recorded call failed. -/
def anyFailed (calls : List Call) : Bool := calls.any (fun c => !c.ok)

/-- The error flag of the writer tells whether one of the calls issued on the handle since
the history `base` failed. -/
def FArchiveFileWriter.Tracks (base : List Call) (w : FArchiveFileWriter) : Prop :=
  ∃ issued, w.stream.calls = base ++ issued ∧ w.ArIsError = anyFailed issued


/-- The stream `g` is the stream `f` after the successful writes of `chunks`, in order, and
no other call: the chunks lie in the file from the write offset of `f` on, and
the write offset of `g` is behind them. -/
def FILE.wrote (f g : FILE) (chunks : List (List BYTE)) : Prop :=
  g.calls = f.calls ++ chunks.map (fun c => Call.fwrite c true) ∧
  g.data = pwrite f.data f.wpos chunks.flatten ∧
  g.wpos = f.wpos + chunks.flatten.length ∧
  g.script = f.script


/-- The bytes handed to the stream by the recorded call, if it is an `fwrite`. -/
def Call.payload : Call → List BYTE
  | .fwrite bytes _ => bytes
  | _ => []

/-- The byte sequence handed to the stream by the recorded calls, in order. -/
def written (calls : List Call) : List BYTE := (calls.map Call.payload).flatten


/-! ## The window of a reader -/

/-- The window invariant of a reader whose handle is open and whose calls all succeed: the
file has `Size` bytes, the cursor lies in the buffered window, the window lies in
the file, the handle stands at the end of the window, and the part of the
array not yet consumed holds the bytes of the file from the cursor on. -/
structure FArchiveFileReader.Window (r : FArchiveFileReader) : Prop where
  file : r.File = true
  clean : r.ArIsError = false
  sound : r.stream.faultless
  size : (r.stream.data.length : Int) = r.Size
  base : 0 ≤ r.BufferBase
  lo : r.BufferBase ≤ r.Pos
  hi : r.Pos ≤ r.BufferBase + r.BufferCount
  fits : r.BufferBase + r.BufferCount ≤ r.Size
  cap : r.BufferCount ≤ 1024
  handle : (r.stream.off : Int) = r.BufferBase + r.BufferCount
  bytes : (r.Buffer.drop (r.Pos - r.BufferBase).toNat).take
        (r.BufferBase + r.BufferCount - r.Pos).toNat
      = (r.stream.data.drop r.Pos.toNat).take (r.BufferBase + r.BufferCount - r.Pos).toNat


/-- The count `Precache( HintCount )` computes:
`Min( Min( HintCount, ARRAY_COUNT(Buffer) - (Pos&(ARRAY_COUNT(Buffer)-1)) ), Size-Pos )`. -/
def FArchiveFileReader.precacheCount (r : FArchiveFileReader) (HintCount : Int) : Int :=
  min (min HintCount (1024 - Int.land r.Pos (1024 - 1))) (r.Size - r.Pos)


/-! ## Runs of a reader and of a writer -/

/-- The readers reached from `r0` by `Seek` calls with `0 ≤ InPos ≤ Size` and `Serialize`
calls that stay within the file (`Pos + Length ≤ Size`). -/
inductive FArchiveFileReader.InRange (r0 : FArchiveFileReader) : FArchiveFileReader → Prop
  | start : FArchiveFileReader.InRange r0 r0
  | seek {r r1 : FArchiveFileReader} (InPos : Int) :
      FArchiveFileReader.InRange r0 r → 0 ≤ InPos → InPos ≤ r.Size → r.Seek InPos = some r1 →
      FArchiveFileReader.InRange r0 r1
  | serialize {r r1 : FArchiveFileReader} (V V1 : List BYTE) :
      FArchiveFileReader.InRange r0 r → r.Pos + V.length ≤ r.Size →
      r.Serialize V = some (r1, V1) → FArchiveFileReader.InRange r0 r1

/-- Successive `Serialize` calls on a writer, one per payload. -/
def FArchiveFileWriter.SerializeAll :
    List (List BYTE) → FArchiveFileWriter → Option FArchiveFileWriter
  | [], w => some w
  | V :: Vs, w =>
    match w.Serialize V with
    | none => none
    | some w1 => FArchiveFileWriter.SerializeAll Vs w1

/-- Successive `Serialize` calls on a reader, one per destination: the reader afterwards and
the destinations afterwards. -/
def FArchiveFileReader.SerializeAll :
    List (List BYTE) → FArchiveFileReader → Option (FArchiveFileReader × List (List BYTE))
  | [], r => some (r, [])
  | V :: Vs, r =>
    match r.Serialize V with
    | none => none
    | some (r1, V1) =>
      match FArchiveFileReader.SerializeAll Vs r1 with
      | none => none
      | some (r2, outs) => some (r2, V1 :: outs)


/-- A reader over the five-byte file `1 2 3 4 5`, after `Seek(2)`. -/
def sampleReader : FArchiveFileReader :=
  ((FArchiveFileReader.new (soundFile [1, 2, 3, 4, 5]) [] 5 (List.replicate 1024 0)).Seek 2).get
    rfl


/-- The readers reached from `r0` by `Seek` calls (which `check` `0 ≤ InPos ≤ Size`),
`Precache` calls with a non-negative hint, and `Serialize` calls whose
destination is allowed by `ok` in the state they are made in. -/
inductive FArchiveFileReader.Reached (ok : FArchiveFileReader → List BYTE → Prop)
    (r0 : FArchiveFileReader) : FArchiveFileReader → Prop
  | start : FArchiveFileReader.Reached ok r0 r0
  | seek {r r1 : FArchiveFileReader} (InPos : Int) :
      FArchiveFileReader.Reached ok r0 r → 0 ≤ InPos → InPos ≤ r.Size →
      r.Seek InPos = some r1 → FArchiveFileReader.Reached ok r0 r1
  | precache {r r1 : FArchiveFileReader} (HintCount : Int) :
      FArchiveFileReader.Reached ok r0 r → 0 ≤ HintCount → r.Precache HintCount = some r1 →
      FArchiveFileReader.Reached ok r0 r1
  | serialize {r r1 : FArchiveFileReader} (V V1 : List BYTE) :
      FArchiveFileReader.Reached ok r0 r → ok r V → r.Serialize V = some (r1, V1) →
      FArchiveFileReader.Reached ok r0 r1

/-- Every destination is allowed. -/
def anyLength : FArchiveFileReader → List BYTE → Prop := fun _ _ => True

/-- The destination is shorter than the reader's array, or the read stays within the file. -/
def shortOrInRange : FArchiveFileReader → List BYTE → Prop :=
  fun r V => (V.length : Int) < 1024 ∨ r.Pos + V.length ≤ r.Size

/-- The cursor and the end of the buffered window lie within the file, and the array has its
1024 bytes. -/
structure FArchiveFileReader.Bounded (r : FArchiveFileReader) : Prop where
  pos0 : 0 ≤ r.Pos
  posS : r.Pos ≤ r.Size
  fits : r.BufferBase + r.BufferCount ≤ r.Size
  array : r.Buffer.length = 1024

/-- The number of `ReadFile beyond EOF` lines among the reports. -/
def pastEndCount (reports : List Report) : Nat :=
  (reports.filter (fun rep => match rep with
    | Report.readBeyondEOF _ _ _ => true
    | _ => false)).length


/-- A writer holding three staged bytes over a handle whose every call fails. -/
def stagedWriter : FArchiveFileWriter :=
  { FArchiveFileWriter.new (brokenFile []) [] (List.replicate 4096 7) with BufferCount := 3 }


/-- A stream over a file holding `d`, positioned at the start, on which the call number 1 (the
second one) fails without moving a byte and every other call succeeds. -/
def flakyFile (d : List BYTE) : FILE :=
  { data := d, off := 0, script := fun i => if i = 1 then Fate.fail 0 else Fate.ok, calls := [],
    append := false }

/-- A reader over the five-byte file `1 2 3 4 5` whose error flag was set by the failed handle
seek of a `Seek(0)`; its buffer is empty and the handle stands at the cursor. -/
def seekFlaggedReader : FArchiveFileReader :=
  ((FArchiveFileReader.new (flakyFile [1, 2, 3, 4, 5]) [] 5 (List.replicate 1024 0)).Seek 0).get
    rfl


/-- The payload a call hands to the writer: the bytes of a `Serialize`, nothing otherwise. -/
def WriterCall.payload : WriterCall → List BYTE
  | .Serialize V => V
  | _ => []

/-- The concatenation of the payloads serialized by the calls, in order. -/
def WriterCall.payloads (calls : List WriterCall) : List BYTE :=
  (calls.map WriterCall.payload).flatten

/-- The call is a `Serialize` or a `Flush`. -/
def WriterCall.isStaging : WriterCall → Bool
  | .Serialize _ => true
  | .Flush => true
  | _ => false


/-- A writer over an empty file, its handle at offset 0, with the ten bytes `1 .. 10` staged:
the state of a fresh writer after `Serialize` of those bytes. -/
def tenByteWriter : FArchiveFileWriter :=
  { FArchiveFileWriter.new (soundFile []) []
      ([1, 2, 3, 4, 5, 6, 7, 8, 9, 10] ++ List.replicate 4086 0) with
    Pos := 10
    BufferCount := 10 }


/-! ## The loops of `Serialize`, turn by turn -/

/-- The reader loop goes from `cur` (the reader and what is left of the destination) to `next`
in one turn: `Length > 0`, the body reaches its end, and the destination
advances by the bytes copied. -/
def FArchiveFileReader.LoopStep (next cur : FArchiveFileReader × List BYTE) : Prop :=
  (cur.2.length : Int) > 0 ∧
  ∃ copied, cur.1.SerializeTurn cur.2 = some (FArchiveFileReader.Turn.next next.1 copied) ∧
    next.2 = cur.2.drop copied.length

/-- Whether `SerializeLoop fuel r V` stops because the fuel is used up, not because the loop
of `Serialize` ended. -/
def FArchiveFileReader.SerializeStarved : Nat → FArchiveFileReader → List BYTE → Bool
  | 0, _, _ => true
  | fuel + 1, r, V =>
    if (V.length : Int) > 0 then
      match r.SerializeTurn V with
      | some (FArchiveFileReader.Turn.next r1 copied) =>
        FArchiveFileReader.SerializeStarved fuel r1 (V.drop copied.length)
      | _ => false
    else false

/-- The writer loop goes from `cur` (the writer and what is left of the payload) to `next` in
one turn: `Length > Copy`, the chunk is staged, and `Flush` returns. -/
def FArchiveFileWriter.LoopStep (next cur : FArchiveFileWriter × List BYTE) : Prop :=
  (cur.2.length : Int) > 4096 - cur.1.BufferCount ∧
  ¬ (4096 - cur.1.BufferCount < 0 ∨ cur.1.BufferCount < 0) ∧
  FArchiveFileWriter.Flush
      { cur.1 with
        Buffer := appMemcpy cur.1.Buffer cur.1.BufferCount.toNat
          (cur.2.take (4096 - cur.1.BufferCount).toNat)
        BufferCount := cur.1.BufferCount + (4096 - cur.1.BufferCount) } = some next.1 ∧
  next.2 = cur.2.drop (4096 - cur.1.BufferCount).toNat

/-- Whether `SerializeLoop fuel w V` stops because the fuel is used up, not because the loop
of `Serialize` ended. -/
def FArchiveFileWriter.SerializeStarved : Nat → FArchiveFileWriter → List BYTE → Bool
  | 0, _, _ => true
  | fuel + 1, w, V =>
    if (V.length : Int) > 4096 - w.BufferCount then
      if 4096 - w.BufferCount < 0 ∨ w.BufferCount < 0 then false
      else
        match FArchiveFileWriter.Flush
            { w with
              Buffer := appMemcpy w.Buffer w.BufferCount.toNat
                (V.take (4096 - w.BufferCount).toNat)
              BufferCount := w.BufferCount + (4096 - w.BufferCount) } with
        | none => false
        | some w2 => FArchiveFileWriter.SerializeStarved fuel w2 (V.drop (4096 - w.BufferCount).toNat)
    else false

/-- The measure that decreases along the writer loop. -/
def FArchiveFileWriter.loopMeasure (s : FArchiveFileWriter × List BYTE) : Nat :=
  2 * s.2.length + (if s.1.BufferCount = 4096 then 1 else 0)

/-- A reader over the five-byte file `1 2 3 4 5` after a `Precache(3)` whose handle read
failed without moving a byte: the error flag is set, the buffer counts three
bytes at the cursor 0, and the array still holds the zeros it started with. -/
def staleReader : FArchiveFileReader :=
  ((FArchiveFileReader.new (flakyFile [1, 2, 3, 4, 5]) [] 5 (List.replicate 1024 0)).Precache 3).get
    rfl


theorem FArchiveFileReader.rd_Seek_isSome (r : FArchiveFileReader) (p : Int)
    (hF : r.File = true) (h0 : 0 ≤ p) (hS : p ≤ r.Size) : (r.Seek p).isSome = true := by
  simp [FArchiveFileReader.Seek, h0, hS, hF]

theorem FArchiveFileReader.rd_Seek_fields (r r1 : FArchiveFileReader) (p : Int)
    (h : r.Seek p = some r1) :
    r1.Pos = p ∧ r1.BufferBase = p ∧ r1.BufferCount = 0 ∧ r1.Size = r.Size ∧ r1.File = true ∧
      0 ≤ p ∧ p ≤ r.Size ∧ r1.Buffer = r.Buffer ∧ r1.stream = (fseek r.stream p).1 := by
  unfold FArchiveFileReader.Seek at h
  split_ifs at h with h1 h2 h3
  all_goals
    simp only [Option.some.injEq] at h
    subst h
    simp at h1 h2 h3
    split_ifs <;> simp [h1, h2, h3]

theorem FArchiveFileWriter.wr_Flush_isSome (w : FArchiveFileWriter)
    (hF : w.File = true) (h0 : 0 ≤ w.BufferCount) (h1 : w.BufferCount ≤ 4096) :
    (w.Flush).isSome = true := by
  unfold FArchiveFileWriter.Flush
  split_ifs with h2 h3
  · rcases h3 with h3 | h3 | h3
    · simp [hF] at h3
    · omega
    · omega
  · rfl
  · rfl

theorem FArchiveFileWriter.wr_Flush_fields (w w1 : FArchiveFileWriter) (h : w.Flush = some w1) :
    w1.BufferCount = 0 ∧ w1.Pos = w.Pos ∧ w1.File = w.File ∧ w1.Buffer = w.Buffer := by
  unfold FArchiveFileWriter.Flush at h
  split_ifs at h
  all_goals
    simp only [Option.some.injEq] at h
    subst h
    first
      | (split_ifs <;> simp)
      | simp

theorem FArchiveFileWriter.wr_Seek_isSome (w : FArchiveFileWriter) (p : Int)
    (hF : w.File = true) (h0 : 0 ≤ w.BufferCount) (h1 : w.BufferCount ≤ 4096) :
    (w.Seek p).isSome = true := by
  obtain ⟨w1, hw1⟩ := Option.isSome_iff_exists.mp (w.wr_Flush_isSome hF h0 h1)
  have hf := w.wr_Flush_fields w1 hw1
  unfold FArchiveFileWriter.Seek
  simp [hw1, hf.2.2.1, hF]

theorem FArchiveFileWriter.wr_Seek_fields (w w2 : FArchiveFileWriter) (p : Int)
    (h : w.Seek p = some w2) : w2.Pos = p ∧ w2.BufferCount = 0 := by
  unfold FArchiveFileWriter.Seek at h
  split at h
  · simp at h
  · rename_i w1 hw1
    have hf := w.wr_Flush_fields w1 hw1
    split_ifs at h
    all_goals
      simp only [Option.some.injEq] at h
      subst h
      split_ifs <;> simp [hf.1]

/-- C4: on a reader with an open handle and `0 ≤ p ≤ Size`, and on a writer with an open
handle and a staged count within the buffer, `Seek` returns and `Tell` right
after it gives the position sought, whatever the fate of the handle seek. -/
theorem C4_seek_then_tell (r : FArchiveFileReader) (w : FArchiveFileWriter) (p q : Int)
    (hrF : r.File = true) (hp0 : 0 ≤ p) (hpS : p ≤ r.Size)
    (hwF : w.File = true) (hc0 : 0 ≤ w.BufferCount) (hc1 : w.BufferCount ≤ 4096) :
    (∃ r1, r.Seek p = some r1 ∧ r1.Tell = p) ∧ (∃ w1, w.Seek q = some w1 ∧ w1.Tell = q) := by
  obtain ⟨r1, hr1⟩ := Option.isSome_iff_exists.mp (r.rd_Seek_isSome p hrF hp0 hpS)
  obtain ⟨w1, hw1⟩ := Option.isSome_iff_exists.mp (w.wr_Seek_isSome q hwF hc0 hc1)
  exact ⟨⟨r1, hr1, (r.rd_Seek_fields r1 p hr1).1⟩, ⟨w1, hw1, (w.wr_Seek_fields w1 q hw1).1⟩⟩

/-- C4 at a reader over a three-byte file and a fresh writer, both on a handle whose every
call fails. -/
theorem C4_seek_then_tell_witness :
    (∃ r1, (FArchiveFileReader.new (brokenFile [1, 2, 3]) [] 3 []).Seek 2 = some r1 ∧
        r1.Tell = 2) ∧
    (∃ w1, (FArchiveFileWriter.new (brokenFile []) [] []).Seek 5 = some w1 ∧ w1.Tell = 5) :=
  C4_seek_then_tell (FArchiveFileReader.new (brokenFile [1, 2, 3]) [] 3 [])
    (FArchiveFileWriter.new (brokenFile []) [] []) 2 5 rfl (by decide) (by decide) rfl
    (by decide) (by decide)

theorem FArchiveFileWriter.wr_Close_fields (w w1 : FArchiveFileWriter) (b : Bool)
    (h : w.Close = some (w1, b)) :
    w1.BufferCount = 0 ∧ w1.File = false ∧ b = !w1.ArIsError := by
  unfold FArchiveFileWriter.Close at h
  split at h
  · simp at h
  · rename_i w0 hw0
    have hf := w.wr_Flush_fields w0 hw0
    simp only [Option.some.injEq, Prod.mk.injEq] at h
    obtain ⟨h1, h2⟩ := h
    subst h1
    subst h2
    refine ⟨?_, rfl, rfl⟩
    split_ifs <;> simp [hf.1]

theorem FArchiveFileWriter.wr_Close_closed (w : FArchiveFileWriter)
    (hc : w.BufferCount = 0) (hF : w.File = false) : w.Close = some (w, !w.ArIsError) := by
  have h1 : w.Flush = some w := by
    unfold FArchiveFileWriter.Flush
    simp only [hc, ne_eq, not_true_eq_false, if_false, Option.some.injEq]
    cases w
    simp_all
  unfold FArchiveFileWriter.Close
  simp only [h1, hF, Bool.false_eq_true, if_false, Option.some.injEq, Prod.mk.injEq, and_true]
  cases w
  simp_all

/-- C5: a second `Close` right after a first one returns the same state (so it issues no
call on the handle and changes no field) and the same verdict, on every reader and
on every writer whose first `Close` returned. -/
theorem C5_close_idempotent (r : FArchiveFileReader) (w w1 : FArchiveFileWriter) (b : Bool)
    (h : w.Close = some (w1, b)) :
    r.Close.1.Close = r.Close ∧ w1.Close = some (w1, b) := by
  constructor
  · simp [FArchiveFileReader.Close]
  · have hf := w.wr_Close_fields w1 b h
    rw [w1.wr_Close_closed hf.1 hf.2.1, hf.2.2]

/-- C5 at a fresh reader and a fresh writer over an empty file. -/
theorem C5_close_idempotent_witness :
    (FArchiveFileReader.new (soundFile []) [] 0 []).Close.1.Close =
      (FArchiveFileReader.new (soundFile []) [] 0 []).Close ∧
    FArchiveFileWriter.Close
        { File := false
          stream := { data := [], off := 0, script := fun _ => Fate.ok,
                      calls := [Call.fclose true], append := false }
          Error := []
          ArIsError := false
          ArIsSaving := true
          ArIsPersistent := true
          Pos := 0
          BufferCount := 0
          Buffer := [] } =
      some ({ File := false
              stream := { data := [], off := 0, script := fun _ => Fate.ok,
                          calls := [Call.fclose true], append := false }
              Error := []
              ArIsError := false
              ArIsSaving := true
              ArIsPersistent := true
              Pos := 0
              BufferCount := 0
              Buffer := [] }, true) :=
  C5_close_idempotent (FArchiveFileReader.new (soundFile []) [] 0 [])
    (FArchiveFileWriter.new (soundFile []) [] []) _ true rfl

/-! ## The sticky error flag -/

theorem FArchiveFileReader.rd_Seek_sticky (r r1 : FArchiveFileReader) (p : Int)
    (he : r.ArIsError = true) (h : r.Seek p = some r1) : r1.ArIsError = true := by
  unfold FArchiveFileReader.Seek at h
  split_ifs at h
  all_goals
    simp only [Option.some.injEq] at h
    subst h
    split_ifs <;> simp [he]

theorem FArchiveFileReader.rd_Precache_sticky (r r1 : FArchiveFileReader) (n : Int)
    (he : r.ArIsError = true) (h : r.Precache n = some r1) : r1.ArIsError = true := by
  unfold FArchiveFileReader.Precache at h
  simp only at h
  split_ifs at h
  all_goals
    simp only [Option.some.injEq] at h
    subst h
    simp [he]

theorem FArchiveFileReader.rd_SerializeCopy_sticky (r : FArchiveFileReader) (c : Int)
    (t : FArchiveFileReader.Turn) (he : r.ArIsError = true) (h : r.SerializeCopy c = some t) :
    t.reader.ArIsError = true := by
  unfold FArchiveFileReader.SerializeCopy at h
  split_ifs at h
  simp only [Option.some.injEq] at h
  subst h
  simp [FArchiveFileReader.Turn.reader, he]

theorem FArchiveFileReader.rd_SerializeTurn_copy (r : FArchiveFileReader) (V : List BYTE)
    (h : min (V.length : Int) (r.BufferBase + r.BufferCount - r.Pos) ≠ 0) :
    r.SerializeTurn V =
      r.SerializeCopy (min (V.length : Int) (r.BufferBase + r.BufferCount - r.Pos)) := by
  unfold FArchiveFileReader.SerializeTurn
  simp only
  rw [if_neg h]

theorem FArchiveFileReader.rd_SerializeTurn_direct (r : FArchiveFileReader) (V : List BYTE)
    (h : min (V.length : Int) (r.BufferBase + r.BufferCount - r.Pos) = 0)
    (hL : (V.length : Int) ≥ 1024) (hF : r.File = true) :
    r.SerializeTurn V =
      some (FArchiveFileReader.Turn.ret
        { r with
          stream := (fread r.stream V.length).1
          ArIsError := if (fread r.stream V.length).2.2 ≠ 1 then true else r.ArIsError
          Error := if (fread r.stream V.length).2.2 ≠ 1 then
              r.Error ++ [Report.freadFailedLength V.length] else r.Error
          Pos := r.Pos + V.length
          BufferBase := r.BufferBase + V.length }
        (appMemcpy V 0 (fread r.stream V.length).2.1)) := by
  unfold FArchiveFileReader.SerializeTurn
  simp only
  rw [if_pos h, if_pos hL, if_neg (by simp [hF])]
  by_cases hr : (fread r.stream V.length).2.2 ≠ 1
  · simp only [if_pos hr]
  · simp only [if_neg hr]

theorem FArchiveFileReader.rd_SerializeTurn_null (r : FArchiveFileReader) (V : List BYTE)
    (h : min (V.length : Int) (r.BufferBase + r.BufferCount - r.Pos) = 0)
    (hL : (V.length : Int) ≥ 1024) (hF : r.File = false) :
    r.SerializeTurn V = none := by
  unfold FArchiveFileReader.SerializeTurn
  simp only
  rw [if_pos h, if_pos hL, if_pos hF]

theorem FArchiveFileReader.rd_SerializeTurn_refill (r : FArchiveFileReader) (V : List BYTE)
    (h : min (V.length : Int) (r.BufferBase + r.BufferCount - r.Pos) = 0)
    (hL : ¬ (V.length : Int) ≥ 1024) :
    r.SerializeTurn V =
      match r.Precache MAXINT with
      | none => none
      | some r1 =>
        if min (V.length : Int) (r1.BufferBase + r1.BufferCount - r1.Pos) ≤ 0 then
          some (FArchiveFileReader.Turn.ret
            { r1 with ArIsError := true,
                      Error := r1.Error ++ [Report.readBeyondEOF r1.Pos V.length r1.Size] } V)
        else if r1.ArIsError = true then some (FArchiveFileReader.Turn.ret r1 V)
        else r1.SerializeCopy (min (V.length : Int) (r1.BufferBase + r1.BufferCount - r1.Pos)) := by
  unfold FArchiveFileReader.SerializeTurn
  simp only
  rw [if_pos h, if_neg hL]
  cases r.Precache MAXINT with
  | none => rfl
  | some r1 =>
    simp only
    by_cases hc : min (V.length : Int) (r1.BufferBase + r1.BufferCount - r1.Pos) ≤ 0
    · simp only [if_pos hc, if_true]
    · simp only [if_neg hc]

theorem FArchiveFileReader.rd_SerializeTurn_sticky (r : FArchiveFileReader) (V : List BYTE)
    (t : FArchiveFileReader.Turn) (he : r.ArIsError = true) (h : r.SerializeTurn V = some t) :
    t.reader.ArIsError = true := by
  by_cases h1 : min (V.length : Int) (r.BufferBase + r.BufferCount - r.Pos) = 0
  · by_cases h2 : (V.length : Int) ≥ 1024
    · by_cases h3 : r.File = true
      · rw [r.rd_SerializeTurn_direct V h1 h2 h3] at h
        simp only [Option.some.injEq] at h
        subst h
        simp [FArchiveFileReader.Turn.reader, he]
      · rw [r.rd_SerializeTurn_null V h1 h2 (by simpa using h3)] at h
        simp at h
    · rw [r.rd_SerializeTurn_refill V h1 h2] at h
      split at h
      · simp at h
      · rename_i r1 hr1
        have he1 := r.rd_Precache_sticky r1 _ he hr1
        split_ifs at h with h4
        · simp only [Option.some.injEq] at h
          subst h
          simp [FArchiveFileReader.Turn.reader]
        · simp only [Option.some.injEq] at h
          subst h
          simp [FArchiveFileReader.Turn.reader, he1]
  · rw [r.rd_SerializeTurn_copy V h1] at h
    exact r.rd_SerializeCopy_sticky _ t he h

theorem FArchiveFileReader.rd_SerializeLoop_sticky (fuel : Nat) :
    ∀ (r : FArchiveFileReader) (V : List BYTE) (res : FArchiveFileReader × List BYTE),
      r.ArIsError = true → FArchiveFileReader.SerializeLoop fuel r V = some res →
      res.1.ArIsError = true := by
  induction fuel with
  | zero => intro r V res _ h; simp [FArchiveFileReader.SerializeLoop] at h
  | succ n ih =>
    intro r V res he h
    unfold FArchiveFileReader.SerializeLoop at h
    split_ifs at h with h1
    · split at h
      · simp at h
      · rename_i r1 V1 ht
        simp only [Option.some.injEq] at h
        subst h
        exact r.rd_SerializeTurn_sticky V _ he ht
      · rename_i r1 copied ht
        have he1 := r.rd_SerializeTurn_sticky V _ he ht
        split at h
        · simp at h
        · rename_i r2 V2 hl
          simp only [Option.some.injEq] at h
          subst h
          exact ih r1 _ (r2, V2) he1 hl
    · simp only [Option.some.injEq] at h
      subst h
      exact he

theorem FArchiveFileReader.rd_Serialize_sticky (r : FArchiveFileReader) (V : List BYTE)
    (res : FArchiveFileReader × List BYTE) (he : r.ArIsError = true)
    (h : r.Serialize V = some res) : res.1.ArIsError = true :=
  FArchiveFileReader.rd_SerializeLoop_sticky _ r V res he h

theorem FArchiveFileWriter.wr_Flush_sticky (w w1 : FArchiveFileWriter)
    (he : w.ArIsError = true) (h : w.Flush = some w1) : w1.ArIsError = true := by
  unfold FArchiveFileWriter.Flush at h
  split_ifs at h
  all_goals
    simp only [Option.some.injEq] at h
    subst h
    first
      | (split_ifs <;> simp [he])
      | simp [he]

theorem FArchiveFileWriter.wr_Seek_sticky (w w2 : FArchiveFileWriter) (p : Int)
    (he : w.ArIsError = true) (h : w.Seek p = some w2) : w2.ArIsError = true := by
  unfold FArchiveFileWriter.Seek at h
  split at h
  · simp at h
  · rename_i w1 hw1
    have he1 := w.wr_Flush_sticky w1 he hw1
    split_ifs at h
    all_goals
      simp only [Option.some.injEq] at h
      subst h
      split_ifs <;> simp [he1]

theorem FArchiveFileWriter.wr_Close_sticky (w w2 : FArchiveFileWriter) (b : Bool)
    (he : w.ArIsError = true) (h : w.Close = some (w2, b)) : w2.ArIsError = true := by
  unfold FArchiveFileWriter.Close at h
  split at h
  · simp at h
  · rename_i w1 hw1
    have he1 := w.wr_Flush_sticky w1 he hw1
    simp only [Option.some.injEq, Prod.mk.injEq] at h
    obtain ⟨h1, -⟩ := h
    subst h1
    split_ifs <;> simp [he1]

theorem FArchiveFileWriter.wr_SerializeLoop_sticky (fuel : Nat) :
    ∀ (w : FArchiveFileWriter) (V : List BYTE) (res : FArchiveFileWriter × List BYTE),
      w.ArIsError = true → FArchiveFileWriter.SerializeLoop fuel w V = some res →
      res.1.ArIsError = true := by
  induction fuel with
  | zero => intro w V res _ h; simp [FArchiveFileWriter.SerializeLoop] at h
  | succ n ih =>
    intro w V res he h
    unfold FArchiveFileWriter.SerializeLoop at h
    simp only at h
    split_ifs at h with h1 h2
    · split at h
      · simp at h
      · rename_i w2 hw2
        exact ih w2 _ res (FArchiveFileWriter.wr_Flush_sticky _ w2 (by simpa using he) hw2) h
    · simp only [Option.some.injEq] at h
      subst h
      exact he

theorem FArchiveFileWriter.wr_Serialize_sticky (w w2 : FArchiveFileWriter) (V : List BYTE)
    (he : w.ArIsError = true) (h : w.Serialize V = some w2) : w2.ArIsError = true := by
  unfold FArchiveFileWriter.Serialize at h
  split at h
  · simp at h
  · rename_i w1 V1 hl
    have he1 := FArchiveFileWriter.wr_SerializeLoop_sticky _ _ V (w1, V1) (by simpa using he) hl
    split_ifs at h
    all_goals
      simp only [Option.some.injEq] at h
      subst h
      exact he1

theorem ReaderCall.rd_run_sticky (c : ReaderCall) (r r1 : FArchiveFileReader)
    (he : r.ArIsError = true) (h : c.run r = some r1) : r1.ArIsError = true := by
  cases c with
  | Seek p => exact r.rd_Seek_sticky r1 p he h
  | Precache n => exact r.rd_Precache_sticky r1 n he h
  | Serialize V =>
    simp only [ReaderCall.run, Option.map_eq_some'] at h
    obtain ⟨res, h1, h2⟩ := h
    subst h2
    exact r.rd_Serialize_sticky V res he h1
  | Tell => simp only [ReaderCall.run, Option.some.injEq] at h; subst h; exact he
  | TotalSize => simp only [ReaderCall.run, Option.some.injEq] at h; subst h; exact he
  | Close =>
    simp only [ReaderCall.run, Option.some.injEq] at h
    subst h
    simp only [FArchiveFileReader.Close]
    split_ifs <;> simp [he]

theorem WriterCall.wr_run_sticky (c : WriterCall) (w w1 : FArchiveFileWriter)
    (he : w.ArIsError = true) (h : c.run w = some w1) : w1.ArIsError = true := by
  cases c with
  | Seek p => exact w.wr_Seek_sticky w1 p he h
  | Serialize V => exact w.wr_Serialize_sticky w1 V he h
  | Flush => exact w.wr_Flush_sticky w1 he h
  | Tell => simp only [WriterCall.run, Option.some.injEq] at h; subst h; exact he
  | Close =>
    simp only [WriterCall.run, Option.map_eq_some'] at h
    obtain ⟨res, h1, h2⟩ := h
    subst h2
    exact w.wr_Close_sticky res.1 res.2 he h1

theorem ReaderCall.rd_runAll_sticky (cs : List ReaderCall) :
    ∀ (r r1 : FArchiveFileReader), r.ArIsError = true → ReaderCall.runAll cs r = some r1 →
      r1.ArIsError = true := by
  induction cs with
  | nil => intro r r1 he h; simp only [ReaderCall.runAll, Option.some.injEq] at h; subst h; exact he
  | cons c cs ih =>
    intro r r1 he h
    simp only [ReaderCall.runAll, Option.bind_eq_some] at h
    obtain ⟨r2, h1, h2⟩ := h
    exact ih r2 r1 (c.rd_run_sticky r r2 he h1) h2

theorem WriterCall.wr_runAll_sticky (cs : List WriterCall) :
    ∀ (w w1 : FArchiveFileWriter), w.ArIsError = true → WriterCall.runAll cs w = some w1 →
      w1.ArIsError = true := by
  induction cs with
  | nil => intro w w1 he h; simp only [WriterCall.runAll, Option.some.injEq] at h; subst h; exact he
  | cons c cs ih =>
    intro w w1 he h
    simp only [WriterCall.runAll, Option.bind_eq_some] at h
    obtain ⟨w2, h1, h2⟩ := h
    exact ih w2 w1 (c.wr_run_sticky w w2 he h1) h2

/-- C9: on a reader and on a writer whose error flag is set, the flag is still set after any
call (`Seek`, `Precache`, `Serialize`, `Flush`, `Tell`, `TotalSize`, `Close`) that
returns, and so after any sequence of calls. -/
theorem C9_error_flag_sticky (r r1 : FArchiveFileReader) (w w1 : FArchiveFileWriter)
    (rcalls : List ReaderCall) (wcalls : List WriterCall)
    (her : r.ArIsError = true) (hew : w.ArIsError = true)
    (hr : ReaderCall.runAll rcalls r = some r1) (hw : WriterCall.runAll wcalls w = some w1) :
    r1.ArIsError = true ∧ w1.ArIsError = true :=
  ⟨ReaderCall.rd_runAll_sticky rcalls r r1 her hr, WriterCall.wr_runAll_sticky wcalls w w1 hew hw⟩

/-- C9 at a reader and a writer with the flag set, each put through a seek, a transfer
and a close. -/
theorem C9_error_flag_sticky_witness :
    ((ReaderCall.runAll [ReaderCall.Seek 1, ReaderCall.Serialize [0], ReaderCall.Close]
        flaggedReader).get rfl).ArIsError = true ∧
    ((WriterCall.runAll [WriterCall.Serialize [7], WriterCall.Seek 0, WriterCall.Close]
        flaggedWriter).get rfl).ArIsError = true :=
  C9_error_flag_sticky flaggedReader _ flaggedWriter _
    [ReaderCall.Seek 1, ReaderCall.Serialize [0], ReaderCall.Close]
    [WriterCall.Serialize [7], WriterCall.Seek 0, WriterCall.Close]
    rfl rfl (Option.some_get _).symm (Option.some_get _).symm

/-! ## The calls on the stream -/

theorem fwrite_calls (f : FILE) (bytes : List BYTE) (hb : bytes ≠ []) :
    (fwrite f bytes).1.calls = f.calls ++ [Call.fwrite bytes (decide ((fwrite f bytes).2 = 1))] := by
  have hl : ¬ bytes.length = 0 := by simpa using hb
  unfold fwrite
  rw [if_neg hl]
  cases f.fate <;> simp

theorem fwrite_script (f : FILE) (bytes : List BYTE) : (fwrite f bytes).1.script = f.script := by
  unfold fwrite
  split_ifs
  · rfl
  · cases f.fate <;> rfl

theorem fwrite_sound (f : FILE) (bytes : List BYTE) (hf : f.faultless) (hb : bytes ≠ []) :
    fwrite f bytes =
      ({ f with data := pwrite f.data f.wpos bytes, off := f.wpos + bytes.length,
                calls := f.calls ++ [Call.fwrite bytes true] }, 1) := by
  have hl : ¬ bytes.length = 0 := by simpa using hb
  have hfate : f.fate = Fate.ok := hf _
  unfold fwrite
  rw [if_neg hl, hfate]

theorem fseek_calls (f : FILE) (p : Int) :
    (fseek f p).1.calls = f.calls ++ [Call.fseek p (decide ((fseek f p).2 = 0))] := by
  unfold fseek
  split_ifs <;> simp

theorem fseek_script (f : FILE) (p : Int) : (fseek f p).1.script = f.script := by
  unfold fseek
  split_ifs <;> rfl

theorem fseek_data (f : FILE) (p : Int) : (fseek f p).1.data = f.data := by
  unfold fseek
  split_ifs <;> rfl

theorem fseek_sound (f : FILE) (p : Int) (hf : f.faultless) (hp : 0 ≤ p) :
    fseek f p = ({ f with off := p.toNat, calls := f.calls ++ [Call.fseek p true] }, 0) := by
  have hfate : f.fate = Fate.ok := hf _
  unfold fseek
  rw [if_pos ⟨hfate, hp⟩]

theorem fclose_calls (f : FILE) :
    (fclose f).1.calls = f.calls ++ [Call.fclose (decide ((fclose f).2 = 0))] := by
  unfold fclose
  split_ifs <;> simp

theorem fclose_data (f : FILE) : (fclose f).1.data = f.data := by
  unfold fclose
  split_ifs <;> rfl

theorem fclose_sound (f : FILE) (hf : f.faultless) :
    fclose f = ({ f with calls := f.calls ++ [Call.fclose true] }, 0) := by
  have hfate : f.fate = Fate.ok := hf _
  unfold fclose
  rw [if_pos hfate]

theorem fread_script (f : FILE) (n : Nat) : (fread f n).1.script = f.script := by
  unfold fread
  by_cases hn : n = 0
  · rw [if_pos hn]
  · rw [if_neg hn]
    cases f.fate with
    | ok => simp only; split_ifs <;> rfl
    | fail k => rfl

theorem fread_data (f : FILE) (n : Nat) : (fread f n).1.data = f.data := by
  unfold fread
  by_cases hn : n = 0
  · rw [if_pos hn]
  · rw [if_neg hn]
    cases f.fate with
    | ok => simp only; split_ifs <;> rfl
    | fail k => rfl

theorem fread_zero (f : FILE) : fread f 0 = (f, [], 0) := by
  unfold fread
  rw [if_pos rfl]

theorem fread_sound (f : FILE) (n : Nat) (hf : f.faultless) (hn : n ≠ 0)
    (ha : f.off + n ≤ f.data.length) :
    fread f n =
      ({ f with off := f.off + n, calls := f.calls ++ [Call.fread n true] },
        (f.data.drop f.off).take n, 1) := by
  have hfate : f.fate = Fate.ok := hf _
  have hlen : n ≤ (f.data.drop f.off).length := by
    rw [List.length_drop]
    omega
  unfold fread
  rw [if_neg hn, hfate]
  simp only
  rw [if_pos hlen]

theorem fread_short (f : FILE) (n : Nat) (hf : f.faultless) (hn : n ≠ 0)
    (ha : f.data.length < f.off + n) :
    fread f n =
      ({ f with off := f.off + (f.data.drop f.off).length,
                calls := f.calls ++ [Call.fread n false] },
        f.data.drop f.off, 0) := by
  have hfate : f.fate = Fate.ok := hf _
  have hlen : ¬ n ≤ (f.data.drop f.off).length := by
    rw [List.length_drop]
    omega
  unfold fread
  rw [if_neg hn, hfate]
  simp only
  rw [if_neg hlen]

/-! ## Arrays and file contents -/

theorem appMemcpy_length (B : List BYTE) (ofs : Nat) (X : List BYTE)
    (h : ofs + X.length ≤ B.length) : (appMemcpy B ofs X).length = B.length := by
  unfold appMemcpy
  simp only [List.length_append, List.length_take, List.length_drop]
  omega

theorem appMemcpy_take (B : List BYTE) (ofs : Nat) (X : List BYTE)
    (h : ofs + X.length ≤ B.length) :
    (appMemcpy B ofs X).take (ofs + X.length) = B.take ofs ++ X := by
  unfold appMemcpy
  have h1 : (B.take ofs ++ X).length = ofs + X.length := by
    simp only [List.length_append, List.length_take]
    omega
  rw [← h1, List.take_left']
  rfl

theorem pwrite_nil (bytes : List BYTE) : pwrite [] 0 bytes = bytes := by
  unfold pwrite
  split_ifs with h
  · exact (List.length_eq_zero.mp h).symm
  · simp

theorem pwrite_empty (data : List BYTE) (off : Nat) : pwrite data off [] = data := by
  simp [pwrite]

theorem pwrite_cons (data : List BYTE) (off : Nat) (a : List BYTE) (ha : a ≠ []) :
    pwrite data off a =
      data.take off ++ List.replicate (off - data.length) 0 ++ a
        ++ data.drop (off + a.length) := by
  unfold pwrite
  rw [if_neg (by simpa using ha)]

theorem pwrite_pwrite (data : List BYTE) (off : Nat) (a b : List BYTE) :
    pwrite (pwrite data off a) (off + a.length) b = pwrite data off (a ++ b) := by
  by_cases ha : a = []
  · subst ha
    simp [pwrite_empty]
  by_cases hb : b = []
  · subst hb
    simp [pwrite_empty]
  have hab : a ++ b ≠ [] := by simp [ha]
  have hP : (List.take off data ++ List.replicate (off - data.length) (0 : BYTE)).length
      = off := by
    simp only [List.length_append, List.length_take, List.length_replicate]
    omega
  have hlen : (List.take off data ++ List.replicate (off - data.length) (0 : BYTE) ++ a).length
      = off + a.length := by
    rw [List.length_append, hP]
  have e1 : (pwrite data off a).take (off + a.length)
      = List.take off data ++ List.replicate (off - data.length) (0 : BYTE) ++ a := by
    rw [pwrite_cons data off a ha, ← hlen, List.take_left']
    rfl
  have e2 : (pwrite data off a).drop (off + a.length + b.length)
      = data.drop (off + (a ++ b).length) := by
    rw [pwrite_cons data off a ha]
    have h3 : off + a.length + b.length
        = (List.take off data ++ List.replicate (off - data.length) (0 : BYTE) ++ a).length
          + b.length := by rw [hlen]
    rw [h3, List.drop_append, List.drop_drop, List.length_append]
    congr 1
    omega
  have e3 : off + a.length - (pwrite data off a).length = 0 := by
    rw [pwrite_cons data off a ha, List.length_append, hlen]
    omega
  rw [pwrite_cons (pwrite data off a) (off + a.length) b hb, e1, e2, e3,
    pwrite_cons data off (a ++ b) hab]
  simp

theorem FILE.wrote_refl (f : FILE) : f.wrote f [] := by
  simp [FILE.wrote, pwrite_empty]

theorem FILE.wrote_trans (f g h : FILE) (a b : List (List BYTE))
    (h1 : f.wrote g a) (h2 : g.wrote h b) : f.wrote h (a ++ b) := by
  obtain ⟨c1, d1, o1, s1⟩ := h1
  obtain ⟨c2, d2, o2, s2⟩ := h2
  refine ⟨?_, ?_, ?_, ?_⟩
  · rw [c2, c1, List.map_append, List.append_assoc]
  · rw [d2, d1, o1, List.flatten_append, pwrite_pwrite]
  · rw [o2, o1, List.flatten_append, List.length_append, Nat.add_assoc]
  · rw [s2, s1]

theorem pwrite_length_end (data bytes : List BYTE) :
    (pwrite data data.length bytes).length = data.length + bytes.length := by
  unfold pwrite
  split_ifs with h
  · omega
  · simp

theorem FILE.wpos_after (f : FILE) (bytes : List BYTE) (c : List Call) :
    FILE.wpos { f with data := pwrite f.data f.wpos bytes, off := f.wpos + bytes.length,
                       calls := c } = f.wpos + bytes.length := by
  unfold FILE.wpos
  by_cases ha : f.append = true
  · simp only [ha, if_true]
    exact pwrite_length_end f.data bytes
  · simp only [ha, if_false]
    simp

theorem FILE.wrote_fwrite (f : FILE) (bytes : List BYTE) (hf : f.faultless) (hb : bytes ≠ []) :
    f.wrote (fwrite f bytes).1 [bytes] := by
  rw [fwrite_sound f bytes hf hb]
  refine ⟨by simp, by simp, ?_, rfl⟩
  rw [FILE.wpos_after]
  simp

theorem FILE.wrote_faultless (f g : FILE) (chunks : List (List BYTE))
    (h : f.wrote g chunks) (hf : f.faultless) : g.faultless := by
  intro i
  rw [h.2.2.2]
  exact hf i

theorem anyFailed_snoc (calls : List Call) (c : Call) :
    anyFailed (calls ++ [c]) = (anyFailed calls || !c.ok) := by
  simp [anyFailed]

theorem FArchiveFileWriter.wr_Tracks_step (base : List Call) (w w1 : FArchiveFileWriter)
    (c : Call) (hc : w1.stream.calls = w.stream.calls ++ [c])
    (he : w1.ArIsError = (w.ArIsError || !c.ok)) (h : w.Tracks base) : w1.Tracks base := by
  obtain ⟨issued, h1, h2⟩ := h
  refine ⟨issued ++ [c], ?_, ?_⟩
  · rw [hc, h1, List.append_assoc]
  · rw [he, h2, anyFailed_snoc]

theorem FArchiveFileWriter.wr_staged_length (w : FArchiveFileWriter) (h : w.WellFormed) :
    (w.staged.length : Int) = w.BufferCount := by
  obtain ⟨-, h0, h1, hB⟩ := h
  unfold FArchiveFileWriter.staged
  rw [List.length_take, hB]
  omega

theorem FArchiveFileWriter.wr_Flush_zero (w : FArchiveFileWriter) (h : w.BufferCount = 0) :
    w.Flush = some w := by
  unfold FArchiveFileWriter.Flush
  simp only [h, ne_eq, not_true_eq_false, if_false, Option.some.injEq]
  cases w
  simp_all

theorem FArchiveFileWriter.wr_Flush_pos (w : FArchiveFileWriter) (hF : w.File = true)
    (h0 : 0 < w.BufferCount) (h1 : w.BufferCount ≤ 4096) :
    w.Flush =
      some { w with
        stream := (fwrite w.stream w.staged).1
        ArIsError := (w.ArIsError || decide ((fwrite w.stream w.staged).2 ≠ 1))
        Error := if (fwrite w.stream w.staged).2 ≠ 1 then w.Error ++ [Report.WriteFailed]
          else w.Error
        BufferCount := 0 } := by
  have hne : w.BufferCount ≠ 0 := by omega
  have hok : ¬ (w.File = false ∨ w.BufferCount < 0 ∨ w.BufferCount > 4096) := by
    simp only [hF, Bool.true_eq_false, false_or, not_or]
    omega
  unfold FArchiveFileWriter.Flush
  rw [if_pos hne, if_neg hok]
  simp only [FArchiveFileWriter.staged]
  by_cases hr : (fwrite w.stream (List.take w.BufferCount.toNat w.Buffer)).2 ≠ 1
  · simp [hr]
  · simp [hr]

theorem FArchiveFileWriter.wr_staged_ne_nil (w : FArchiveFileWriter) (h : w.WellFormed)
    (h0 : w.BufferCount ≠ 0) : w.staged ≠ [] := by
  have hl := w.wr_staged_length h
  intro hnil
  rw [hnil] at hl
  simp at hl
  exact h0 hl.symm

theorem FArchiveFileWriter.wr_Flush_spec (w : FArchiveFileWriter) (h : w.WellFormed) :
    ∃ w1, w.Flush = some w1 ∧ w1.WellFormed ∧ w1.BufferCount = 0 ∧ w1.Pos = w.Pos ∧
      w1.Buffer = w.Buffer ∧ (∀ base, w.Tracks base → w1.Tracks base) ∧
      (w.stream.faultless →
        w.stream.wrote w1.stream (if w.BufferCount = 0 then [] else [w.staged]) ∧
        w1.ArIsError = w.ArIsError ∧ w1.Error = w.Error) := by
  by_cases hz : w.BufferCount = 0
  · refine ⟨w, w.wr_Flush_zero hz, h, hz, rfl, rfl, fun _ hb => hb, fun _ => ?_⟩
    rw [if_pos hz]
    exact ⟨w.stream.wrote_refl, rfl, rfl⟩
  · obtain ⟨hF, h0, h1, hB⟩ := h
    have hne := w.wr_staged_ne_nil ⟨hF, h0, h1, hB⟩ hz
    refine ⟨_, w.wr_Flush_pos hF (by omega) h1, ⟨hF, by simp, by simp, hB⟩, rfl, rfl, rfl,
      ?_, ?_⟩
    · intro base hb
      refine FArchiveFileWriter.wr_Tracks_step base w _
        (Call.fwrite w.staged (decide ((fwrite w.stream w.staged).2 = 1))) ?_ ?_ hb
      · exact fwrite_calls w.stream w.staged hne
      · simp [Call.ok]
    · intro hf
      rw [if_neg hz]
      refine ⟨FILE.wrote_fwrite w.stream w.staged hf hne, ?_, ?_⟩
      · simp [fwrite_sound w.stream w.staged hf hne]
      · simp [fwrite_sound w.stream w.staged hf hne]

theorem FArchiveFileWriter.wr_stage (w : FArchiveFileWriter) (X : List BYTE) (k : Int)
    (h : w.WellFormed) (hk : k = w.BufferCount + X.length) (hX : k ≤ 4096) :
    ({ w with Buffer := appMemcpy w.Buffer w.BufferCount.toNat X,
              BufferCount := k } : FArchiveFileWriter).WellFormed ∧
    ({ w with Buffer := appMemcpy w.Buffer w.BufferCount.toNat X,
              BufferCount := k } : FArchiveFileWriter).staged = w.staged ++ X := by
  obtain ⟨hF, h0, h1, hB⟩ := h
  have hfit : w.BufferCount.toNat + X.length ≤ w.Buffer.length := by
    rw [hB]
    omega
  refine ⟨⟨hF, by simp only; omega, hX, ?_⟩, ?_⟩
  · simp only
    rw [appMemcpy_length _ _ _ hfit, hB]
  · simp only [FArchiveFileWriter.staged]
    have hkn : k.toNat = w.BufferCount.toNat + X.length := by omega
    rw [hkn, appMemcpy_take _ _ _ hfit]

theorem FArchiveFileWriter.wr_SerializeLoop_spec (fuel : Nat) :
    ∀ (w : FArchiveFileWriter) (V : List BYTE), w.WellFormed →
      (V.length : Int) + w.BufferCount ≤ 4096 * fuel → 0 < fuel →
      ∃ w1 V1, FArchiveFileWriter.SerializeLoop fuel w V = some (w1, V1) ∧ w1.WellFormed ∧
        (V1.length : Int) ≤ 4096 - w1.BufferCount ∧ w1.Pos = w.Pos ∧ (V ≠ [] → V1 ≠ []) ∧
        (∀ base, w.Tracks base → w1.Tracks base) ∧
        (w.stream.faultless →
          ∃ chunks, w.stream.wrote w1.stream chunks ∧ (∀ c ∈ chunks, c.length = 4096) ∧
            chunks.flatten ++ w1.staged ++ V1 = w.staged ++ V ∧
            w1.ArIsError = w.ArIsError ∧ w1.Error = w.Error) := by
  induction fuel with
  | zero => intro w V _ _ h; omega
  | succ n ih =>
    intro w V hwf hfuel _
    by_cases hgt : (V.length : Int) > 4096 - w.BufferCount
    · have hwf0 := hwf
      obtain ⟨hF, h0, h1, hB⟩ := hwf
      have hno : ¬ (4096 - w.BufferCount < 0 ∨ w.BufferCount < 0) := by omega
      have hXlen : (V.take (4096 - w.BufferCount).toNat).length
          = (4096 - w.BufferCount).toNat := by
        rw [List.length_take]
        omega
      have hk : w.BufferCount + (4096 - w.BufferCount)
          = w.BufferCount + ((V.take (4096 - w.BufferCount).toNat).length : Int) := by
        rw [hXlen]
        omega
      obtain ⟨hwf1, hst1⟩ := w.wr_stage (V.take (4096 - w.BufferCount).toNat)
        (w.BufferCount + (4096 - w.BufferCount)) hwf0 hk (by omega)
      obtain ⟨w2, hfl, hwf2, hc2, hp2, -, htr2, hs2⟩ := FArchiveFileWriter.wr_Flush_spec _ hwf1
      have hdrop : ((V.drop (4096 - w.BufferCount).toNat).length : Int) + w2.BufferCount
          ≤ 4096 * n := by
        rw [List.length_drop, hc2]
        omega
      have hn : 0 < n := by omega
      obtain ⟨w3, V3, hl3, hwf3, hV3, hp3, hne3, htr3, hs3⟩ :=
        ih w2 (V.drop (4096 - w.BufferCount).toNat) hwf2 hdrop hn
      refine ⟨w3, V3, ?_, hwf3, hV3, ?_, ?_, ?_, ?_⟩
      · unfold FArchiveFileWriter.SerializeLoop
        simp only
        rw [if_pos hgt, if_neg hno, hfl]
        exact hl3
      · rw [hp3, hp2]
      · intro _
        apply hne3
        intro hnil
        have := congrArg List.length hnil
        rw [List.length_drop] at this
        simp only [List.length_nil] at this
        omega
      · intro base hb
        exact htr3 base (htr2 base hb)
      · intro hf
        obtain ⟨hw12, he12, hE12⟩ := hs2 hf
        have hne0 : ¬ (w.BufferCount + (4096 - w.BufferCount) = 0) := by omega
        simp only [hne0, if_false] at hw12
        have hf2 : w2.stream.faultless := FILE.wrote_faultless _ _ _ hw12 hf
        obtain ⟨chunks, hw23, hlen, hjoin, he23, hE23⟩ := hs3 hf2
        have hst2 : w2.staged = [] := by
          simp [FArchiveFileWriter.staged, hc2]
        refine ⟨_ :: chunks, FILE.wrote_trans _ _ _ [_] chunks hw12 hw23, ?_, ?_, ?_, ?_⟩
        · intro c hc
          rcases List.mem_cons.mp hc with hc | hc
          · subst hc
            have := FArchiveFileWriter.wr_staged_length _ hwf1
            simp only at this
            omega
          · exact hlen c hc
        · rw [List.flatten_cons, List.append_assoc, List.append_assoc,
            ← List.append_assoc chunks.flatten, hjoin, hst2, hst1, List.nil_append,
            List.append_assoc, List.take_append_drop]
        · rw [he23, he12]
        · rw [hE23, hE12]
    · refine ⟨w, V, ?_, hwf, by omega, rfl, fun h => h, fun _ hb => hb, fun _ => ?_⟩
      · unfold FArchiveFileWriter.SerializeLoop
        simp only
        rw [if_neg hgt]
      · exact ⟨[], w.stream.wrote_refl, by simp, by simp, rfl, rfl⟩

theorem wrapINT_add (a b : Int) : wrapINT (wrapINT a + b) = wrapINT (a + b) := by
  unfold wrapINT
  omega

theorem wrapINT_of_range (x : Int) (h0 : -2147483648 ≤ x) (h1 : x ≤ 2147483647) :
    wrapINT x = x := by
  unfold wrapINT
  omega

theorem FArchiveFileWriter.wr_Serialize_spec (w : FArchiveFileWriter) (V : List BYTE)
    (h : w.WellFormed) :
    ∃ w1, w.Serialize V = some w1 ∧ w1.WellFormed ∧ w1.Pos = wrapINT (w.Pos + V.length) ∧
      (V ≠ [] → w1.BufferCount ≠ 0) ∧
      (∀ base, w.Tracks base → w1.Tracks base) ∧
      (w.stream.faultless →
        ∃ chunks, w.stream.wrote w1.stream chunks ∧ (∀ c ∈ chunks, c.length = 4096) ∧
          chunks.flatten ++ w1.staged = w.staged ++ V ∧
          w1.ArIsError = w.ArIsError ∧ w1.Error = w.Error) := by
  have hwf0 : ({ w with Pos := wrapINT (w.Pos + V.length) } : FArchiveFileWriter).WellFormed := h
  have hfuel : (V.length : Int) + w.BufferCount ≤ 4096 * ((V.length + 1 : Nat) : Int) := by
    obtain ⟨-, h0, h1, -⟩ := h
    push_cast
    omega
  obtain ⟨w1, V1, hl, hwf1, hV1, hp1, hne1, htr1, hs1⟩ :=
    FArchiveFileWriter.wr_SerializeLoop_spec (V.length + 1) _ V hwf0 hfuel (by omega)
  by_cases hz : (V1.length : Int) ≠ 0
  · have hnn : ¬ w1.BufferCount < 0 := by
      have := hwf1.2.1
      omega
    obtain ⟨hwf2, hst2⟩ := w1.wr_stage V1 (w1.BufferCount + V1.length) hwf1 rfl (by omega)
    refine ⟨_, ?_, hwf2, hp1, ?_, ?_, ?_⟩
    · unfold FArchiveFileWriter.Serialize
      rw [hl]
      simp only
      rw [if_pos hz, if_neg hnn]
    · intro _
      have := hwf1.2.1
      simp only
      omega
    · intro base hb
      exact htr1 base hb
    · intro hf
      obtain ⟨chunks, hw, hlen, hjoin, he, hE⟩ := hs1 hf
      refine ⟨chunks, hw, hlen, ?_, he, hE⟩
      rw [hst2, ← List.append_assoc, hjoin]
      rfl
  · have hV1nil : V1 = [] := by
      apply List.length_eq_zero.mp
      omega
    refine ⟨w1, ?_, hwf1, hp1, ?_, ?_, ?_⟩
    · unfold FArchiveFileWriter.Serialize
      rw [hl]
      simp only
      rw [if_neg hz]
    · intro hV
      exact absurd hV1nil (hne1 hV)
    · intro base hb
      exact htr1 base hb
    · intro hf
      obtain ⟨chunks, hw, hlen, hjoin, he, hE⟩ := hs1 hf
      refine ⟨chunks, hw, hlen, ?_, he, hE⟩
      rw [hV1nil, List.append_nil] at hjoin
      rw [hjoin]
      rfl

theorem FArchiveFileWriter.wr_Close_eq (w w0 : FArchiveFileWriter) (hfl : w.Flush = some w0)
    (hF0 : w0.File = true) :
    w.Close =
      some ({ w0 with
          File := false
          stream := (fclose w0.stream).1
          ArIsError := (w0.ArIsError || decide ((fclose w0.stream).2 ≠ 0))
          Error := if (fclose w0.stream).2 ≠ 0 then w0.Error ++ [Report.WriteFailed]
            else w0.Error },
        !(w0.ArIsError || decide ((fclose w0.stream).2 ≠ 0))) := by
  unfold FArchiveFileWriter.Close
  rw [hfl]
  simp only
  rw [if_pos hF0]
  by_cases hr : (fclose w0.stream).2 ≠ 0
  · simp [hr]
  · simp [hr]

theorem FArchiveFileWriter.wr_Close_spec (w : FArchiveFileWriter) (h : w.WellFormed) :
    ∃ w1 b, w.Close = some (w1, b) ∧ b = (!w1.ArIsError) ∧ w1.Pos = w.Pos ∧
      (∀ base, w.Tracks base → w1.Tracks base) ∧
      (w.stream.faultless →
        w1.stream.calls = w.stream.calls
          ++ (if w.BufferCount = 0 then [] else [Call.fwrite w.staged true])
          ++ [Call.fclose true] ∧
        w1.stream.data = pwrite w.stream.data w.stream.wpos w.staged ∧
        w1.ArIsError = w.ArIsError ∧ w1.Error = w.Error) := by
  obtain ⟨w0, hfl, hwf0, hc0, hp0, -, htr0, hs0⟩ := w.wr_Flush_spec h
  have hF0 : w0.File = true := hwf0.1
  refine ⟨_, _, w.wr_Close_eq w0 hfl hF0, rfl, hp0, ?_, ?_⟩
  · intro base hb
    refine FArchiveFileWriter.wr_Tracks_step base w0 _
      (Call.fclose (decide ((fclose w0.stream).2 = 0))) ?_ ?_ (htr0 base hb)
    · exact fclose_calls w0.stream
    · simp [Call.ok]
  · intro hf
    obtain ⟨hw, he, hE⟩ := hs0 hf
    have hf0 := FILE.wrote_faultless _ _ _ hw hf
    obtain ⟨hcalls, hdata, -, -⟩ := hw
    refine ⟨?_, ?_, ?_, ?_⟩
    · simp only [fclose_calls, hcalls, fclose_sound _ hf0]
      by_cases hz : w.BufferCount = 0 <;> simp [hz]
    · simp only [fclose_data, hdata]
      by_cases hz : w.BufferCount = 0
      · have : w.staged = [] := by simp [FArchiveFileWriter.staged, hz]
        simp [hz, this]
      · simp [hz]
    · simp [fclose_sound _ hf0, he]
    · simp [fclose_sound _ hf0, hE]

theorem FArchiveFileWriter.wr_Seek_eq (w w0 : FArchiveFileWriter) (p : Int)
    (hfl : w.Flush = some w0) (hF0 : w0.File = true) :
    w.Seek p =
      some { w0 with
        stream := (fseek w0.stream p).1
        ArIsError := (w0.ArIsError || decide ((fseek w0.stream p).2 ≠ 0))
        Error := if (fseek w0.stream p).2 ≠ 0 then w0.Error ++ [Report.SeekFailed]
          else w0.Error
        Pos := p } := by
  unfold FArchiveFileWriter.Seek
  rw [hfl]
  simp only
  rw [if_neg (by simp [hF0])]
  by_cases hr : (fseek w0.stream p).2 ≠ 0
  · simp [hr]
  · simp [hr]

theorem FArchiveFileWriter.wr_Seek_spec (w : FArchiveFileWriter) (p : Int) (h : w.WellFormed) :
    ∃ w1, w.Seek p = some w1 ∧ w1.WellFormed ∧ w1.BufferCount = 0 ∧ w1.Pos = p ∧
      (∀ base, w.Tracks base → w1.Tracks base) := by
  obtain ⟨w0, hfl, hwf0, hc0, -, -, htr0, -⟩ := w.wr_Flush_spec h
  have hF0 : w0.File = true := hwf0.1
  refine ⟨_, w.wr_Seek_eq w0 p hfl hF0, ?_, hc0, rfl, ?_⟩
  · exact ⟨hF0, hwf0.2.1, hwf0.2.2.1, hwf0.2.2.2⟩
  · intro base hb
    refine FArchiveFileWriter.wr_Tracks_step base w0 _
      (Call.fseek p (decide ((fseek w0.stream p).2 = 0))) ?_ ?_ (htr0 base hb)
    · exact fseek_calls w0.stream p
    · simp [Call.ok]

theorem WriterCall.wr_runAll_spec (calls : List WriterCall) :
    ∀ (w : FArchiveFileWriter) (base : List Call), w.WellFormed → w.Tracks base →
      (∀ c ∈ calls, c ≠ WriterCall.Close) →
      ∃ w1, WriterCall.runAll calls w = some w1 ∧ w1.WellFormed ∧ w1.Tracks base := by
  induction calls with
  | nil => intro w base hwf htr _; exact ⟨w, rfl, hwf, htr⟩
  | cons c cs ih =>
    intro w base hwf htr hnc
    have hcs : ∀ c ∈ cs, c ≠ WriterCall.Close := fun c hc => hnc c (List.mem_cons_of_mem _ hc)
    have hstep : ∃ w1, c.run w = some w1 ∧ w1.WellFormed ∧ w1.Tracks base := by
      cases c with
      | Seek p =>
        obtain ⟨w1, h1, h2, -, -, h3⟩ := w.wr_Seek_spec p hwf
        exact ⟨w1, h1, h2, h3 base htr⟩
      | Serialize V =>
        obtain ⟨w1, h1, h2, -, -, h3, -⟩ := w.wr_Serialize_spec V hwf
        exact ⟨w1, h1, h2, h3 base htr⟩
      | Flush =>
        obtain ⟨w1, h1, h2, -, -, -, h3, -⟩ := w.wr_Flush_spec hwf
        exact ⟨w1, h1, h2, h3 base htr⟩
      | Tell => exact ⟨w, rfl, hwf, htr⟩
      | Close => exact absurd rfl (hnc WriterCall.Close (List.mem_cons_self _ _))
    obtain ⟨w1, h1, hwf1, htr1⟩ := hstep
    obtain ⟨w2, h2, hwf2, htr2⟩ := ih w1 base hwf1 htr1 hcs
    refine ⟨w2, ?_, hwf2, htr2⟩
    simp only [WriterCall.runAll, h1, Option.some_bind]
    exact h2

theorem anyFailed_eq_false (calls : List Call) :
    anyFailed calls = false ↔ ∀ c ∈ calls, c.ok = true := by
  simp [anyFailed]

/-- C8: a writer built over an open handle is put through any sequence of `Serialize`, `Seek`,
`Flush` and `Tell` calls and then closed.  Every call returns, and `Close` returns
true exactly when every call issued on the handle since the construction (the
writes, the seeks and the close) succeeded. -/
theorem C8_close_verdict (InFile : FILE) (InError : List Report) (Buffer : List BYTE)
    (calls : List WriterCall) (hB : Buffer.length = 4096)
    (hcalls : ∀ c ∈ calls, c ≠ WriterCall.Close) :
    ∃ w1 w2 b issued,
      WriterCall.runAll calls (FArchiveFileWriter.new InFile InError Buffer) = some w1 ∧
      w1.Close = some (w2, b) ∧ w2.stream.calls = InFile.calls ++ issued ∧
      (b = true ↔ ∀ c ∈ issued, c.ok = true) := by
  have hwf : (FArchiveFileWriter.new InFile InError Buffer).WellFormed :=
    ⟨rfl, by simp [FArchiveFileWriter.new], by simp [FArchiveFileWriter.new], hB⟩
  have htr : (FArchiveFileWriter.new InFile InError Buffer).Tracks InFile.calls :=
    ⟨[], by simp [FArchiveFileWriter.new], rfl⟩
  obtain ⟨w1, h1, hwf1, htr1⟩ := WriterCall.wr_runAll_spec calls _ InFile.calls hwf htr hcalls
  obtain ⟨w2, b, h2, hb, -, htr2, -⟩ := w1.wr_Close_spec hwf1
  obtain ⟨issued, hi1, hi2⟩ := htr2 InFile.calls htr1
  refine ⟨w1, w2, b, issued, h1, h2, hi1, ?_⟩
  rw [hb, hi2, ← anyFailed_eq_false]
  cases anyFailed issued <;> simp

/-- C8 on a handle whose every call fails: one byte is serialized, the writer seeks to 0 and
is closed. -/
theorem C8_close_verdict_witness :
    ∃ w1 w2 b issued,
      WriterCall.runAll [WriterCall.Serialize [1], WriterCall.Seek 0]
        (FArchiveFileWriter.new (brokenFile []) [] (List.replicate 4096 0)) = some w1 ∧
      w1.Close = some (w2, b) ∧ w2.stream.calls = (brokenFile []).calls ++ issued ∧
      (b = true ↔ ∀ c ∈ issued, c.ok = true) :=
  C8_close_verdict (brokenFile []) [] (List.replicate 4096 0)
    [WriterCall.Serialize [1], WriterCall.Seek 0] (List.length_replicate 4096 0) (by simp)

theorem flatten_length_of_all (chunks : List (List BYTE)) (n : Nat)
    (h : ∀ c ∈ chunks, c.length = n) : chunks.flatten.length = n * chunks.length := by
  induction chunks with
  | nil => simp
  | cons c cs ih =>
    rw [List.flatten_cons, List.length_append, h c (List.mem_cons_self _ _),
      ih (fun d hd => h d (List.mem_cons_of_mem _ hd)), List.length_cons]
    ring

theorem soundFile_faultless (d : List BYTE) : (soundFile d).faultless := fun _ => rfl

/-- C7: on a fresh writer whose handle calls all succeed, `Serialize` of `L > 0` bytes issues
exactly `ceil(L/4096) - 1` writes, each of 4096 bytes, which carry the payload in
order, and leaves the other `L - 4096 * (ceil(L/4096) - 1)` bytes staged; `Close`
then issues one write of exactly the staged bytes, and the `fclose`. -/
theorem C7_flush_count (InFile : FILE) (InError : List Report) (Buffer V : List BYTE)
    (hB : Buffer.length = 4096) (hf : InFile.faultless) (hV : 0 < V.length) :
    ∃ (w1 w2 : FArchiveFileWriter) (b : Bool) (chunks : List (List BYTE)),
      (FArchiveFileWriter.new InFile InError Buffer).Serialize V = some w1 ∧
      w1.stream.calls = InFile.calls ++ chunks.map (fun c => Call.fwrite c true) ∧
      chunks.length = (V.length + 4095) / 4096 - 1 ∧
      (∀ c ∈ chunks, c.length = 4096) ∧
      chunks.flatten ++ w1.staged = V ∧
      w1.BufferCount = (V.length : Int) - 4096 * (((V.length + 4095) / 4096 - 1 : Nat) : Int) ∧
      (w1.staged.length : Int) = w1.BufferCount ∧
      w1.Close = some (w2, b) ∧
      w2.stream.calls = w1.stream.calls ++ [Call.fwrite w1.staged true, Call.fclose true] := by
  have hwf : (FArchiveFileWriter.new InFile InError Buffer).WellFormed :=
    ⟨rfl, by simp [FArchiveFileWriter.new], by simp [FArchiveFileWriter.new], hB⟩
  have hVne : V ≠ [] := by
    intro h
    rw [h] at hV
    simp at hV
  obtain ⟨w1, h1, hwf1, -, hne1, -, hs1⟩ := FArchiveFileWriter.wr_Serialize_spec _ V hwf
  obtain ⟨chunks, hw, hlen, hjoin, -, -⟩ := hs1 hf
  have hf1 : w1.stream.faultless := FILE.wrote_faultless _ _ _ hw hf
  obtain ⟨w2, b, h2, -, -, -, hs2⟩ := w1.wr_Close_spec hwf1
  obtain ⟨hc2, -, -, -⟩ := hs2 hf1
  have hst0 : (FArchiveFileWriter.new InFile InError Buffer).staged = [] := by
    simp [FArchiveFileWriter.staged, FArchiveFileWriter.new]
  rw [hst0, List.nil_append] at hjoin
  have hstl := w1.wr_staged_length hwf1
  have hfl := flatten_length_of_all chunks 4096 hlen
  have htot : 4096 * chunks.length + w1.staged.length = V.length := by
    rw [← hfl, ← List.length_append, hjoin]
  have hb0 := hne1 hVne
  have hb1 := hwf1.2.1
  have hb2 := hwf1.2.2.1
  have hk : chunks.length = (V.length + 4095) / 4096 - 1 := by omega
  refine ⟨w1, w2, b, chunks, h1, hw.1, hk, hlen, hjoin, ?_, hstl, h2, ?_⟩
  · rw [← hk]
    omega
  · rw [hc2, if_neg hb0]
    simp

/-- C7 at the payload of 5000 bytes `0xAB`: one write of 4096 bytes during `Serialize`, 904
bytes staged, and one write of the staged bytes on `Close`. -/
theorem C7_flush_count_witness :
    ∃ (w1 w2 : FArchiveFileWriter) (b : Bool) (chunks : List (List BYTE)),
      (FArchiveFileWriter.new (soundFile []) [] (List.replicate 4096 0)).Serialize
        (List.replicate 5000 0xAB) = some w1 ∧
      w1.stream.calls = chunks.map (fun c => Call.fwrite c true) ∧
      chunks.length = 1 ∧ (∀ c ∈ chunks, c.length = 4096) ∧ w1.BufferCount = 904 ∧
      (w1.staged.length : Int) = 904 ∧
      w1.Close = some (w2, b) ∧
      w2.stream.calls = w1.stream.calls ++ [Call.fwrite w1.staged true, Call.fclose true] := by
  have hlen : (List.replicate 5000 (0xAB : BYTE)).length = 5000 := List.length_replicate _ _
  obtain ⟨w1, w2, b, chunks, h1, h2, h3, h4, -, h6, h7, h8, h9⟩ :=
    C7_flush_count (soundFile []) [] (List.replicate 4096 0) (List.replicate 5000 0xAB)
      (List.length_replicate _ _) (soundFile_faultless []) (by rw [hlen]; omega)
  rw [hlen] at h3 h6
  have h6a : w1.BufferCount = 904 := by omega
  refine ⟨w1, w2, b, chunks, h1, by simpa only [soundFile, List.nil_append] using h2,
    by omega, h4, h6a, by rw [h7, h6a], h8, h9⟩

/-! ## What a writer leaves in the file -/

theorem written_append (a b : List Call) : written (a ++ b) = written a ++ written b := by
  simp [written]

theorem written_chunks (chunks : List (List BYTE)) :
    written (chunks.map (fun c => Call.fwrite c true)) = chunks.flatten := by
  induction chunks with
  | nil => rfl
  | cons c cs ih =>
    simp only [written, List.map_cons, List.flatten_cons, Call.payload] at ih ⊢
    rw [ih]

theorem FArchiveFileWriter.wr_Close_after (f : FILE) (w : FArchiveFileWriter)
    (chunks : List (List BYTE)) (hw : f.wrote w.stream chunks) (hwf : w.WellFormed)
    (hf : f.faultless) :
    ∃ c b, w.Close = some (c, b) ∧
      c.stream.data = pwrite f.data f.wpos (chunks.flatten ++ w.staged) ∧
      written c.stream.calls = written f.calls ++ (chunks.flatten ++ w.staged) ∧
      b = (!w.ArIsError) ∧ c.Pos = w.Pos ∧ c.ArIsError = w.ArIsError := by
  have hfw : w.stream.faultless := FILE.wrote_faultless _ _ _ hw hf
  obtain ⟨c, b, h1, hb, hp, -, hs⟩ := w.wr_Close_spec hwf
  obtain ⟨hc, hd, he, -⟩ := hs hfw
  obtain ⟨wc, wd, wo, -⟩ := hw
  refine ⟨c, b, h1, ?_, ?_, by rw [hb, he], hp, he⟩
  · rw [hd, wd, wo, pwrite_pwrite]
  · rw [hc, wc, written_append, written_append, written_append, written_chunks]
    by_cases hz : w.BufferCount = 0
    · have : w.staged = [] := by simp [FArchiveFileWriter.staged, hz]
      simp [hz, this, written, Call.payload]
    · simp [hz, written, Call.payload]

/-- C3: from every writer with an open handle, a staged count within the buffer and handle
calls that all succeed, `Serialize(A ++ B)` and `Serialize(A); Serialize(B)`
both return, leave the same `Tell()`, and after `Close` leave the same file
content and the same byte sequence handed to the handle: the staged bytes,
then `A`, then `B`, written from the handle's write offset on (its file
position indicator, or the end of the file on a handle opened in append
mode). -/
theorem C3_large_write_equivalence (w : FArchiveFileWriter) (A B : List BYTE)
    (hwf : w.WellFormed) (hf : w.stream.faultless) :
    ∃ (w1 wa w2 c1 c2 : FArchiveFileWriter) (b1 b2 : Bool),
      w.Serialize (A ++ B) = some w1 ∧ w.Serialize A = some wa ∧ wa.Serialize B = some w2 ∧
      w1.Close = some (c1, b1) ∧ w2.Close = some (c2, b2) ∧
      w1.Tell = w2.Tell ∧ c1.Tell = c2.Tell ∧ b1 = b2 ∧
      c1.stream.data = c2.stream.data ∧
      c1.stream.data = pwrite w.stream.data w.stream.wpos (w.staged ++ (A ++ B)) ∧
      written c1.stream.calls = written c2.stream.calls ∧
      written c1.stream.calls = written w.stream.calls ++ (w.staged ++ (A ++ B)) := by
  obtain ⟨w1, h1, hwf1, hp1, -, -, hs1⟩ := w.wr_Serialize_spec (A ++ B) hwf
  obtain ⟨J1, hw1, -, hj1, he1, -⟩ := hs1 hf
  obtain ⟨wa, ha, hwfa, hpa, -, -, hsa⟩ := w.wr_Serialize_spec A hwf
  obtain ⟨Ja, hwa, -, hja, hea, -⟩ := hsa hf
  have hfa : wa.stream.faultless := FILE.wrote_faultless _ _ _ hwa hf
  obtain ⟨w2, h2, hwf2, hp2, -, -, hs2⟩ := wa.wr_Serialize_spec B hwfa
  obtain ⟨Jb, hwb, -, hjb, heb, -⟩ := hs2 hfa
  have hw2 := FILE.wrote_trans _ _ _ Ja Jb hwa hwb
  obtain ⟨c1, b1, hc1, hd1, hwr1, hb1, hq1, -⟩ := w1.wr_Close_after w.stream J1 hw1 hwf1 hf
  obtain ⟨c2, b2, hc2, hd2, hwr2, hb2, hq2, -⟩ :=
    w2.wr_Close_after w.stream (Ja ++ Jb) hw2 hwf2 hf
  have hj2 : (Ja ++ Jb).flatten ++ w2.staged = w.staged ++ (A ++ B) := by
    rw [List.flatten_append, List.append_assoc, hjb, ← List.append_assoc, hja,
      List.append_assoc]
  rw [hj1] at hd1 hwr1
  rw [hj2] at hd2 hwr2
  have hT : w1.Pos = w2.Pos := by
    rw [hp1, hp2, hpa, wrapINT_add, List.length_append]
    push_cast
    rw [add_assoc]
  refine ⟨w1, wa, w2, c1, c2, b1, b2, h1, ha, h2, hc1, hc2, hT, ?_, ?_, ?_, hd1, ?_, hwr1⟩
  · show c1.Pos = c2.Pos
    rw [hq1, hq2, hT]
  · rw [hb1, hb2, he1, heb, hea]
  · rw [hd1, hd2]
  · rw [hwr1, hwr2]

/-- C3 at a fresh writer over an empty file, with 5000 bytes split as 3000 and 2000. -/
theorem C3_large_write_equivalence_witness :
    ∃ (w1 wa w2 c1 c2 : FArchiveFileWriter) (b1 b2 : Bool),
      (FArchiveFileWriter.new (soundFile []) [] (List.replicate 4096 0)).Serialize
        (List.replicate 3000 1 ++ List.replicate 2000 2) = some w1 ∧
      (FArchiveFileWriter.new (soundFile []) [] (List.replicate 4096 0)).Serialize
        (List.replicate 3000 1) = some wa ∧
      wa.Serialize (List.replicate 2000 2) = some w2 ∧
      w1.Close = some (c1, b1) ∧ w2.Close = some (c2, b2) ∧
      w1.Tell = w2.Tell ∧ c1.stream.data = c2.stream.data := by
  obtain ⟨w1, wa, w2, c1, c2, b1, b2, h1, ha, h2, hc1, hc2, hT, -, -, hd, -, -, -⟩ :=
    C3_large_write_equivalence
      (FArchiveFileWriter.new (soundFile []) [] (List.replicate 4096 0))
      (List.replicate 3000 1) (List.replicate 2000 2)
      ⟨rfl, by decide, by decide, List.length_replicate _ _⟩ (soundFile_faultless [])
  exact ⟨w1, wa, w2, c1, c2, b1, b2, h1, ha, h2, hc1, hc2, hT, hd⟩

/-! ## Reading within the file -/

theorem land_mask (p : Int) (h : 0 ≤ p) : Int.land p (1024 - 1) = p % 1024 := by
  obtain ⟨n, rfl⟩ := Int.eq_ofNat_of_zero_le h
  have h1 : (1024 - 1 : Int) = ((1023 : Nat) : Int) := by norm_num
  rw [h1]
  show ((n &&& 1023 : Nat) : Int) = _
  have := Nat.and_pow_two_sub_one_eq_mod n 10
  norm_num at this
  rw [this]
  norm_cast

theorem take_eq_of_take_eq (B D : List BYTE) (m c : Nat) (h : B.take m = D.take m)
    (hc : c ≤ m) : B.take c = D.take c := by
  have h1 : (B.take m).take c = (D.take m).take c := by rw [h]
  rw [List.take_take, List.take_take, Nat.min_eq_left hc] at h1
  exact h1

theorem take_drop_eq_of_take_eq (B D : List BYTE) (m c : Nat) (h : B.take m = D.take m) :
    (B.drop c).take (m - c) = (D.drop c).take (m - c) := by
  have h1 : (B.take m).drop c = (D.take m).drop c := by rw [h]
  rw [List.drop_take, List.drop_take] at h1
  exact h1

theorem FArchiveFileReader.rd_SerializeCopy_sound (r : FArchiveFileReader) (c : Int)
    (h : r.Window) (hc0 : 0 < c) (hc : c ≤ r.BufferBase + r.BufferCount - r.Pos) :
    r.SerializeCopy c =
        some (FArchiveFileReader.Turn.next { r with Pos := r.Pos + c }
          ((r.stream.data.drop r.Pos.toNat).take c.toNat)) ∧
      ({ r with Pos := r.Pos + c } : FArchiveFileReader).Window := by
  have hb0 := h.base
  have hlo := h.lo
  have hcap := h.cap
  have hfits := h.fits
  constructor
  · have hno : ¬ (c < 0 ∨ r.Pos - r.BufferBase < 0 ∨ r.Pos - r.BufferBase + c > 1024) := by
      omega
    unfold FArchiveFileReader.SerializeCopy
    rw [if_neg hno]
    have := take_eq_of_take_eq _ _ _ c.toNat h.bytes (by omega)
    rw [this]
  · refine ⟨h.file, h.clean, h.sound, h.size, hb0, ?_, ?_, hfits, hcap, h.handle, ?_⟩
    · simp only; omega
    · simp only; omega
    · simp only
      have := take_drop_eq_of_take_eq _ _ _ c.toNat h.bytes
      rw [List.drop_drop, List.drop_drop] at this
      have e1 : (r.Pos + c - r.BufferBase).toNat = (r.Pos - r.BufferBase).toNat + c.toNat := by
        omega
      have e2 : (r.BufferBase + r.BufferCount - (r.Pos + c)).toNat
          = (r.BufferBase + r.BufferCount - r.Pos).toNat - c.toNat := by omega
      have e3 : (r.Pos + c).toNat = r.Pos.toNat + c.toNat := by omega
      rw [e1, e2, e3]
      exact this

theorem fread_inrange (f : FILE) (n : Nat) (hf : f.faultless) (ha : f.off + n ≤ f.data.length) :
    (fread f n).2.1 = (f.data.drop f.off).take n ∧ (fread f n).1.off = f.off + n ∧
      (n ≠ 0 → (fread f n).2.2 = 1) := by
  by_cases hn : n = 0
  · subst hn
    rw [fread_zero]
    simp
  · rw [fread_sound f n hf hn ha]
    simp

theorem fread_length_le (f : FILE) (n : Nat) : (fread f n).2.1.length ≤ n := by
  unfold fread
  by_cases hn : n = 0
  · rw [if_pos hn]
    simp
  · rw [if_neg hn]
    cases f.fate with
    | ok =>
      simp only
      split_ifs with h
      · simp only [List.length_take]
        omega
      · simp only
        omega
    | fail k =>
      simp only [List.length_take]
      omega

theorem FArchiveFileReader.rd_Precache_eq (r : FArchiveFileReader) (n : Int)
    (hF : r.File = true) (h0 : 0 ≤ r.precacheCount n) :
    r.Precache n =
      some { r with
        BufferBase := r.Pos
        BufferCount := r.precacheCount n
        stream := (fread r.stream (r.precacheCount n).toNat).1
        Buffer := appMemcpy r.Buffer 0 (fread r.stream (r.precacheCount n).toNat).2.1
        ArIsError := (r.ArIsError ||
          decide ((fread r.stream (r.precacheCount n).toNat).2.2 ≠ 1 ∧ r.precacheCount n ≠ 0))
        Error := if (fread r.stream (r.precacheCount n).toNat).2.2 ≠ 1 ∧ r.precacheCount n ≠ 0
          then r.Error ++ [Report.freadFailedBufferCount (r.precacheCount n)] else r.Error } := by
  have hno : ¬ (r.File = false ∨ r.precacheCount n < 0) := by
    simp only [hF, Bool.true_eq_false, false_or]
    omega
  unfold FArchiveFileReader.Precache
  simp only
  unfold FArchiveFileReader.precacheCount at hno ⊢
  rw [if_neg hno]
  split_ifs with hr
  · rw [decide_eq_true hr, Bool.or_true]
  · rw [decide_eq_false hr, Bool.or_false]

theorem FArchiveFileReader.rd_precacheCount_eq (r : FArchiveFileReader) (n : Int)
    (hp : 0 ≤ r.Pos) :
    r.precacheCount n = min (min n (1024 - r.Pos % 1024)) (r.Size - r.Pos) := by
  unfold FArchiveFileReader.precacheCount
  rw [land_mask r.Pos hp]

theorem FArchiveFileReader.rd_Precache_sound (r : FArchiveFileReader) (n : Int)
    (h : r.Window) (hn : 0 ≤ n) (hex : r.Pos = r.BufferBase + r.BufferCount) :
    ∃ r1, r.Precache n = some r1 ∧ r1.Window ∧ r1.Pos = r.Pos ∧ r1.BufferBase = r.Pos ∧
      r1.BufferCount = min (min n (1024 - r.Pos % 1024)) (r.Size - r.Pos) ∧
      r1.Size = r.Size ∧ r1.stream.data = r.stream.data ∧ r1.Error = r.Error := by
  have hp : 0 ≤ r.Pos := le_trans h.base h.lo
  have hps : r.Pos ≤ r.Size := le_trans h.hi h.fits
  have hcnt := r.rd_precacheCount_eq n hp
  have hc0 : 0 ≤ r.precacheCount n := by
    rw [hcnt]
    omega
  have hcS : r.precacheCount n ≤ r.Size - r.Pos := by
    rw [hcnt]
    omega
  have hc1 : r.precacheCount n ≤ 1024 := by
    rw [hcnt]
    omega
  have hoff : (r.stream.off : Int) = r.Pos := by rw [h.handle, hex]
  have hsz := h.size
  have hin : r.stream.off + (r.precacheCount n).toNat ≤ r.stream.data.length := by omega
  obtain ⟨hgot, hnoff, hret⟩ := fread_inrange r.stream _ h.sound hin
  have hok : ¬ ((fread r.stream (r.precacheCount n).toNat).2.2 ≠ 1 ∧ r.precacheCount n ≠ 0) := by
    intro hc
    apply hc.1
    apply hret
    omega
  refine ⟨_, r.rd_Precache_eq n h.file hc0, ?_, rfl, rfl, hcnt, rfl, fread_data _ _, ?_⟩
  · refine ⟨h.file, ?_, ?_, ?_, hp, le_refl _, ?_, ?_, hc1, ?_, ?_⟩
    · simp [h.clean, hok]
    · intro i
      simp only [fread_script]
      exact h.sound i
    · simp only [fread_data]
      exact hsz
    · simp only; omega
    · simp only; omega
    · simp only [hnoff]
      omega
    · simp only [fread_data, hgot]
      have hlen : ((r.stream.data.drop r.stream.off).take (r.precacheCount n).toNat).length
          = (r.precacheCount n).toNat := by
        rw [List.length_take, List.length_drop]
        omega
      have e1 : (r.Pos - r.Pos).toNat = 0 := by omega
      have e2 : (r.Pos + r.precacheCount n - r.Pos).toNat = (r.precacheCount n).toNat := by
        omega
      have e3 : r.stream.off = r.Pos.toNat := by omega
      rw [e1, e2, List.drop_zero]
      unfold appMemcpy
      rw [List.take_zero, List.nil_append, List.take_left' hlen, e3]
  · simp [hok]

theorem appMemcpy_whole (V got : List BYTE) (h : got.length = V.length) :
    appMemcpy V 0 got = got := by
  unfold appMemcpy
  rw [List.take_zero, List.nil_append, Nat.zero_add, h, List.drop_length, List.append_nil]

theorem FArchiveFileReader.rd_direct_sound (r : FArchiveFileReader) (V : List BYTE)
    (h : r.Window) (hex : r.Pos = r.BufferBase + r.BufferCount)
    (hL : (V.length : Int) ≥ 1024) (hin : r.Pos + V.length ≤ r.Size) :
    ∃ r1, r.SerializeTurn V =
        some (FArchiveFileReader.Turn.ret r1 ((r.stream.data.drop r.Pos.toNat).take V.length)) ∧
      r1.Window ∧ r1.Pos = r.Pos + V.length ∧ r1.Size = r.Size ∧
      r1.stream.data = r.stream.data ∧ r1.Error = r.Error := by
  have hp : 0 ≤ r.Pos := le_trans h.base h.lo
  have hoff : (r.stream.off : Int) = r.Pos := by rw [h.handle, hex]
  have hsz := h.size
  have hc : min (V.length : Int) (r.BufferBase + r.BufferCount - r.Pos) = 0 := by omega
  have hnz : V.length ≠ 0 := by omega
  have hfit : r.stream.off + V.length ≤ r.stream.data.length := by omega
  have hrd := fread_sound r.stream V.length h.sound hnz hfit
  have e3 : r.stream.off = r.Pos.toNat := by omega
  have hlen : ((r.stream.data.drop r.Pos.toNat).take V.length).length = V.length := by
    rw [List.length_take, List.length_drop]
    omega
  refine ⟨{ r with
        stream := (fread r.stream V.length).1
        ArIsError := if (fread r.stream V.length).2.2 ≠ 1 then true else r.ArIsError
        Error := if (fread r.stream V.length).2.2 ≠ 1 then
            r.Error ++ [Report.freadFailedLength V.length] else r.Error
        Pos := r.Pos + V.length
        BufferBase := r.BufferBase + V.length }, ?_, ?_, ?_, ?_, ?_, ?_⟩
  · rw [r.rd_SerializeTurn_direct V hc hL h.file]
    have : appMemcpy V 0 (fread r.stream V.length).2.1
        = (r.stream.data.drop r.Pos.toNat).take V.length := by
      rw [hrd]
      simp only
      rw [e3, appMemcpy_whole _ _ hlen]
    rw [this]
  · refine ⟨h.file, ?_, ?_, ?_, ?_, ?_, ?_, ?_, h.cap, ?_, ?_⟩
    · simp [hrd, h.clean]
    · intro i
      simp only [fread_script]
      exact h.sound i
    · simp only [fread_data]
      exact hsz
    · have := h.base
      simp only
      omega
    · have := h.lo
      simp only
      omega
    · simp only
      omega
    · simp only
      omega
    · simp only [hrd]
      push_cast
      omega
    · simp only
      have e : (r.BufferBase + ↑V.length + r.BufferCount - (r.Pos + ↑V.length)).toNat = 0 := by
        omega
      rw [e, List.take_zero, List.take_zero]
  · rfl
  · rfl
  · simp only [fread_data]
  · simp [hrd]

theorem FArchiveFileReader.rd_refill_sound (r : FArchiveFileReader) (V : List BYTE)
    (h : r.Window) (hex : r.Pos = r.BufferBase + r.BufferCount)
    (hV : 0 < V.length) (hL : ¬ (V.length : Int) ≥ 1024) (hav : r.Pos < r.Size) :
    ∃ (r1 : FArchiveFileReader) (c : Nat), 0 < c ∧ c ≤ V.length ∧ (c : Int) ≤ r.Size - r.Pos ∧
      r.SerializeTurn V =
        some (FArchiveFileReader.Turn.next r1 ((r.stream.data.drop r.Pos.toNat).take c)) ∧
      r1.Window ∧ r1.Pos = r.Pos + c ∧ r1.Size = r.Size ∧
      r1.stream.data = r.stream.data ∧ r1.Error = r.Error := by
  have hp : 0 ≤ r.Pos := le_trans h.base h.lo
  have hc : min (V.length : Int) (r.BufferBase + r.BufferCount - r.Pos) = 0 := by omega
  obtain ⟨r0, hpre, hw0, hp0, hb0, hc0, hS0, hd0, hE0⟩ :=
    r.rd_Precache_sound MAXINT h (by decide) hex
  have hM : MAXINT = 2147483647 := rfl
  have hbc : 0 < r0.BufferCount := by
    rw [hc0, hM]
    omega
  have hcopy : 0 < min (V.length : Int) (r0.BufferBase + r0.BufferCount - r0.Pos) := by
    rw [hb0, hp0]
    omega
  obtain ⟨hstep, hw1⟩ := r0.rd_SerializeCopy_sound
    (min (V.length : Int) (r0.BufferBase + r0.BufferCount - r0.Pos)) hw0 hcopy (min_le_right _ _)
  refine ⟨_, (min (V.length : Int) (r0.BufferBase + r0.BufferCount - r0.Pos)).toNat,
    by omega, by omega, ?_, ?_, hw1, ?_, hS0, hd0, hE0⟩
  · have := hw0.fits
    rw [hb0] at this ⊢
    rw [hp0]
    omega
  · rw [r.rd_SerializeTurn_refill V hc hL, hpre]
    simp only
    rw [if_neg (by omega), if_neg (by simp [hw0.clean]), hstep, hd0, hp0]
  · simp only
    rw [hp0]
    omega

theorem FArchiveFileReader.rd_eof_sound (r : FArchiveFileReader) (V : List BYTE)
    (h : r.Window) (hV : 0 < V.length) (hL : ¬ (V.length : Int) ≥ 1024) (hav : r.Pos = r.Size) :
    ∃ r1, r.SerializeTurn V = some (FArchiveFileReader.Turn.ret r1 V) ∧
      r1.ArIsError = true ∧ r1.Pos = r.Pos ∧ r1.Size = r.Size ∧
      r1.Error = r.Error ++ [Report.readBeyondEOF r.Pos V.length r.Size] := by
  have hp : 0 ≤ r.Pos := le_trans h.base h.lo
  have hhi := h.hi
  have hfits := h.fits
  have hex : r.Pos = r.BufferBase + r.BufferCount := by omega
  have hc : min (V.length : Int) (r.BufferBase + r.BufferCount - r.Pos) = 0 := by omega
  obtain ⟨r0, hpre, hw0, hp0, hb0, hc0, hS0, hd0, hE0⟩ :=
    r.rd_Precache_sound MAXINT h (by decide) hex
  have hM : MAXINT = 2147483647 := rfl
  have hbc : r0.BufferCount = 0 := by
    rw [hc0, hM]
    omega
  have hcopy : min (V.length : Int) (r0.BufferBase + r0.BufferCount - r0.Pos) ≤ 0 := by
    rw [hb0, hp0, hbc]
    omega
  refine ⟨{ r0 with ArIsError := true,
                    Error := r0.Error ++ [Report.readBeyondEOF r0.Pos V.length r0.Size] },
    ?_, rfl, hp0, hS0, ?_⟩
  · rw [r.rd_SerializeTurn_refill V hc hL, hpre]
    simp only
    rw [if_pos hcopy]
  · simp only
    rw [hE0, hp0, hS0]

theorem FArchiveFileReader.rd_SerializeTurn_sound (r : FArchiveFileReader) (V : List BYTE)
    (h : r.Window) (hV : 0 < V.length) (hin : r.Pos + V.length ≤ r.Size) :
    (∃ r1, r.SerializeTurn V =
        some (FArchiveFileReader.Turn.ret r1 ((r.stream.data.drop r.Pos.toNat).take V.length)) ∧
      r1.Window ∧ r1.Pos = r.Pos + V.length ∧ r1.Size = r.Size ∧
      r1.stream.data = r.stream.data ∧ r1.Error = r.Error) ∨
    (∃ (r1 : FArchiveFileReader) (c : Nat), 0 < c ∧ c ≤ V.length ∧
      r.SerializeTurn V =
        some (FArchiveFileReader.Turn.next r1 ((r.stream.data.drop r.Pos.toNat).take c)) ∧
      r1.Window ∧ r1.Pos = r.Pos + c ∧ r1.Size = r.Size ∧
      r1.stream.data = r.stream.data ∧ r1.Error = r.Error) := by
  have hhi := h.hi
  by_cases hc : min (V.length : Int) (r.BufferBase + r.BufferCount - r.Pos) = 0
  · have hex : r.Pos = r.BufferBase + r.BufferCount := by omega
    by_cases hL : (V.length : Int) ≥ 1024
    · exact Or.inl (r.rd_direct_sound V h hex hL hin)
    · obtain ⟨r1, c, h1, h2, -, h4, h5, h6, h7, h8, h9⟩ :=
        r.rd_refill_sound V h hex hV hL (by omega)
      exact Or.inr ⟨r1, c, h1, h2, h4, h5, h6, h7, h8, h9⟩
  · have hpos : 0 < min (V.length : Int) (r.BufferBase + r.BufferCount - r.Pos) := by omega
    obtain ⟨hstep, hw1⟩ := r.rd_SerializeCopy_sound _ h hpos (min_le_right _ _)
    refine Or.inr ⟨_, (min (V.length : Int) (r.BufferBase + r.BufferCount - r.Pos)).toNat,
      by omega, by omega, ?_, hw1, ?_, rfl, rfl, rfl⟩
    · rw [r.rd_SerializeTurn_copy V hc, hstep]
    · simp only
      omega

theorem FArchiveFileReader.rd_SerializeLoop_sound (fuel : Nat) :
    ∀ (r : FArchiveFileReader) (V : List BYTE), r.Window → r.Pos + V.length ≤ r.Size →
      V.length < fuel →
      ∃ r1, FArchiveFileReader.SerializeLoop fuel r V =
          some (r1, (r.stream.data.drop r.Pos.toNat).take V.length) ∧
        r1.Window ∧ r1.Pos = r.Pos + V.length ∧ r1.Size = r.Size ∧
        r1.stream.data = r.stream.data ∧ r1.Error = r.Error := by
  induction fuel with
  | zero => intro r V _ _ h; omega
  | succ n ih =>
    intro r V hw hin hfuel
    by_cases hV : (V.length : Int) > 0
    · have hp : 0 ≤ r.Pos := le_trans hw.base hw.lo
      have hsz := hw.size
      rcases r.rd_SerializeTurn_sound V hw (by omega) hin with
        ⟨r1, ht, hw1, hp1, hS1, hd1, hE1⟩ | ⟨r1, c, hc0, hcV, ht, hw1, hp1, hS1, hd1, hE1⟩
      · refine ⟨r1, ?_, hw1, hp1, hS1, hd1, hE1⟩
        unfold FArchiveFileReader.SerializeLoop
        rw [if_pos hV, ht]
      · have hlen : ((r.stream.data.drop r.Pos.toNat).take c).length = c := by
          rw [List.length_take, List.length_drop]
          omega
        have hin1 : r1.Pos + ((V.drop c).length : Int) ≤ r1.Size := by
          rw [List.length_drop, hp1, hS1]
          omega
        have hf1 : (V.drop c).length < n := by
          rw [List.length_drop]
          omega
        obtain ⟨r2, hl2, hw2, hp2, hS2, hd2, hE2⟩ := ih r1 (V.drop c) hw1 hin1 hf1
        refine ⟨r2, ?_, hw2, ?_, by rw [hS2, hS1], by rw [hd2, hd1], by rw [hE2, hE1]⟩
        · unfold FArchiveFileReader.SerializeLoop
          rw [if_pos hV, ht]
          simp only
          rw [hlen, hl2]
          simp only [Option.some.injEq, Prod.mk.injEq, true_and]
          have e1 : r1.Pos.toNat = r.Pos.toNat + c := by omega
          have e2 : V.length = c + (V.drop c).length := by
            rw [List.length_drop]
            omega
          rw [hd1, e1]
          conv_rhs => rw [e2, List.take_add, List.drop_drop]
        · rw [hp2, hp1, List.length_drop]
          omega
    · have hnil : V = [] := by
        apply List.length_eq_zero.mp
        omega
      subst hnil
      refine ⟨r, ?_, hw, by simp, rfl, rfl, rfl⟩
      unfold FArchiveFileReader.SerializeLoop
      rw [if_neg hV]
      simp

theorem FArchiveFileReader.rd_Serialize_sound (r : FArchiveFileReader) (V : List BYTE)
    (h : r.Window) (hin : r.Pos + V.length ≤ r.Size) :
    ∃ r1, r.Serialize V = some (r1, (r.stream.data.drop r.Pos.toNat).take V.length) ∧
      r1.Window ∧ r1.Pos = r.Pos + V.length ∧ r1.Size = r.Size ∧
      r1.stream.data = r.stream.data ∧ r1.Error = r.Error :=
  FArchiveFileReader.rd_SerializeLoop_sound (V.length + 1) r V h hin (Nat.lt_succ_self _)

theorem FArchiveFileReader.rd_new_Window (InFile : FILE) (InError : List Report)
    (Buffer : List BYTE) (hf : InFile.faultless) :
    (FArchiveFileReader.new InFile InError InFile.data.length Buffer).Window := by
  have hs := fseek_sound InFile 0 hf (le_refl _)
  refine ⟨rfl, rfl, ?_, ?_, le_refl _, le_refl _, ?_, ?_, ?_, ?_, ?_⟩
  · intro i
    simp only [FArchiveFileReader.new, fseek_script]
    exact hf i
  · simp only [FArchiveFileReader.new, fseek_data]
  · simp [FArchiveFileReader.new]
  · simp [FArchiveFileReader.new]
  · simp [FArchiveFileReader.new]
  · simp [FArchiveFileReader.new, hs]
  · simp [FArchiveFileReader.new]

theorem FArchiveFileReader.rd_Seek_sound (r : FArchiveFileReader) (p : Int) (h : r.Window)
    (h0 : 0 ≤ p) (hS : p ≤ r.Size) :
    ∃ r1, r.Seek p = some r1 ∧ r1.Window ∧ r1.Pos = p ∧ r1.Size = r.Size ∧
      r1.stream.data = r.stream.data ∧ r1.Error = r.Error := by
  obtain ⟨r1, hr1⟩ := Option.isSome_iff_exists.mp (r.rd_Seek_isSome p h.file h0 hS)
  have hs := fseek_sound r.stream p h.sound h0
  refine ⟨r1, hr1, ?_⟩
  unfold FArchiveFileReader.Seek at hr1
  rw [if_neg (by simpa using h0), if_neg (by simpa using hS), if_neg (by simp [h.file])] at hr1
  simp only [hs, ne_eq, not_true_eq_false, if_false, Option.some.injEq] at hr1
  subst hr1
  refine ⟨⟨h.file, h.clean, h.sound, h.size, h0, le_refl _, ?_, ?_, ?_, ?_, ?_⟩,
    rfl, rfl, rfl, rfl⟩
  · simp
  · simpa using hS
  · simp
  · simp only
    omega
  · simp

theorem FArchiveFileReader.rd_InRange_Window (r0 r : FArchiveFileReader)
    (hr : FArchiveFileReader.InRange r0 r) (h0 : r0.Window) :
    r.Window ∧ r.Size = r0.Size ∧ r.stream.data = r0.stream.data := by
  induction hr with
  | start => exact ⟨h0, rfl, rfl⟩
  | seek p _ hp0 hpS hs ih =>
    obtain ⟨hw, hS, hd⟩ := ih
    obtain ⟨r2, h2, hw2, -, hS2, hd2, -⟩ := FArchiveFileReader.rd_Seek_sound _ p hw hp0 hpS
    rw [hs] at h2
    cases h2
    exact ⟨hw2, by rw [hS2, hS], by rw [hd2, hd]⟩
  | serialize V V1 _ hin hs ih =>
    obtain ⟨hw, hS, hd⟩ := ih
    obtain ⟨r2, h2, hw2, -, hS2, hd2, -⟩ := FArchiveFileReader.rd_Serialize_sound _ V hw hin
    rw [hs] at h2
    cases h2
    exact ⟨hw2, by rw [hS2, hS], by rw [hd2, hd]⟩

/-- C2: on a reader over a file `F` whose handle calls all succeed, built with
`Size = |F|` and brought to its state by in-range `Seek` and `Serialize` calls, a
`Serialize` of `L` bytes with `Pos + L ≤ Size` returns, stores exactly
`F[Pos .. Pos+L)` in the destination, advances `Tell()` by `L`, and leaves the
error flag clear. -/
theorem C2_reader_in_range_read (InFile : FILE) (InError : List Report) (Buffer : List BYTE)
    (r : FArchiveFileReader) (V : List BYTE) (hf : InFile.faultless)
    (hr : FArchiveFileReader.InRange
      (FArchiveFileReader.new InFile InError InFile.data.length Buffer) r)
    (hin : r.Pos + V.length ≤ r.Size) :
    ∃ r1, r.Serialize V = some (r1, (InFile.data.drop r.Pos.toNat).take V.length) ∧
      r1.Tell = r.Tell + V.length ∧ r1.ArIsError = false := by
  obtain ⟨hw, -, hd⟩ := FArchiveFileReader.rd_InRange_Window _ r hr
    (FArchiveFileReader.rd_new_Window InFile InError Buffer hf)
  obtain ⟨r1, h1, hw1, hp1, -, -, -⟩ := r.rd_Serialize_sound V hw hin
  have hd0 : (FArchiveFileReader.new InFile InError InFile.data.length Buffer).stream.data
      = InFile.data := fseek_data InFile 0
  rw [hd, hd0] at h1
  exact ⟨r1, h1, hp1, hw1.clean⟩

/-- C2 on the five-byte file `1 2 3 4 5`: after `Seek(2)`, reading the three bytes up to the
end of the file delivers `3 4 5`. -/
theorem C2_reader_in_range_read_witness :
    ∃ r1, sampleReader.Serialize [0, 0, 0] = some (r1, [3, 4, 5]) ∧
      r1.Tell = sampleReader.Tell + 3 ∧ r1.ArIsError = false :=
  C2_reader_in_range_read (soundFile [1, 2, 3, 4, 5]) [] (List.replicate 1024 0) sampleReader
    [0, 0, 0] (soundFile_faultless _)
    (FArchiveFileReader.InRange.seek 2 FArchiveFileReader.InRange.start (by decide) (by decide)
      (Option.some_get _).symm)
    (by decide)

/-! ## Round trip -/

theorem FArchiveFileWriter.wr_SerializeAll_spec (Vs : List (List BYTE)) :
    ∀ (w : FArchiveFileWriter), w.WellFormed → w.stream.faultless →
      ∃ (w1 : FArchiveFileWriter) (chunks : List (List BYTE)),
        FArchiveFileWriter.SerializeAll Vs w = some w1 ∧ w1.WellFormed ∧
        w.stream.wrote w1.stream chunks ∧
        chunks.flatten ++ w1.staged = w.staged ++ Vs.flatten ∧
        w1.ArIsError = w.ArIsError ∧ wrapINT w1.Pos = wrapINT (w.Pos + Vs.flatten.length) := by
  induction Vs with
  | nil =>
    intro w hwf _
    exact ⟨w, [], rfl, hwf, w.stream.wrote_refl, by simp, rfl, by simp⟩
  | cons V Vs ih =>
    intro w hwf hf
    obtain ⟨w1, h1, hwf1, hp1, -, -, hs1⟩ := w.wr_Serialize_spec V hwf
    obtain ⟨J1, hw1, -, hj1, he1, -⟩ := hs1 hf
    have hf1 : w1.stream.faultless := FILE.wrote_faultless _ _ _ hw1 hf
    obtain ⟨w2, J2, h2, hwf2, hw2, hj2, he2, hp2⟩ := ih w1 hwf1 hf1
    refine ⟨w2, J1 ++ J2, ?_, hwf2, FILE.wrote_trans _ _ _ J1 J2 hw1 hw2, ?_, ?_, ?_⟩
    · simp only [FArchiveFileWriter.SerializeAll, h1]
      exact h2
    · rw [List.flatten_append, List.append_assoc, hj2, ← List.append_assoc, hj1,
        List.flatten_cons, List.append_assoc]
    · rw [he2, he1]
    · rw [hp2, hp1, wrapINT_add, List.flatten_cons, List.length_append]
      push_cast
      rw [add_assoc]

theorem FArchiveFileReader.rd_SerializeAll_sound (Vs : List (List BYTE)) :
    ∀ (r : FArchiveFileReader), r.Window → r.Pos + Vs.flatten.length ≤ r.Size →
      ∃ (r1 : FArchiveFileReader) (outs : List (List BYTE)),
        FArchiveFileReader.SerializeAll Vs r = some (r1, outs) ∧ r1.Window ∧
        outs.flatten = (r.stream.data.drop r.Pos.toNat).take Vs.flatten.length ∧
        outs.map List.length = Vs.map List.length ∧
        r1.Pos = r.Pos + Vs.flatten.length := by
  induction Vs with
  | nil =>
    intro r hw _
    exact ⟨r, [], rfl, hw, by simp, rfl, by simp⟩
  | cons V Vs ih =>
    intro r hw hin
    have hp : 0 ≤ r.Pos := le_trans hw.base hw.lo
    have hsz := hw.size
    rw [List.flatten_cons, List.length_append] at hin
    push_cast at hin
    obtain ⟨r1, h1, hw1, hp1, hS1, hd1, -⟩ := r.rd_Serialize_sound V hw (by omega)
    have hin1 : r1.Pos + (Vs.flatten.length : Int) ≤ r1.Size := by
      rw [hp1, hS1]
      omega
    obtain ⟨r2, outs, h2, hw2, ho2, hl2, hp2⟩ := ih r1 hw1 hin1
    have hlen : ((r.stream.data.drop r.Pos.toNat).take V.length).length = V.length := by
      rw [List.length_take, List.length_drop]
      omega
    refine ⟨r2, (r.stream.data.drop r.Pos.toNat).take V.length :: outs, ?_, hw2, ?_, ?_, ?_⟩
    · simp only [FArchiveFileReader.SerializeAll, h1, h2]
    · have e1 : r1.Pos.toNat = r.Pos.toNat + V.length := by omega
      rw [List.flatten_cons, ho2, hd1, e1, List.flatten_cons, List.length_append,
        List.take_add, List.drop_drop]
    · rw [List.map_cons, List.map_cons, hl2, hlen]
    · rw [hp2, hp1, List.flatten_cons, List.length_append]
      push_cast
      ring

theorem flatten_take_length_le (Vs : List (List BYTE)) (k : Nat) :
    (Vs.take k).flatten.length ≤ Vs.flatten.length := by
  conv_rhs => rw [← List.take_append_drop k Vs, List.flatten_append, List.length_append]
  omega

/-- C1: a fresh writer over an empty file whose handle calls all succeed receives the payloads
`chunks` through successive `Serialize` calls and is closed: every call returns,
`Close` returns true, and the file holds exactly the concatenation `D` of the
payloads.  A fresh reader over a file with that content and `Size = |D|`, whose
handle calls all succeed, then serves successive `Serialize` calls into
destinations `dests` of total length `|D|`: every call returns, the
destinations hold `D` in order, each as long as before, and the error flag is
clear after every one of the calls. -/
theorem C1_round_trip (InFile : FILE) (InError : List Report) (WBuffer : List BYTE)
    (chunks dests : List (List BYTE))
    (hdata : InFile.data = []) (hoff : InFile.off = 0) (hf : InFile.faultless)
    (hB : WBuffer.length = 4096) (hlen : dests.flatten.length = chunks.flatten.length) :
    ∃ (w1 w2 : FArchiveFileWriter) (b : Bool),
      FArchiveFileWriter.SerializeAll chunks (FArchiveFileWriter.new InFile InError WBuffer)
        = some w1 ∧
      w1.Close = some (w2, b) ∧ b = true ∧ w2.stream.data = chunks.flatten ∧
      ∀ (RFile : FILE) (RError : List Report) (RBuffer : List BYTE),
        RFile.data = w2.stream.data → RFile.faultless →
        (∃ (r1 : FArchiveFileReader) (outs : List (List BYTE)),
          FArchiveFileReader.SerializeAll dests
            (FArchiveFileReader.new RFile RError chunks.flatten.length RBuffer)
            = some (r1, outs) ∧
          outs.flatten = chunks.flatten ∧ outs.map List.length = dests.map List.length ∧
          r1.ArIsError = false) ∧
        ∀ k, ∃ (rk : FArchiveFileReader) (outk : List (List BYTE)),
          FArchiveFileReader.SerializeAll (dests.take k)
            (FArchiveFileReader.new RFile RError chunks.flatten.length RBuffer)
            = some (rk, outk) ∧ rk.ArIsError = false := by
  have hwf : (FArchiveFileWriter.new InFile InError WBuffer).WellFormed :=
    ⟨rfl, by simp [FArchiveFileWriter.new], by simp [FArchiveFileWriter.new], hB⟩
  obtain ⟨w1, J, h1, hwf1, hw1, hj1, he1, -⟩ :=
    FArchiveFileWriter.wr_SerializeAll_spec chunks _ hwf hf
  obtain ⟨w2, b, h2, hd2, -, hb2, -, -⟩ := w1.wr_Close_after InFile J hw1 hwf1 hf
  have hst0 : (FArchiveFileWriter.new InFile InError WBuffer).staged = [] := by
    simp [FArchiveFileWriter.staged, FArchiveFileWriter.new]
  rw [hst0, List.nil_append] at hj1
  have hw0 : InFile.wpos = 0 := by simp [FILE.wpos, hdata, hoff]
  rw [hj1, hdata, hw0, pwrite_nil] at hd2
  have hbt : b = true := by
    rw [hb2, he1]
    rfl
  refine ⟨w1, w2, b, h1, h2, hbt, hd2, ?_⟩
  intro RFile RError RBuffer hRd hRf
  have hRlen : RFile.data.length = chunks.flatten.length := by rw [hRd, hd2]
  have hw := FArchiveFileReader.rd_new_Window RFile RError RBuffer hRf
  rw [hRlen] at hw
  have hd0 : (FArchiveFileReader.new RFile RError chunks.flatten.length RBuffer).stream.data
      = chunks.flatten := by
    rw [← hd2, ← hRd]
    exact fseek_data RFile 0
  constructor
  · obtain ⟨r1, outs, hr1, hw1r, ho, hl, -⟩ :=
      FArchiveFileReader.rd_SerializeAll_sound dests _ hw (by
        simp only [FArchiveFileReader.new]
        omega)
    refine ⟨r1, outs, hr1, ?_, hl, hw1r.clean⟩
    rw [ho, hd0, hlen]
    simp [FArchiveFileReader.new]
  · intro k
    have hk := flatten_take_length_le dests k
    obtain ⟨rk, outk, hrk, hwk, -, -, -⟩ :=
      FArchiveFileReader.rd_SerializeAll_sound (dests.take k) _ hw (by
        simp only [FArchiveFileReader.new]
        omega)
    exact ⟨rk, outk, hrk, hwk.clean⟩

/-- C1 on the payloads `1 2` and `3`, read back as one byte and then two. -/
theorem C1_round_trip_witness :
    ∃ (w1 w2 : FArchiveFileWriter) (b : Bool),
      FArchiveFileWriter.SerializeAll [[1, 2], [3]]
        (FArchiveFileWriter.new (soundFile []) [] (List.replicate 4096 0)) = some w1 ∧
      w1.Close = some (w2, b) ∧ b = true ∧ w2.stream.data = [1, 2, 3] ∧
      ∃ (r1 : FArchiveFileReader) (outs : List (List BYTE)),
        FArchiveFileReader.SerializeAll [[0], [0, 0]]
          (FArchiveFileReader.new (soundFile w2.stream.data) [] 3 (List.replicate 1024 0))
          = some (r1, outs) ∧
        outs.flatten = [1, 2, 3] ∧ r1.ArIsError = false := by
  obtain ⟨w1, w2, b, h1, h2, hb, hd, hread⟩ :=
    C1_round_trip (soundFile []) [] (List.replicate 4096 0) [[1, 2], [3]] [[0], [0, 0]]
      rfl rfl (soundFile_faultless _) (List.length_replicate _ _) rfl
  obtain ⟨⟨r1, outs, hr, ho, -, he⟩, -⟩ :=
    hread (soundFile w2.stream.data) [] (List.replicate 1024 0) rfl (soundFile_faultless _)
  exact ⟨w1, w2, b, h1, h2, hb, hd, r1, outs, hr, ho, he⟩

/-! ## Reading past the end of the file -/

theorem FArchiveFileReader.rd_direct_short (r : FArchiveFileReader) (V : List BYTE)
    (h : r.Window) (hex : r.Pos = r.BufferBase + r.BufferCount)
    (hL : (V.length : Int) ≥ 1024) (hout : r.Size < r.Pos + V.length) :
    ∃ r1 V1, r.SerializeTurn V = some (FArchiveFileReader.Turn.ret r1 V1) ∧
      r1.ArIsError = true ∧ r1.Pos = r.Pos + V.length ∧ r1.Size = r.Size ∧
      r1.Error = r.Error ++ [Report.freadFailedLength V.length] := by
  have hp : 0 ≤ r.Pos := le_trans h.base h.lo
  have hoff : (r.stream.off : Int) = r.Pos := by rw [h.handle, hex]
  have hsz := h.size
  have hc : min (V.length : Int) (r.BufferBase + r.BufferCount - r.Pos) = 0 := by omega
  have hnz : V.length ≠ 0 := by omega
  have hrd := fread_short r.stream V.length h.sound hnz (by omega)
  refine ⟨_, _, r.rd_SerializeTurn_direct V hc hL h.file, ?_, rfl, rfl, ?_⟩
  · simp [hrd]
  · simp [hrd]

theorem FArchiveFileReader.rd_SerializeLoop_past (fuel : Nat) :
    ∀ (r : FArchiveFileReader) (V : List BYTE), r.Window → r.Size < r.Pos + V.length →
      (V.length : Int) < 1024 → V.length < fuel →
      ∃ r1 V1, FArchiveFileReader.SerializeLoop fuel r V = some (r1, V1) ∧
        r1.ArIsError = true ∧ r1.Pos = r.Size ∧ r1.Size = r.Size ∧
        r1.Error = r.Error ++ [Report.readBeyondEOF r.Size (r.Pos + V.length - r.Size) r.Size] := by
  induction fuel with
  | zero => intro r V _ _ _ h; omega
  | succ n ih =>
    intro r V hw hout hshort hfuel
    have hp : 0 ≤ r.Pos := le_trans hw.base hw.lo
    have hps : r.Pos ≤ r.Size := le_trans hw.hi hw.fits
    have hsz := hw.size
    have hfits := hw.fits
    have hhi := hw.hi
    have hV : (V.length : Int) > 0 := by omega
    have hnext : ∀ (r1 : FArchiveFileReader) (c : Nat), 0 < c → c ≤ V.length →
        (c : Int) ≤ r.Size - r.Pos →
        r.SerializeTurn V =
          some (FArchiveFileReader.Turn.next r1 ((r.stream.data.drop r.Pos.toNat).take c)) →
        r1.Window → r1.Pos = r.Pos + c → r1.Size = r.Size → r1.Error = r.Error →
        ∃ r2 V2, FArchiveFileReader.SerializeLoop (n + 1) r V = some (r2, V2) ∧
          r2.ArIsError = true ∧ r2.Pos = r.Size ∧ r2.Size = r.Size ∧
          r2.Error = r.Error
            ++ [Report.readBeyondEOF r.Size (r.Pos + V.length - r.Size) r.Size] := by
      intro r1 c hc0 hcV hcS ht hw1 hp1 hS1 hE1
      have hlen : ((r.stream.data.drop r.Pos.toNat).take c).length = c := by
        rw [List.length_take, List.length_drop]
        omega
      have hout1 : r1.Size < r1.Pos + ((V.drop c).length : Int) := by
        rw [List.length_drop, hp1, hS1]
        omega
      have hshort1 : ((V.drop c).length : Int) < 1024 := by
        rw [List.length_drop]
        omega
      have hf1 : (V.drop c).length < n := by
        rw [List.length_drop]
        omega
      obtain ⟨r2, V2, hl2, he2, hp2, hS2, hE2⟩ := ih r1 (V.drop c) hw1 hout1 hshort1 hf1
      refine ⟨r2, (r.stream.data.drop r.Pos.toNat).take c ++ V2, ?_, he2, by rw [hp2, hS1],
        by rw [hS2, hS1], ?_⟩
      · unfold FArchiveFileReader.SerializeLoop
        rw [if_pos hV, ht]
        simp only
        rw [hlen, hl2]
      · rw [hE2, hE1, hS1, hp1, List.length_drop]
        congr 3
        omega
    by_cases hc : min (V.length : Int) (r.BufferBase + r.BufferCount - r.Pos) = 0
    · have hex : r.Pos = r.BufferBase + r.BufferCount := by omega
      have hL : ¬ (V.length : Int) ≥ 1024 := by omega
      by_cases hav : r.Pos < r.Size
      · obtain ⟨r1, c, h1, h2, h3, h4, h5, h6, h7, -, h9⟩ := r.rd_refill_sound V hw hex
          (by omega) hL hav
        exact hnext r1 c h1 h2 h3 h4 h5 h6 h7 h9
      · have hav1 : r.Pos = r.Size := by omega
        obtain ⟨r1, ht, he1, hp1, hS1, hE1⟩ := r.rd_eof_sound V hw (by omega) hL hav1
        refine ⟨r1, V, ?_, he1, by rw [hp1, hav1], hS1, ?_⟩
        · unfold FArchiveFileReader.SerializeLoop
          rw [if_pos hV, ht]
        · rw [hE1, hav1]
          congr 3
          omega
    · have hpos : 0 < min (V.length : Int) (r.BufferBase + r.BufferCount - r.Pos) := by omega
      obtain ⟨hstep, hw1⟩ := r.rd_SerializeCopy_sound _ hw hpos (min_le_right _ _)
      refine hnext _ (min (V.length : Int) (r.BufferBase + r.BufferCount - r.Pos)).toNat
        (by omega) (by omega) (by omega) ?_ hw1 ?_ rfl rfl
      · rw [r.rd_SerializeTurn_copy V hc, hstep]
      · simp only
        omega

/-- C6 as amended: on a fresh reader over a file of `n` bytes whose handle calls fail for no
other reason than the end of the file, `Serialize` into `n + 1` bytes returns
with the error flag set and exactly one new report: `ReadFile beyond EOF n+1/n`
when `n + 1 < 1024`, and `fread failed: Length=n+1` when `n + 1 ≥ 1024`. -/
theorem C6_past_end_boundary (InFile : FILE) (InError : List Report) (Buffer V : List BYTE)
    (hf : InFile.faultless) (hV : V.length = InFile.data.length + 1) :
    ∃ r1 V1,
      (FArchiveFileReader.new InFile InError InFile.data.length Buffer).Serialize V
        = some (r1, V1) ∧
      r1.ArIsError = true ∧
      r1.Error = InError ++
        [if (V.length : Int) < 1024 then
            Report.readBeyondEOF InFile.data.length 1 InFile.data.length
          else Report.freadFailedLength V.length] := by
  have hw := FArchiveFileReader.rd_new_Window InFile InError Buffer hf
  by_cases hL : (V.length : Int) < 1024
  · obtain ⟨r1, V1, h1, he, -, -, hE⟩ :=
      FArchiveFileReader.rd_SerializeLoop_past (V.length + 1) _ V hw
        (by simp only [FArchiveFileReader.new]; omega) hL (Nat.lt_succ_self _)
    refine ⟨r1, V1, h1, he, ?_⟩
    rw [hE, if_pos hL]
    simp only [FArchiveFileReader.new]
    congr 3
    omega
  · obtain ⟨r1, V1, ht, he, -, -, hE⟩ :=
      FArchiveFileReader.rd_direct_short _ V hw (by simp [FArchiveFileReader.new])
        (by omega) (by simp only [FArchiveFileReader.new]; omega)
    refine ⟨r1, V1, ?_, he, ?_⟩
    · unfold FArchiveFileReader.Serialize FArchiveFileReader.SerializeLoop
      rw [if_pos (by omega), ht]
    · rw [hE, if_neg hL]
      rfl

/-- C6 as claimed fails on a file of 1023 bytes: `Serialize` into 1024 bytes takes the direct
read, sets the error flag and reports `fread failed: Length=1024`; the
`ReadFile beyond EOF` report is not emitted. -/
theorem C6_past_end_counterexample :
    ∃ r1 V1,
      (FArchiveFileReader.new (soundFile (List.replicate 1023 0)) [] 1023
        (List.replicate 1024 0)).Serialize (List.replicate 1024 0) = some (r1, V1) ∧
      r1.ArIsError = true ∧ r1.Error = [Report.freadFailedLength 1024] ∧
      pastEndCount r1.Error = 0 := by
  have hd : (soundFile (List.replicate 1023 0)).data.length = 1023 := List.length_replicate _ _
  have hv : (List.replicate 1024 (0 : BYTE)).length = 1024 := List.length_replicate _ _
  have hw := FArchiveFileReader.rd_new_Window (soundFile (List.replicate 1023 0)) []
    (List.replicate 1024 0) (soundFile_faultless _)
  rw [hd] at hw
  obtain ⟨r1, V1, ht, he, -, -, hE⟩ :=
    FArchiveFileReader.rd_direct_short _ (List.replicate 1024 0) hw
      (by simp only [FArchiveFileReader.new]; rfl)
      (by rw [hv]; decide) (by rw [hv]; simp only [FArchiveFileReader.new]; decide)
  refine ⟨r1, V1, ?_, he, ?_, ?_⟩
  · unfold FArchiveFileReader.Serialize FArchiveFileReader.SerializeLoop
    rw [if_pos (by rw [hv]; decide)]
    simp only [Nat.cast_ofNat] at ht ⊢
    rw [ht]
  · rw [hE, hv]
    rfl
  · rw [hE, hv]
    rfl

/-- C6 as amended, on a file of two bytes. -/
theorem C6_past_end_boundary_witness :
    ∃ r1 V1,
      (FArchiveFileReader.new (soundFile [1, 2]) [] 2 (List.replicate 1024 0)).Serialize
        [0, 0, 0] = some (r1, V1) ∧
      r1.ArIsError = true ∧ r1.Error = [Report.readBeyondEOF 2 1 2] :=
  C6_past_end_boundary (soundFile [1, 2]) [] (List.replicate 1024 0) [0, 0, 0]
    (soundFile_faultless _) rfl

/-! ## The range of the reader's cursor -/

theorem FArchiveFileReader.rd_Seek_bounded (r r1 : FArchiveFileReader) (p : Int)
    (h : r.Bounded) (hs : r.Seek p = some r1) : r1.Bounded ∧ r1.Size = r.Size := by
  obtain ⟨hP, hB, hC, hS, -, h0, h1, hbuf, -⟩ := r.rd_Seek_fields r1 p hs
  refine ⟨⟨?_, ?_, ?_, ?_⟩, hS⟩
  · rw [hP]; exact h0
  · rw [hP, hS]; exact h1
  · rw [hB, hC, hS]; omega
  · rw [hbuf]; exact h.array

theorem FArchiveFileReader.rd_Precache_some (r r1 : FArchiveFileReader) (n : Int)
    (hs : r.Precache n = some r1) : r.File = true ∧ 0 ≤ r.precacheCount n := by
  unfold FArchiveFileReader.Precache at hs
  simp only at hs
  by_cases hno : r.File = false ∨
      min (min n (1024 - Int.land r.Pos (1024 - 1))) (r.Size - r.Pos) < 0
  · rw [if_pos hno] at hs
    cases hs
  · unfold FArchiveFileReader.precacheCount
    constructor
    · cases hF : r.File
      · exact absurd (Or.inl hF) hno
      · rfl
    · have : ¬ min (min n (1024 - Int.land r.Pos (1024 - 1))) (r.Size - r.Pos) < 0 :=
        fun hc => hno (Or.inr hc)
      omega

theorem FArchiveFileReader.rd_Precache_bounded (r r1 : FArchiveFileReader) (n : Int)
    (h : r.Bounded) (hs : r.Precache n = some r1) :
    r1.Bounded ∧ r1.Size = r.Size ∧ r1.Pos = r.Pos := by
  obtain ⟨hF, hc0⟩ := r.rd_Precache_some r1 n hs
  rw [r.rd_Precache_eq n hF hc0] at hs
  cases hs
  have hcnt := r.rd_precacheCount_eq n h.pos0
  have hcS : r.precacheCount n ≤ r.Size - r.Pos := by
    rw [hcnt]
    omega
  have hc1 : r.precacheCount n ≤ 1024 := by
    rw [hcnt]
    omega
  have hgot := fread_length_le r.stream (r.precacheCount n).toNat
  refine ⟨⟨h.pos0, h.posS, ?_, ?_⟩, rfl, rfl⟩
  · simp only
    omega
  · simp only
    rw [appMemcpy_length, h.array]
    rw [h.array]
    omega

theorem FArchiveFileReader.rd_SerializeCopy_bounded (r : FArchiveFileReader) (c : Int)
    (t : FArchiveFileReader.Turn) (h : r.Bounded)
    (hc : c ≤ r.BufferBase + r.BufferCount - r.Pos) (hs : r.SerializeCopy c = some t) :
    ∃ r1 chunk, t = FArchiveFileReader.Turn.next r1 chunk ∧ r1.Bounded ∧ r1.Size = r.Size ∧
      r1.Pos = r.Pos + chunk.length ∧ (chunk.length : Int) = c := by
  unfold FArchiveFileReader.SerializeCopy at hs
  by_cases hno : c < 0 ∨ r.Pos - r.BufferBase < 0 ∨ r.Pos - r.BufferBase + c > 1024
  · rw [if_pos hno] at hs
    cases hs
  · rw [if_neg hno] at hs
    cases hs
    have hfits := h.fits
    have hp0 := h.pos0
    have hlen : (((r.Buffer.drop (r.Pos - r.BufferBase).toNat).take c.toNat).length : Int)
        = c := by
      rw [List.length_take, List.length_drop, h.array]
      omega
    refine ⟨_, _, rfl, ⟨?_, ?_, hfits, h.array⟩, rfl, ?_, hlen⟩
    · simp only; omega
    · simp only; omega
    · simp only
      rw [hlen]

theorem FArchiveFileReader.rd_SerializeTurn_bounded (r : FArchiveFileReader) (V : List BYTE)
    (t : FArchiveFileReader.Turn) (h : r.Bounded)
    (hok : shortOrInRange r V) (hs : r.SerializeTurn V = some t) :
    (∃ r1 V1, t = FArchiveFileReader.Turn.ret r1 V1 ∧ r1.Bounded ∧ r1.Size = r.Size) ∨
    (∃ r1 chunk, t = FArchiveFileReader.Turn.next r1 chunk ∧ r1.Bounded ∧ r1.Size = r.Size ∧
      r1.Pos = r.Pos + chunk.length ∧ chunk.length ≤ V.length) := by
  have hp0 := h.pos0
  have hfits := h.fits
  by_cases hc : min (V.length : Int) (r.BufferBase + r.BufferCount - r.Pos) = 0
  · by_cases hL : (V.length : Int) ≥ 1024
    · have hin : r.Pos + V.length ≤ r.Size := by
        rcases hok with hk | hk
        · omega
        · exact hk
      by_cases hF : r.File = true
      · rw [r.rd_SerializeTurn_direct V hc hL hF] at hs
        cases hs
        refine Or.inl ⟨_, _, rfl, ⟨?_, ?_, ?_, h.array⟩, rfl⟩
        · simp only; omega
        · simp only; omega
        · simp only; omega
      · rw [r.rd_SerializeTurn_null V hc hL (by simpa using hF)] at hs
        cases hs
    · rw [r.rd_SerializeTurn_refill V hc hL] at hs
      cases hpre : r.Precache MAXINT with
      | none =>
        rw [hpre] at hs
        cases hs
      | some r0 =>
        rw [hpre] at hs
        simp only at hs
        obtain ⟨hb0, hS0, hP0⟩ := r.rd_Precache_bounded r0 MAXINT h hpre
        by_cases hc1 : min (V.length : Int) (r0.BufferBase + r0.BufferCount - r0.Pos) ≤ 0
        · rw [if_pos hc1] at hs
          cases hs
          exact Or.inl ⟨_, _, rfl, ⟨hb0.pos0, hb0.posS, hb0.fits, hb0.array⟩, hS0⟩
        · rw [if_neg hc1] at hs
          by_cases he : r0.ArIsError = true
          · rw [if_pos he] at hs
            cases hs
            exact Or.inl ⟨_, _, rfl, hb0, hS0⟩
          · rw [if_neg he] at hs
            obtain ⟨r1, chunk, ht, hb1, hS1, hP1, hl1⟩ :=
              r0.rd_SerializeCopy_bounded _ t hb0 (min_le_right _ _) hs
            refine Or.inr ⟨r1, chunk, ht, hb1, by rw [hS1, hS0], by rw [hP1, hP0], ?_⟩
            have := min_le_left (V.length : Int) (r0.BufferBase + r0.BufferCount - r0.Pos)
            omega
  · rw [r.rd_SerializeTurn_copy V hc] at hs
    obtain ⟨r1, chunk, ht, hb1, hS1, hP1, hl1⟩ :=
      r.rd_SerializeCopy_bounded _ t h (min_le_right _ _) hs
    refine Or.inr ⟨r1, chunk, ht, hb1, hS1, hP1, ?_⟩
    have := min_le_left (V.length : Int) (r.BufferBase + r.BufferCount - r.Pos)
    omega

theorem FArchiveFileReader.rd_SerializeLoop_bounded (fuel : Nat) :
    ∀ (r : FArchiveFileReader) (V : List BYTE) (res : FArchiveFileReader × List BYTE),
      r.Bounded → shortOrInRange r V → FArchiveFileReader.SerializeLoop fuel r V = some res →
      res.1.Bounded ∧ res.1.Size = r.Size := by
  induction fuel with
  | zero => intro r V res _ _ h; simp [FArchiveFileReader.SerializeLoop] at h
  | succ n ih =>
    intro r V res hb hok hs
    unfold FArchiveFileReader.SerializeLoop at hs
    by_cases hV : (V.length : Int) > 0
    · rw [if_pos hV] at hs
      cases ht : r.SerializeTurn V with
      | none =>
        rw [ht] at hs
        cases hs
      | some t =>
        rw [ht] at hs
        rcases r.rd_SerializeTurn_bounded V t hb hok ht with
          ⟨r1, V1, rfl, hb1, hS1⟩ | ⟨r1, chunk, rfl, hb1, hS1, hP1, hl1⟩
        · simp only [Option.some.injEq] at hs
          subst hs
          exact ⟨hb1, hS1⟩
        · simp only at hs
          have hok1 : shortOrInRange r1 (V.drop chunk.length) := by
            unfold shortOrInRange at hok ⊢
            rw [List.length_drop, hP1, hS1]
            rcases hok with hk | hk
            · left; omega
            · right; omega
          cases hl : FArchiveFileReader.SerializeLoop n r1 (V.drop chunk.length) with
          | none =>
            rw [hl] at hs
            cases hs
          | some res2 =>
            rw [hl] at hs
            obtain ⟨hb2, hS2⟩ := ih r1 _ res2 hb1 hok1 hl
            simp only [Option.some.injEq] at hs
            subst hs
            exact ⟨hb2, by rw [hS2, hS1]⟩
    · rw [if_neg hV] at hs
      simp only [Option.some.injEq] at hs
      subst hs
      exact ⟨hb, rfl⟩

/-- C10 as amended: on a reader built with `Size ≥ 0`, after any `Seek` calls with
`0 ≤ InPos ≤ Size`, `Precache` calls with a non-negative hint and `Serialize`
calls that are shorter than 1024 bytes or stay within the file, whatever the
fate of the handle calls, the cursor satisfies `0 ≤ Pos ≤ Size` and `Size` is
the size given at construction. -/
theorem C10_cursor_range (InFile : FILE) (InError : List Report) (InSize : Int)
    (Buffer : List BYTE) (r : FArchiveFileReader) (hS : 0 ≤ InSize) (hB : Buffer.length = 1024)
    (hr : FArchiveFileReader.Reached shortOrInRange
      (FArchiveFileReader.new InFile InError InSize Buffer) r) :
    0 ≤ r.Pos ∧ r.Pos ≤ r.Size ∧ r.Size = InSize := by
  have key : r.Bounded ∧ r.Size = InSize := by
    induction hr with
    | start =>
      refine ⟨⟨le_refl _, hS, ?_, hB⟩, rfl⟩
      simp only [FArchiveFileReader.new]
      omega
    | seek p _ _ _ hs ih =>
      obtain ⟨hb, hsz⟩ := ih
      obtain ⟨hb1, hs1⟩ := FArchiveFileReader.rd_Seek_bounded _ _ p hb hs
      exact ⟨hb1, by rw [hs1, hsz]⟩
    | precache n _ _ hs ih =>
      obtain ⟨hb, hsz⟩ := ih
      obtain ⟨hb1, hs1, -⟩ := FArchiveFileReader.rd_Precache_bounded _ _ n hb hs
      exact ⟨hb1, by rw [hs1, hsz]⟩
    | serialize V V1 _ hok hs ih =>
      obtain ⟨hb, hsz⟩ := ih
      obtain ⟨hb1, hs1⟩ := FArchiveFileReader.rd_SerializeLoop_bounded _ _ V _ hb hok hs
      exact ⟨hb1, by rw [hs1, hsz]⟩
  exact ⟨key.1.pos0, key.1.posS, key.2⟩

/-- C10 as claimed fails on an empty file: `Serialize` into 1024 bytes on the fresh reader
takes the direct read and leaves `Pos = 1024` with `Size = 0`. -/
theorem C10_cursor_range_counterexample :
    ∃ r, FArchiveFileReader.Reached anyLength
        (FArchiveFileReader.new (soundFile []) [] 0 (List.replicate 1024 0)) r ∧
      r.Pos = 1024 ∧ r.Size = 0 ∧ ¬ (r.Pos ≤ r.Size) := by
  have hv : (List.replicate 1024 (0 : BYTE)).length = 1024 := List.length_replicate _ _
  have hw : (FArchiveFileReader.new (soundFile []) [] 0 (List.replicate 1024 0)).Window :=
    FArchiveFileReader.rd_new_Window (soundFile []) [] (List.replicate 1024 0)
      (soundFile_faultless _)
  obtain ⟨r1, V1, ht, -, hP, hS, -⟩ :=
    FArchiveFileReader.rd_direct_short _ (List.replicate 1024 0) hw
      (by simp only [FArchiveFileReader.new]; rfl)
      (by rw [hv]; decide) (by rw [hv]; simp only [FArchiveFileReader.new]; decide)
  have hser : (FArchiveFileReader.new (soundFile []) [] 0 (List.replicate 1024 0)).Serialize
      (List.replicate 1024 0) = some (r1, V1) := by
    unfold FArchiveFileReader.Serialize FArchiveFileReader.SerializeLoop
    rw [if_pos (by rw [hv]; decide), ht]
  have hP1 : r1.Pos = 1024 := by
    rw [hP, hv]
    rfl
  have hS1 : r1.Size = 0 := by
    rw [hS]
    rfl
  refine ⟨r1, FArchiveFileReader.Reached.serialize _ V1 FArchiveFileReader.Reached.start
    trivial hser, hP1, hS1, ?_⟩
  rw [hP1, hS1]
  decide

/-- C10 as amended, at the reader reached over a five-byte file by `Seek(2)` on a handle whose
every call fails. -/
theorem C10_cursor_range_witness :
    0 ≤ (((FArchiveFileReader.new (brokenFile [1, 2, 3, 4, 5]) [] 5
        (List.replicate 1024 0)).Seek 2).get rfl).Pos ∧
    (((FArchiveFileReader.new (brokenFile [1, 2, 3, 4, 5]) [] 5
        (List.replicate 1024 0)).Seek 2).get rfl).Pos ≤
      (((FArchiveFileReader.new (brokenFile [1, 2, 3, 4, 5]) [] 5
        (List.replicate 1024 0)).Seek 2).get rfl).Size ∧
    (((FArchiveFileReader.new (brokenFile [1, 2, 3, 4, 5]) [] 5
        (List.replicate 1024 0)).Seek 2).get rfl).Size = 5 :=
  C10_cursor_range (brokenFile [1, 2, 3, 4, 5]) [] 5 (List.replicate 1024 0) _ (by decide)
    (List.length_replicate _ _)
    (FArchiveFileReader.Reached.seek 2 FArchiveFileReader.Reached.start (by decide) (by decide)
      (Option.some_get _).symm)

/-! ## Seek and Flush, call by call -/

theorem FArchiveFileReader.rd_Seek_eq (r : FArchiveFileReader) (p : Int)
    (hF : r.File = true) (h0 : 0 ≤ p) (hS : p ≤ r.Size) :
    r.Seek p =
      some { r with
        stream := (fseek r.stream p).1
        ArIsError := (r.ArIsError || decide ((fseek r.stream p).2 ≠ 0))
        Error := if (fseek r.stream p).2 ≠ 0 then
            r.Error ++ [Report.seekFailed p r.Size r.Pos] else r.Error
        Pos := p
        BufferBase := p
        BufferCount := 0 } := by
  unfold FArchiveFileReader.Seek
  rw [if_neg (by simpa using h0), if_neg (by simpa using hS), if_neg (by simp [hF])]
  by_cases hr : (fseek r.stream p).2 ≠ 0
  · simp [hr]
  · simp [hr]

/-- C17: on every reader with an open handle and every `0 ≤ InPos ≤ Size`, `Seek` returns
with `Pos = BufferBase = InPos` and `BufferCount = 0` whatever the handle seek
did, `Size` unchanged; it issues the one `fseek`, the error flag afterwards is
the flag before or the failure of that `fseek`, and the error sink receives
exactly one line (`seek Failed`) when the `fseek` failed and none otherwise. -/
theorem C17_reader_seek_best_effort (r : FArchiveFileReader) (InPos : Int)
    (hF : r.File = true) (h0 : 0 ≤ InPos) (hS : InPos ≤ r.Size) :
    ∃ (r1 : FArchiveFileReader) (ok : Bool), r.Seek InPos = some r1 ∧
      r1.Pos = InPos ∧ r1.BufferBase = InPos ∧ r1.BufferCount = 0 ∧ r1.Size = r.Size ∧
      r1.stream.calls = r.stream.calls ++ [Call.fseek InPos ok] ∧
      r1.ArIsError = (r.ArIsError || !ok) ∧
      r1.Error = (if ok = true then r.Error
        else r.Error ++ [Report.seekFailed InPos r.Size r.Pos]) := by
  refine ⟨_, decide ((fseek r.stream InPos).2 = 0), r.rd_Seek_eq InPos hF h0 hS, rfl, rfl, rfl,
    rfl, fseek_calls r.stream InPos, ?_, ?_⟩
  · simp
  · by_cases hr : (fseek r.stream InPos).2 = 0 <;> simp [hr]

/-- C17 on a reader over a three-byte file whose handle fails every call: `Seek(2)`. -/
theorem C17_reader_seek_best_effort_witness :
    ∃ (r1 : FArchiveFileReader) (ok : Bool),
      (FArchiveFileReader.new (brokenFile [1, 2, 3]) [] 3 (List.replicate 1024 0)).Seek 2
        = some r1 ∧
      r1.Pos = 2 ∧ r1.BufferBase = 2 ∧ r1.BufferCount = 0 ∧
      r1.Size = (FArchiveFileReader.new (brokenFile [1, 2, 3]) [] 3
        (List.replicate 1024 0)).Size ∧
      r1.stream.calls =
        (FArchiveFileReader.new (brokenFile [1, 2, 3]) [] 3
          (List.replicate 1024 0)).stream.calls ++ [Call.fseek 2 ok] ∧
      r1.ArIsError =
        ((FArchiveFileReader.new (brokenFile [1, 2, 3]) [] 3
          (List.replicate 1024 0)).ArIsError || !ok) ∧
      r1.Error = (if ok = true then
          (FArchiveFileReader.new (brokenFile [1, 2, 3]) [] 3 (List.replicate 1024 0)).Error
        else (FArchiveFileReader.new (brokenFile [1, 2, 3]) [] 3 (List.replicate 1024 0)).Error
          ++ [Report.seekFailed 2
            (FArchiveFileReader.new (brokenFile [1, 2, 3]) [] 3 (List.replicate 1024 0)).Size
            (FArchiveFileReader.new (brokenFile [1, 2, 3]) [] 3
              (List.replicate 1024 0)).Pos]) :=
  C17_reader_seek_best_effort
    (FArchiveFileReader.new (brokenFile [1, 2, 3]) [] 3 (List.replicate 1024 0)) 2 rfl
    (by decide) (by decide)

/-- C14: on every writer with an open handle, a 4096-byte array and `0 ≤ BufferCount ≤ 4096`,
`Flush` returns with `BufferCount = 0` and `Pos` unchanged.  With
`BufferCount = 0` it issues no call and leaves the error flag alone; with
`BufferCount > 0` it issues exactly one `fwrite`, of exactly
`Buffer[0 .. BufferCount)`, and the error flag afterwards is the flag before or
the failure of that write. -/
theorem C14_writer_flush (w : FArchiveFileWriter) (hwf : w.WellFormed) :
    ∃ w1, w.Flush = some w1 ∧ w1.BufferCount = 0 ∧ w1.Pos = w.Pos ∧
      (w.staged.length : Int) = w.BufferCount ∧
      (w.BufferCount = 0 →
        w1.stream.calls = w.stream.calls ∧ w1.ArIsError = w.ArIsError) ∧
      (w.BufferCount ≠ 0 →
        ∃ ok : Bool, w1.stream.calls = w.stream.calls ++ [Call.fwrite w.staged ok] ∧
          w1.ArIsError = (w.ArIsError || !ok)) := by
  have hlen := w.wr_staged_length hwf
  by_cases hz : w.BufferCount = 0
  · refine ⟨w, w.wr_Flush_zero hz, hz, rfl, hlen, fun _ => ⟨rfl, rfl⟩, fun h => absurd hz h⟩
  · obtain ⟨hF, h0, h1, hB⟩ := hwf
    have hne := w.wr_staged_ne_nil ⟨hF, h0, h1, hB⟩ hz
    refine ⟨_, w.wr_Flush_pos hF (by omega) h1, rfl, rfl, hlen, fun h => absurd h hz,
      fun _ => ⟨decide ((fwrite w.stream w.staged).2 = 1), fwrite_calls w.stream w.staged hne, ?_⟩⟩
    simp

/-- C14 on a writer holding three staged bytes over a handle whose every call fails. -/
theorem C14_writer_flush_witness :
    ∃ w1, stagedWriter.Flush = some w1 ∧ w1.BufferCount = 0 ∧ w1.Pos = stagedWriter.Pos ∧
      ∃ ok : Bool, w1.stream.calls = stagedWriter.stream.calls
          ++ [Call.fwrite stagedWriter.staged ok] ∧
        w1.ArIsError = (stagedWriter.ArIsError || !ok) := by
  obtain ⟨w1, h1, h2, h3, -, -, h6⟩ := C14_writer_flush stagedWriter
    ⟨rfl, by decide, by decide, List.length_replicate _ _⟩
  exact ⟨w1, h1, h2, h3, h6 (by decide)⟩

/-! ## Precache -/

theorem fread_calls (f : FILE) (n : Nat) (hn : n ≠ 0) :
    (fread f n).1.calls = f.calls ++ [Call.fread n (decide ((fread f n).2.2 = 1))] := by
  unfold fread
  rw [if_neg hn]
  cases f.fate with
  | ok =>
    simp only
    split_ifs <;> simp
  | fail k => simp

theorem fread_whole (f : FILE) (n : Nat) (h : (fread f n).2.2 = 1) :
    (fread f n).2.1 = (f.data.drop f.off).take n ∧ (fread f n).2.1.length = n := by
  unfold fread at h ⊢
  by_cases hn : n = 0
  · rw [if_pos hn] at h
    simp at h
  · rw [if_neg hn] at h ⊢
    cases hfate : f.fate with
    | ok =>
      rw [hfate] at h
      simp only at h ⊢
      by_cases hlen : n ≤ (f.data.drop f.off).length
      · rw [if_pos hlen]
        refine ⟨rfl, ?_⟩
        simp only [List.length_take]
        omega
      · rw [if_neg hlen] at h
        simp at h
    | fail k =>
      rw [hfate] at h
      simp at h

theorem FArchiveFileReader.rd_precacheCount_bounds (r : FArchiveFileReader) (n : Int)
    (hp0 : 0 ≤ r.Pos) (hpS : r.Pos ≤ r.Size) (hn : 0 ≤ n) :
    0 ≤ r.precacheCount n ∧ r.precacheCount n ≤ n ∧ r.precacheCount n ≤ 1024 ∧
      r.Pos + r.precacheCount n ≤ r.Size ∧
      r.Pos + r.precacheCount n ≤ (r.Pos / 1024 + 1) * 1024 := by
  rw [r.rd_precacheCount_eq n hp0]
  omega

/-- C12: on every reader with an open handle and `0 ≤ Pos ≤ Size`, and for every hint `≥ 0`,
`Precache` returns with `BufferBase = Pos` and
`BufferCount = min(HintCount, 1024 - Pos mod 1024, Size - Pos)`, where
`Pos & 1023 = Pos mod 1024`; it asks the handle for exactly that many bytes (no
call when the count is 0) and, when the read succeeds, the array starts with
that many bytes of the file taken at the handle's offset.  So
`BufferBase + BufferCount` exceeds neither `Size` nor the next multiple of 1024
above `Pos`. -/
theorem C12_precache_amount (r : FArchiveFileReader) (HintCount : Int)
    (hF : r.File = true) (hp0 : 0 ≤ r.Pos) (hpS : r.Pos ≤ r.Size) (hn : 0 ≤ HintCount) :
    ∃ r1, r.Precache HintCount = some r1 ∧ r1.BufferBase = r.Pos ∧
      r1.BufferCount = min (min HintCount (1024 - r.Pos % 1024)) (r.Size - r.Pos) ∧
      Int.land r.Pos (1024 - 1) = r.Pos % 1024 ∧
      0 ≤ r1.BufferCount ∧
      r1.BufferBase + r1.BufferCount ≤ r.Size ∧
      r1.BufferBase + r1.BufferCount ≤ (r.Pos / 1024 + 1) * 1024 ∧
      (r1.BufferCount = 0 → r1.stream.calls = r.stream.calls) ∧
      (r1.BufferCount ≠ 0 →
        ∃ ok : Bool, r1.stream.calls = r.stream.calls ++ [Call.fread r1.BufferCount.toNat ok] ∧
          (ok = true →
            r1.Buffer.take r1.BufferCount.toNat
              = (r.stream.data.drop r.stream.off).take r1.BufferCount.toNat ∧
            ((r.stream.data.drop r.stream.off).take r1.BufferCount.toNat).length
              = r1.BufferCount.toNat)) := by
  obtain ⟨hc0, -, hc1, hcS, hcM⟩ := r.rd_precacheCount_bounds HintCount hp0 hpS hn
  refine ⟨_, r.rd_Precache_eq HintCount hF hc0, rfl, r.rd_precacheCount_eq HintCount hp0,
    land_mask r.Pos hp0, hc0, hcS, hcM, ?_, ?_⟩
  · intro hz
    simp only at hz ⊢
    rw [hz]
    simp [fread_zero]
  · intro hz
    simp only at hz ⊢
    have hnz : (r.precacheCount HintCount).toNat ≠ 0 := by omega
    refine ⟨decide ((fread r.stream (r.precacheCount HintCount).toNat).2.2 = 1),
      fread_calls _ _ hnz, ?_⟩
    intro hok
    have hok1 : (fread r.stream (r.precacheCount HintCount).toNat).2.2 = 1 := by
      simpa using hok
    obtain ⟨hgot, hlen⟩ := fread_whole _ _ hok1
    refine ⟨?_, by rw [← hgot, hlen]⟩
    unfold appMemcpy
    rw [List.take_zero, List.nil_append, List.take_left' hlen, hgot]

/-- C12 on a fresh reader over a five-byte file: `Precache(3)`. -/
theorem C12_precache_amount_witness :
    ∃ r1, (FArchiveFileReader.new (soundFile [1, 2, 3, 4, 5]) [] 5
        (List.replicate 1024 0)).Precache 3 = some r1 ∧
      r1.BufferBase = 0 ∧ r1.BufferCount = 3 := by
  obtain ⟨r1, h1, h2, h3, -⟩ := C12_precache_amount
    (FArchiveFileReader.new (soundFile [1, 2, 3, 4, 5]) [] 5 (List.replicate 1024 0)) 3 rfl
    (by decide) (by decide) (by decide)
  exact ⟨r1, h1, h2, by rw [h3]; decide⟩

/-- C11 as amended: `Pos = BufferBase + BufferCount` holds right after construction.  On every
reader with an open handle and `0 ≤ Pos ≤ Size`, and for every hint `≥ 0`,
`Precache` returns with the cursor unmoved and the buffer starting at it,
`Pos = BufferBase`, and with
`BufferCount = min(HintCount, 1024 - Pos mod 1024, Size - Pos)`; so
`Pos = BufferBase + BufferCount` holds after the call exactly when that count
is 0. -/
theorem C11_buffer_end (InFile : FILE) (InError : List Report) (InSize : Int)
    (Buffer : List BYTE) (r : FArchiveFileReader) (HintCount : Int)
    (hF : r.File = true) (hp0 : 0 ≤ r.Pos) (hpS : r.Pos ≤ r.Size) (hn : 0 ≤ HintCount) :
    (FArchiveFileReader.new InFile InError InSize Buffer).Pos
        = (FArchiveFileReader.new InFile InError InSize Buffer).BufferBase
          + (FArchiveFileReader.new InFile InError InSize Buffer).BufferCount ∧
    ∃ r1, r.Precache HintCount = some r1 ∧ r1.Pos = r.Pos ∧ r1.Pos = r1.BufferBase ∧
      r1.BufferCount = min (min HintCount (1024 - r.Pos % 1024)) (r.Size - r.Pos) ∧
      (r1.Pos = r1.BufferBase + r1.BufferCount ↔
        min (min HintCount (1024 - r.Pos % 1024)) (r.Size - r.Pos) = 0) := by
  obtain ⟨hc0, -, -, -, -⟩ := r.rd_precacheCount_bounds HintCount hp0 hpS hn
  have hcnt := r.rd_precacheCount_eq HintCount hp0
  refine ⟨rfl, _, r.rd_Precache_eq HintCount hF hc0, rfl, rfl, hcnt, ?_⟩
  simp only
  rw [← hcnt]
  omega

/-- C11 as claimed fails on a fresh reader over a three-byte file: the state satisfies the
precondition of `Precache`, and after `Precache(1)` the cursor is 0 while
the buffer ends at 1. -/
theorem C11_buffer_end_counterexample :
    (FArchiveFileReader.new (soundFile [1, 2, 3]) [] 3 (List.replicate 1024 0)).Pos
        = (FArchiveFileReader.new (soundFile [1, 2, 3]) [] 3 (List.replicate 1024 0)).BufferBase
          + (FArchiveFileReader.new (soundFile [1, 2, 3]) [] 3
              (List.replicate 1024 0)).BufferCount ∧
    ∃ r1, (FArchiveFileReader.new (soundFile [1, 2, 3]) [] 3
        (List.replicate 1024 0)).Precache 1 = some r1 ∧
      r1.Pos = 0 ∧ r1.BufferBase = 0 ∧ r1.BufferCount = 1 ∧
      ¬ (r1.Pos = r1.BufferBase + r1.BufferCount) := by
  refine ⟨rfl, _, FArchiveFileReader.rd_Precache_eq _ 1 rfl (by decide), rfl, rfl, ?_, ?_⟩
  · decide
  · decide

/-- C11 as amended, on a fresh reader over a three-byte file and `Precache(1)`. -/
theorem C11_buffer_end_witness :
    ∃ r1, (FArchiveFileReader.new (soundFile [1, 2, 3]) [] 3
        (List.replicate 1024 0)).Precache 1 = some r1 ∧
      r1.Pos = r1.BufferBase ∧ r1.BufferCount = 1 := by
  obtain ⟨-, r1, h1, -, h3, h4, -⟩ := C11_buffer_end (soundFile []) [] 0 []
    (FArchiveFileReader.new (soundFile [1, 2, 3]) [] 3 (List.replicate 1024 0)) 1 rfl
    (by decide) (by decide) (by decide)
  exact ⟨r1, h1, h3, by rw [h4]; decide⟩

/-! ## Reads that transfer nothing -/

theorem FArchiveFileReader.rd_refill_blocked (r : FArchiveFileReader) (V : List BYTE)
    (hF : r.File = true) (hex : r.Pos = r.BufferBase + r.BufferCount)
    (hp0 : 0 ≤ r.Pos) (hpS : r.Pos ≤ r.Size)
    (hV : 0 < V.length) (hL : (V.length : Int) < 1024)
    (hwhy : r.ArIsError = true ∨ r.Pos = r.Size) :
    ∃ r1, r.SerializeTurn V = some (FArchiveFileReader.Turn.ret r1 V) ∧
      r1.ArIsError = true ∧ r1.Pos = r.Pos ∧ r1.Size = r.Size ∧ r1.BufferBase = r.Pos := by
  have hc : min (V.length : Int) (r.BufferBase + r.BufferCount - r.Pos) = 0 := by omega
  have hM : MAXINT = 2147483647 := rfl
  obtain ⟨hc0, -, -, hcS, -⟩ := r.rd_precacheCount_bounds MAXINT hp0 hpS (by decide)
  rw [r.rd_SerializeTurn_refill V hc (by omega), r.rd_Precache_eq MAXINT hF hc0]
  simp only
  by_cases hc1 : min (V.length : Int) (r.Pos + r.precacheCount MAXINT - r.Pos) ≤ 0
  · rw [if_pos hc1]
    exact ⟨_, rfl, rfl, rfl, rfl, rfl⟩
  · rw [if_neg hc1]
    have he : r.ArIsError = true := by
      rcases hwhy with h | h
      · exact h
      · omega
    rw [if_pos (by simp [he])]
    exact ⟨_, rfl, by simp [he], rfl, rfl, rfl⟩

theorem FArchiveFileReader.rd_Serialize_blocked (r : FArchiveFileReader) (V : List BYTE)
    (hF : r.File = true) (hex : r.Pos = r.BufferBase + r.BufferCount)
    (hp0 : 0 ≤ r.Pos) (hpS : r.Pos ≤ r.Size)
    (hV : 0 < V.length) (hL : (V.length : Int) < 1024)
    (hwhy : r.ArIsError = true ∨ r.Pos = r.Size) :
    ∃ r1, r.Serialize V = some (r1, V) ∧
      r1.ArIsError = true ∧ r1.Pos = r.Pos ∧ r1.Size = r.Size ∧ r1.BufferBase = r.Pos := by
  obtain ⟨r1, ht, h1, h2, h3, h4⟩ := r.rd_refill_blocked V hF hex hp0 hpS hV hL hwhy
  refine ⟨r1, ?_, h1, h2, h3, h4⟩
  unfold FArchiveFileReader.Serialize FArchiveFileReader.SerializeLoop
  rw [if_pos (by omega), ht]

/-- C13: on every reader with an open handle over a file of `n = Size ≥ 0` bytes, whatever the
handle does, `Seek(n)` returns and the `Serialize` of one byte that follows
returns with the error flag set, the destination byte as it was, and
`Pos = n`. -/
theorem C13_read_at_end (r : FArchiveFileReader) (V : List BYTE)
    (hF : r.File = true) (hS : 0 ≤ r.Size) (hV : V.length = 1) :
    ∃ r1 r2, r.Seek r.Size = some r1 ∧ r1.Serialize V = some (r2, V) ∧
      r2.ArIsError = true ∧ r2.Pos = r.Size := by
  obtain ⟨r1, hs⟩ := Option.isSome_iff_exists.mp (r.rd_Seek_isSome r.Size hF hS (le_refl _))
  obtain ⟨hP, hB, hC, hSz, hF1, -, -, -, -⟩ := r.rd_Seek_fields r1 r.Size hs
  obtain ⟨r2, h2, he, hp, -, -⟩ := r1.rd_Serialize_blocked V hF1 (by rw [hP, hB, hC]; ring)
    (by rw [hP]; exact hS) (by rw [hP, hSz]) (by omega) (by rw [hV]; decide)
    (Or.inr (by rw [hP, hSz]))
  exact ⟨r1, r2, hs, h2, he, by rw [hp, hP]⟩

/-- C13 on a reader over a ten-byte file: `Seek(10)`, then `Serialize` of one byte. -/
theorem C13_read_at_end_witness :
    ∃ r1 r2,
      (FArchiveFileReader.new (soundFile [0, 1, 2, 3, 4, 5, 6, 7, 8, 9]) [] 10
        (List.replicate 1024 0)).Seek 10 = some r1 ∧
      r1.Serialize [42] = some (r2, [42]) ∧ r2.ArIsError = true ∧ r2.Pos = 10 :=
  C13_read_at_end
    (FArchiveFileReader.new (soundFile [0, 1, 2, 3, 4, 5, 6, 7, 8, 9]) [] 10
      (List.replicate 1024 0)) [42] rfl (by decide) rfl

/-! ## The error flag and reads -/

theorem FArchiveFileReader.rd_Serialize_resident (r : FArchiveFileReader) (V : List BYTE)
    (hB : r.Buffer.length = 1024)
    (hlo : r.BufferBase ≤ r.Pos) (hV : 0 < V.length)
    (hin : r.Pos + V.length ≤ r.BufferBase + r.BufferCount) (hcap : r.BufferCount ≤ 1024) :
    r.Serialize V =
      some ({ r with Pos := r.Pos + V.length },
        (r.Buffer.drop (r.Pos - r.BufferBase).toNat).take V.length) := by
  have hmin : min (V.length : Int) (r.BufferBase + r.BufferCount - r.Pos) = V.length := by
    omega
  have hne : min (V.length : Int) (r.BufferBase + r.BufferCount - r.Pos) ≠ 0 := by omega
  have hno : ¬ ((V.length : Int) < 0 ∨ r.Pos - r.BufferBase < 0 ∨
      r.Pos - r.BufferBase + V.length > 1024) := by omega
  have hclen : ((r.Buffer.drop (r.Pos - r.BufferBase).toNat).take V.length).length
      = V.length := by
    rw [List.length_take, List.length_drop, hB]
    omega
  obtain ⟨k, hk⟩ : ∃ k, V.length = k + 1 := ⟨V.length - 1, by omega⟩
  have hturn : r.SerializeTurn V =
      some (FArchiveFileReader.Turn.next { r with Pos := r.Pos + V.length }
        ((r.Buffer.drop (r.Pos - r.BufferBase).toNat).take V.length)) := by
    rw [r.rd_SerializeTurn_copy V hne, hmin]
    unfold FArchiveFileReader.SerializeCopy
    rw [if_neg hno, Int.toNat_ofNat]
  have hrest : FArchiveFileReader.SerializeLoop V.length { r with Pos := r.Pos + V.length } []
      = some ({ r with Pos := r.Pos + V.length }, []) := by
    rw [hk]
    unfold FArchiveFileReader.SerializeLoop
    rw [if_neg (by simp)]
  unfold FArchiveFileReader.Serialize FArchiveFileReader.SerializeLoop
  rw [if_pos (by omega), hturn]
  simp only
  rw [hclen, List.drop_length, hrest]
  simp

/-- C16 as amended: on a reader whose error flag is set, for a `Serialize` of `0 < L < 1024`
bytes, whatever the handle does.  When the buffer is exhausted
(`Pos = BufferBase + BufferCount`), the handle is open and
`0 ≤ Pos`, `Pos + L ≤ Size`, the call is blocked: it returns with the
destination as it was, the cursor unmoved and the buffer rebased at the cursor.
When the buffered window of the 1024-byte array covers the `L` bytes
(`BufferBase ≤ Pos`, `Pos + L ≤ BufferBase + BufferCount`,
`BufferCount ≤ 1024`), the call is not blocked: it copies the `L` bytes
`Buffer[Pos - BufferBase ..]` into the destination and advances `Pos` by `L`,
exactly as the same call does with the flag clear; these are the `L` file bytes
at `Pos` whenever the array holds the file bytes there. -/
theorem C16_flag_and_reads (r : FArchiveFileReader) (V : List BYTE)
    (he : r.ArIsError = true) (hV : 0 < V.length) (hL : (V.length : Int) < 1024) :
    (r.File = true → 0 ≤ r.Pos → r.Pos + V.length ≤ r.Size →
      r.Pos = r.BufferBase + r.BufferCount →
      ∃ r1, r.Serialize V = some (r1, V) ∧ r1.Pos = r.Pos ∧ r1.ArIsError = true ∧
        r1.BufferBase = r.Pos) ∧
    (r.Buffer.length = 1024 → r.BufferBase ≤ r.Pos →
      r.Pos + V.length ≤ r.BufferBase + r.BufferCount → r.BufferCount ≤ 1024 →
      r.Serialize V =
        some ({ r with Pos := r.Pos + V.length },
          (r.Buffer.drop (r.Pos - r.BufferBase).toNat).take V.length) ∧
      FArchiveFileReader.Serialize { r with ArIsError := false } V =
        some ({ r with ArIsError := false, Pos := r.Pos + V.length },
          (r.Buffer.drop (r.Pos - r.BufferBase).toNat).take V.length) ∧
      ((r.Buffer.drop (r.Pos - r.BufferBase).toNat).take V.length
          = (r.stream.data.drop r.Pos.toNat).take V.length →
        r.Serialize V =
          some ({ r with Pos := r.Pos + V.length },
            (r.stream.data.drop r.Pos.toNat).take V.length))) := by
  constructor
  · intro hF hp0 hin hex
    obtain ⟨r1, h1, h2, h3, -, h5⟩ := r.rd_Serialize_blocked V hF hex hp0 (by omega) hV hL
      (Or.inl he)
    exact ⟨r1, h1, h3, h2, h5⟩
  · intro hB hlo hres hcap
    have h1 := r.rd_Serialize_resident V hB hlo hV hres hcap
    refine ⟨h1, FArchiveFileReader.rd_Serialize_resident { r with ArIsError := false } V hB hlo
      hV hres hcap, fun hbytes => ?_⟩
    rw [h1, hbytes]

/-- C16 as claimed fails on the reader over `1 2 3 4 5` whose flag was set by a failed handle
seek, with the buffer exhausted and every read succeeding: `Serialize` into two
bytes returns with the destination and the cursor as they were, whereas the same
call with the flag clear delivers `1 2` and advances the cursor to 2. -/
theorem C16_flag_and_reads_counterexample :
    seekFlaggedReader.ArIsError = true ∧
    seekFlaggedReader.Pos = seekFlaggedReader.BufferBase + seekFlaggedReader.BufferCount ∧
    (∃ r1, seekFlaggedReader.Serialize [0, 0] = some (r1, [0, 0]) ∧ r1.Pos = 0) ∧
    (∃ r2, FArchiveFileReader.Serialize { seekFlaggedReader with ArIsError := false } [0, 0]
        = some (r2, [1, 2]) ∧ r2.Pos = 2) := by
  refine ⟨rfl, rfl, ?_, ?_⟩
  · obtain ⟨r1, h1, -, h3, -, -⟩ := seekFlaggedReader.rd_Serialize_blocked [0, 0] rfl rfl
      (by decide) (by decide) (by decide) (by decide) (Or.inl rfl)
    exact ⟨r1, h1, h3⟩
  · exact ⟨_, rfl, rfl⟩

/-- C16 as amended, at two flagged readers over `1 2 3 4 5`.  The one whose flag was set by a
failed handle seek has its buffer exhausted: `Serialize` into two bytes is
blocked.  The one whose flag was set by a failed refill counts three buffered
bytes: `Serialize` into the two bytes `9 9` delivers the two bytes `0 0` of the
array, with the flag set as with the flag clear, and moves the cursor to 2; the
file holds `1 2` there. -/
theorem C16_flag_and_reads_witness :
    (∃ r1, seekFlaggedReader.Serialize [0, 0] = some (r1, [0, 0]) ∧
      r1.Pos = seekFlaggedReader.Pos ∧ r1.ArIsError = true) ∧
    staleReader.ArIsError = true ∧
    staleReader.Serialize [9, 9] = some ({ staleReader with Pos := 2 }, [0, 0]) ∧
    FArchiveFileReader.Serialize { staleReader with ArIsError := false } [9, 9] =
      some ({ staleReader with ArIsError := false, Pos := 2 }, [0, 0]) ∧
    (staleReader.stream.data.drop staleReader.Pos.toNat).take 2 = [1, 2] := by
  have hA := (C16_flag_and_reads seekFlaggedReader [0, 0] rfl (by decide) (by decide)).1
    rfl (by decide) (by decide) rfl
  have hlen : staleReader.Buffer.length = 1024 := by
    show (appMemcpy (List.replicate 1024 0) 0 []).length = 1024
    unfold appMemcpy
    rw [List.take_zero]
    show (List.drop 0 (List.replicate 1024 (0 : BYTE))).length = 1024
    rw [List.drop_zero]
    exact List.length_replicate _ _
  have hB := (C16_flag_and_reads staleReader [9, 9] rfl (by decide) (by decide)).2
    hlen (by decide) (by decide) (by decide)
  obtain ⟨r1, h1, h2, h3, -⟩ := hA
  exact ⟨⟨r1, h1, h2, h3⟩, rfl, hB.1, hB.2.1, rfl⟩

/-! ## The staged tail of a writer -/

theorem wrapINT_congr (a b c : Int) (h : wrapINT a = wrapINT b) :
    wrapINT (a + c) = wrapINT (b + c) := by
  unfold wrapINT at h ⊢
  omega

theorem WriterCall.wr_runAll_staging (calls : List WriterCall) :
    ∀ (w : FArchiveFileWriter), w.WellFormed → w.stream.faultless →
      (∀ c ∈ calls, c.isStaging = true) →
      ∃ (w1 : FArchiveFileWriter) (chunks : List (List BYTE)),
        WriterCall.runAll calls w = some w1 ∧ w1.WellFormed ∧
        w.stream.wrote w1.stream chunks ∧
        chunks.flatten ++ w1.staged = w.staged ++ WriterCall.payloads calls ∧
        wrapINT w1.Pos = wrapINT (w.Pos + (WriterCall.payloads calls).length) ∧
        (w.Pos = wrapINT w.Pos → w1.Pos = wrapINT w1.Pos) := by
  induction calls with
  | nil =>
    intro w hwf _ _
    exact ⟨w, [], rfl, hwf, w.stream.wrote_refl, by simp [WriterCall.payloads],
      by simp [WriterCall.payloads], fun h => h⟩
  | cons c cs ih =>
    intro w hwf hf hall
    have hcs : ∀ c ∈ cs, c.isStaging = true := fun d hd => hall d (List.mem_cons_of_mem _ hd)
    have hc := hall c (List.mem_cons_self _ _)
    have hstep : ∃ (w1 : FArchiveFileWriter) (J : List (List BYTE)),
        c.run w = some w1 ∧ w1.WellFormed ∧ w.stream.wrote w1.stream J ∧
        J.flatten ++ w1.staged = w.staged ++ c.payload ∧
        wrapINT w1.Pos = wrapINT (w.Pos + c.payload.length) ∧
        (w.Pos = wrapINT w.Pos → w1.Pos = wrapINT w1.Pos) := by
      cases c with
      | Serialize V =>
        obtain ⟨w1, h1, hwf1, hp1, -, -, hs1⟩ := w.wr_Serialize_spec V hwf
        obtain ⟨J, hw, -, hj, -, -⟩ := hs1 hf
        refine ⟨w1, J, h1, hwf1, hw, hj, ?_, fun _ => ?_⟩
        · rw [hp1]
          show wrapINT (wrapINT (w.Pos + V.length)) = wrapINT (w.Pos + V.length)
          unfold wrapINT
          omega
        · rw [hp1]
          unfold wrapINT
          omega
      | Flush =>
        obtain ⟨w1, h1, hwf1, hc1, hp1, -, -, hs1⟩ := w.wr_Flush_spec hwf
        obtain ⟨hw, -, -⟩ := hs1 hf
        have hst1 : w1.staged = [] := by simp [FArchiveFileWriter.staged, hc1]
        refine ⟨w1, _, h1, hwf1, hw, ?_, by simp [WriterCall.payload, hp1],
          fun h => by rw [hp1]; exact h⟩
        rw [hst1]
        by_cases hz : w.BufferCount = 0
        · have : w.staged = [] := by simp [FArchiveFileWriter.staged, hz]
          simp [hz, this, WriterCall.payload]
        · simp [hz, WriterCall.payload]
      | Seek p => simp [WriterCall.isStaging] at hc
      | Tell => simp [WriterCall.isStaging] at hc
      | Close => simp [WriterCall.isStaging] at hc
    obtain ⟨w1, J1, h1, hwf1, hw1, hj1, hp1, hr1⟩ := hstep
    have hf1 : w1.stream.faultless := FILE.wrote_faultless _ _ _ hw1 hf
    obtain ⟨w2, J2, h2, hwf2, hw2, hj2, hp2, hr2⟩ := ih w1 hwf1 hf1 hcs
    refine ⟨w2, J1 ++ J2, ?_, hwf2, FILE.wrote_trans _ _ _ J1 J2 hw1 hw2, ?_, ?_,
      fun h => hr2 (hr1 h)⟩
    · simp only [WriterCall.runAll, h1, Option.some_bind]
      exact h2
    · rw [List.flatten_append, List.append_assoc, hj2, ← List.append_assoc, hj1]
      simp [WriterCall.payloads]
    · rw [hp2, wrapINT_congr _ _ _ hp1]
      simp only [WriterCall.payloads, List.map_cons, List.flatten_cons, List.length_append]
      push_cast
      rw [add_assoc]

/-- C15 (amended): a fresh writer over a handle whose calls all succeed is put through any
sequence of `Serialize` and `Flush` calls.  The calls return and afterwards (so
after each call of the sequence, every beginning of it being such a sequence)
`0 ≤ BufferCount ≤ 4096`, the handle has received the writes of `chunks` and no
other call, and `chunks` followed by `Buffer[0 .. BufferCount)` is the
concatenation of the payloads serialized.  `Tell()` is the length of that
concatenation as a 32-bit `INT` holds it; as long as the concatenation has at
most `MAXINT` bytes, `Tell()` is its length, which is the number of bytes
written plus `BufferCount`. -/
theorem C15_staged_tail (InFile : FILE) (InError : List Report) (Buffer : List BYTE)
    (calls : List WriterCall) (hB : Buffer.length = 4096) (hf : InFile.faultless)
    (hcalls : ∀ c ∈ calls, c.isStaging = true) :
    ∃ (w1 : FArchiveFileWriter) (chunks : List (List BYTE)),
      WriterCall.runAll calls (FArchiveFileWriter.new InFile InError Buffer) = some w1 ∧
      0 ≤ w1.BufferCount ∧ w1.BufferCount ≤ 4096 ∧
      InFile.wrote w1.stream chunks ∧
      written w1.stream.calls = written InFile.calls ++ chunks.flatten ∧
      chunks.flatten ++ w1.Buffer.take w1.BufferCount.toNat = WriterCall.payloads calls ∧
      w1.Tell = wrapINT (WriterCall.payloads calls).length ∧
      (((WriterCall.payloads calls).length : Int) ≤ MAXINT →
        w1.Tell = (WriterCall.payloads calls).length ∧
        w1.Tell = chunks.flatten.length + w1.BufferCount) := by
  have hwf : (FArchiveFileWriter.new InFile InError Buffer).WellFormed :=
    ⟨rfl, by simp [FArchiveFileWriter.new], by simp [FArchiveFileWriter.new], hB⟩
  obtain ⟨w1, chunks, h1, hwf1, hw, hj, hp, hr⟩ :=
    WriterCall.wr_runAll_staging calls _ hwf hf hcalls
  have hst0 : (FArchiveFileWriter.new InFile InError Buffer).staged = [] := by
    simp [FArchiveFileWriter.staged, FArchiveFileWriter.new]
  rw [hst0, List.nil_append] at hj
  have hp0 : (FArchiveFileWriter.new InFile InError Buffer).Pos = 0 := rfl
  rw [hp0, zero_add] at hp
  have hT : w1.Pos = wrapINT (WriterCall.payloads calls).length := by
    rw [← hp]
    exact hr (by rw [hp0]; rfl)
  have hlen := w1.wr_staged_length hwf1
  refine ⟨w1, chunks, h1, hwf1.2.1, hwf1.2.2.1, hw, ?_, hj, hT, fun hle => ?_⟩
  · rw [hw.1, written_append, written_chunks]
    rfl
  · have hE : w1.Pos = (WriterCall.payloads calls).length := by
      rw [hT]
      apply wrapINT_of_range
      · omega
      · exact hle
    refine ⟨hE, ?_⟩
    show w1.Pos = _
    rw [hE, ← hj, List.length_append, ← hlen]
    push_cast
    rfl

/-- C15 as stated fails: a fresh writer over an empty file receives two payloads of
`2^30` bytes each.  Both `Serialize` calls return, the payloads serialized
count `2^31 = 2147483648` bytes, and `Tell()` is `-2147483648`: the second
`Pos += Length` leaves the range of an `INT`. -/
theorem C15_staged_tail_counterexample :
    ∃ w1 : FArchiveFileWriter,
      WriterCall.runAll
          [WriterCall.Serialize (List.replicate 1073741824 0),
            WriterCall.Serialize (List.replicate 1073741824 0)]
          (FArchiveFileWriter.new (soundFile []) [] (List.replicate 4096 0)) = some w1 ∧
      ((WriterCall.payloads
          [WriterCall.Serialize (List.replicate 1073741824 0),
            WriterCall.Serialize (List.replicate 1073741824 0)]).length : Int) = 2147483648 ∧
      w1.Tell = -2147483648 := by
  have hwf : (FArchiveFileWriter.new (soundFile []) [] (List.replicate 4096 0)).WellFormed :=
    ⟨rfl, by decide, by decide, List.length_replicate _ _⟩
  have hall : ∀ c ∈ [WriterCall.Serialize (List.replicate 1073741824 0),
      WriterCall.Serialize (List.replicate 1073741824 0)], c.isStaging = true := by
    intro c hc
    rcases List.mem_cons.mp hc with hc | hc
    · rw [hc]
      rfl
    · rcases List.mem_cons.mp hc with hc | hc
      · rw [hc]
        rfl
      · exact absurd hc (List.not_mem_nil _)
  obtain ⟨w1, chunks, h1, -, -, -, hp, hr⟩ :=
    WriterCall.wr_runAll_staging _ _ hwf (soundFile_faultless []) hall
  have hlen : ((WriterCall.payloads
      [WriterCall.Serialize (List.replicate 1073741824 0),
        WriterCall.Serialize (List.replicate 1073741824 0)]).length : Int) = 2147483648 := by
    have e : WriterCall.payloads
        [WriterCall.Serialize (List.replicate 1073741824 0),
          WriterCall.Serialize (List.replicate 1073741824 0)]
        = List.replicate 1073741824 0 ++ (List.replicate 1073741824 0 ++ []) := rfl
    rw [e, List.length_append, List.length_append, List.length_replicate, List.length_nil]
    norm_num
  refine ⟨w1, h1, hlen, ?_⟩
  have hP : w1.Pos = wrapINT w1.Pos := hr rfl
  show w1.Pos = -2147483648
  rw [hP, hp, hlen]
  show wrapINT (0 + 2147483648) = -2147483648
  unfold wrapINT
  norm_num

/-- C15 on the calls `Serialize(1 2)`, `Flush`, `Serialize(3)` over an empty file: three bytes
are within the bound, and `Tell()` is 3. -/
theorem C15_staged_tail_witness :
    ∃ (w1 : FArchiveFileWriter) (chunks : List (List BYTE)),
      WriterCall.runAll [WriterCall.Serialize [1, 2], WriterCall.Flush, WriterCall.Serialize [3]]
        (FArchiveFileWriter.new (soundFile []) [] (List.replicate 4096 0)) = some w1 ∧
      chunks.flatten ++ w1.Buffer.take w1.BufferCount.toNat = [1, 2, 3] ∧ w1.Tell = 3 ∧
      w1.Tell = chunks.flatten.length + w1.BufferCount := by
  obtain ⟨w1, chunks, h1, -, -, -, -, h6, -, h8⟩ :=
    C15_staged_tail (soundFile []) [] (List.replicate 4096 0)
      [WriterCall.Serialize [1, 2], WriterCall.Flush, WriterCall.Serialize [3]]
      (List.length_replicate _ _) (soundFile_faultless _) (by simp [WriterCall.isStaging])
  exact ⟨w1, chunks, h1, h6, (h8 (by decide)).1, (h8 (by decide)).2⟩

/-! ## The order of writes around a writer Seek -/

/-- C19: in every reader state reached from construction over a file of `Size` bytes by
in-range `Seek` and `Serialize` calls whose handle calls all succeed,
`BufferBase ≤ Pos ≤ BufferBase + BufferCount ≤ Size`, `0 ≤ BufferCount ≤ 1024`
and the handle's offset is `BufferBase + BufferCount`.  Hence a copy out of
`Buffer` made by `Serialize` in that state reads the array within
`[0, 1024)`, the direct read (taken only with the buffer exhausted) starts at
file offset `Pos`, and every in-range `Serialize` returns, none of its copies
leaving the array. -/
theorem C19_window_invariant (InFile : FILE) (InError : List Report) (Buffer : List BYTE)
    (r : FArchiveFileReader) (hf : InFile.faultless)
    (hr : FArchiveFileReader.InRange
      (FArchiveFileReader.new InFile InError InFile.data.length Buffer) r) :
    r.BufferBase ≤ r.Pos ∧ r.Pos ≤ r.BufferBase + r.BufferCount ∧
    r.BufferBase + r.BufferCount ≤ r.Size ∧ 0 ≤ r.BufferCount ∧ r.BufferCount ≤ 1024 ∧
    (r.stream.off : Int) = r.BufferBase + r.BufferCount ∧
    (∀ V : List BYTE, min (V.length : Int) (r.BufferBase + r.BufferCount - r.Pos) ≠ 0 →
      0 ≤ r.Pos - r.BufferBase ∧
      0 < min (V.length : Int) (r.BufferBase + r.BufferCount - r.Pos) ∧
      r.Pos - r.BufferBase + min (V.length : Int) (r.BufferBase + r.BufferCount - r.Pos)
        ≤ 1024) ∧
    (∀ V : List BYTE, 0 < V.length →
      min (V.length : Int) (r.BufferBase + r.BufferCount - r.Pos) = 0 →
      (r.stream.off : Int) = r.Pos) ∧
    (∀ V : List BYTE, r.Pos + V.length ≤ r.Size → (r.Serialize V).isSome = true) := by
  obtain ⟨hw, -, -⟩ := FArchiveFileReader.rd_InRange_Window _ r hr
    (FArchiveFileReader.rd_new_Window InFile InError Buffer hf)
  have h1 := hw.lo
  have h2 := hw.hi
  have h3 := hw.fits
  have h4 := hw.cap
  have h5 := hw.handle
  refine ⟨h1, h2, h3, by omega, h4, h5, ?_, ?_, ?_⟩
  · intro V hne
    omega
  · intro V hV hz
    omega
  · intro V hin
    obtain ⟨r1, hs, -⟩ := r.rd_Serialize_sound V hw hin
    rw [hs]
    rfl

/-- C19 on the reader over the five-byte file `1 2 3 4 5` after `Seek(2)`. -/
theorem C19_window_invariant_witness :
    sampleReader.BufferBase ≤ sampleReader.Pos ∧
    sampleReader.Pos ≤ sampleReader.BufferBase + sampleReader.BufferCount ∧
    sampleReader.BufferBase + sampleReader.BufferCount ≤ sampleReader.Size ∧
    (sampleReader.stream.off : Int) = sampleReader.BufferBase + sampleReader.BufferCount := by
  obtain ⟨h1, h2, h3, -, -, h6, -⟩ := C19_window_invariant (soundFile [1, 2, 3, 4, 5]) []
    (List.replicate 1024 0) sampleReader (soundFile_faultless _)
    (FArchiveFileReader.InRange.seek 2 FArchiveFileReader.InRange.start (by decide) (by decide)
      (Option.some_get _).symm)
  exact ⟨h1, h2, h3, h6⟩

/-! ## Termination of the loops of `Serialize` -/

theorem land_nonneg (p : Int) : 0 ≤ Int.land p (1024 - 1) := by
  have h1 : (1024 - 1 : Int) = ((1023 : Nat) : Int) := by norm_num
  rw [h1]
  cases p with
  | ofNat m => exact Int.ofNat_nonneg (m &&& 1023)
  | negSucc m => exact Int.ofNat_nonneg (Nat.ldiff 1023 m)

theorem FArchiveFileReader.rd_Precache_array (r r1 : FArchiveFileReader) (n : Int)
    (hB : r.Buffer.length = 1024) (hs : r.Precache n = some r1) :
    r1.Buffer.length = 1024 := by
  obtain ⟨hF, hc0⟩ := r.rd_Precache_some r1 n hs
  rw [r.rd_Precache_eq n hF hc0] at hs
  cases hs
  have hc1 : r.precacheCount n ≤ 1024 := by
    have := land_nonneg r.Pos
    unfold FArchiveFileReader.precacheCount
    omega
  have hgot := fread_length_le r.stream (r.precacheCount n).toNat
  simp only
  rw [appMemcpy_length, hB]
  rw [hB]
  omega

theorem FArchiveFileReader.rd_SerializeCopy_progress (r : FArchiveFileReader) (c : Int)
    (r1 : FArchiveFileReader) (copied : List BYTE) (hB : r.Buffer.length = 1024)
    (hc : c ≠ 0) (hs : r.SerializeCopy c = some (FArchiveFileReader.Turn.next r1 copied)) :
    (copied.length : Int) = c ∧ 0 < copied.length ∧ r1.Buffer.length = 1024 := by
  unfold FArchiveFileReader.SerializeCopy at hs
  by_cases hno : c < 0 ∨ r.Pos - r.BufferBase < 0 ∨ r.Pos - r.BufferBase + c > 1024
  · rw [if_pos hno] at hs
    cases hs
  · rw [if_neg hno] at hs
    simp only [Option.some.injEq, FArchiveFileReader.Turn.next.injEq] at hs
    obtain ⟨h1, h2⟩ := hs
    subst h1
    subst h2
    have hlen : (((r.Buffer.drop (r.Pos - r.BufferBase).toNat).take c.toNat).length : Int)
        = c := by
      rw [List.length_take, List.length_drop, hB]
      omega
    exact ⟨hlen, by omega, hB⟩

theorem FArchiveFileReader.rd_SerializeTurn_progress (r : FArchiveFileReader) (V : List BYTE)
    (r1 : FArchiveFileReader) (copied : List BYTE) (hB : r.Buffer.length = 1024)
    (hs : r.SerializeTurn V = some (FArchiveFileReader.Turn.next r1 copied)) :
    0 < copied.length ∧ copied.length ≤ V.length ∧ r1.Buffer.length = 1024 := by
  by_cases hc : min (V.length : Int) (r.BufferBase + r.BufferCount - r.Pos) = 0
  · by_cases hL : (V.length : Int) ≥ 1024
    · by_cases hF : r.File = true
      · rw [r.rd_SerializeTurn_direct V hc hL hF] at hs
        simp at hs
      · rw [r.rd_SerializeTurn_null V hc hL (by simpa using hF)] at hs
        cases hs
    · rw [r.rd_SerializeTurn_refill V hc hL] at hs
      cases hpre : r.Precache MAXINT with
      | none =>
        rw [hpre] at hs
        cases hs
      | some r0 =>
        rw [hpre] at hs
        simp only at hs
        have hB0 := r.rd_Precache_array r0 MAXINT hB hpre
        by_cases hc1 : min (V.length : Int) (r0.BufferBase + r0.BufferCount - r0.Pos) ≤ 0
        · rw [if_pos hc1] at hs
          simp at hs
        · rw [if_neg hc1] at hs
          by_cases he : r0.ArIsError = true
          · rw [if_pos he] at hs
            simp at hs
          · rw [if_neg he] at hs
            obtain ⟨h1, h2, h3⟩ := r0.rd_SerializeCopy_progress _ r1 copied hB0 (by omega) hs
            have := min_le_left (V.length : Int) (r0.BufferBase + r0.BufferCount - r0.Pos)
            exact ⟨h2, by omega, h3⟩
  · rw [r.rd_SerializeTurn_copy V hc] at hs
    obtain ⟨h1, h2, h3⟩ := r.rd_SerializeCopy_progress _ r1 copied hB hc hs
    have := min_le_left (V.length : Int) (r.BufferBase + r.BufferCount - r.Pos)
    exact ⟨h2, by omega, h3⟩

theorem FArchiveFileReader.rd_LoopStep_acc (n : Nat) :
    ∀ (r : FArchiveFileReader) (V : List BYTE), V.length < n → r.Buffer.length = 1024 →
      Acc FArchiveFileReader.LoopStep (r, V) := by
  induction n with
  | zero => intro r V h; omega
  | succ n ih =>
    intro r V hV hB
    refine Acc.intro _ ?_
    rintro ⟨r1, V1⟩ ⟨-, copied, ht, hV1⟩
    simp only at ht hV1
    obtain ⟨h1, h2, h3⟩ := r.rd_SerializeTurn_progress V r1 copied hB ht
    refine ih r1 V1 ?_ h3
    rw [hV1, List.length_drop]
    omega

theorem FArchiveFileReader.rd_SerializeLoop_fuel (fuel1 : Nat) :
    ∀ (fuel2 : Nat) (r : FArchiveFileReader) (V : List BYTE), r.Buffer.length = 1024 →
      V.length < fuel1 → V.length < fuel2 →
      FArchiveFileReader.SerializeStarved fuel1 r V = false ∧
      FArchiveFileReader.SerializeLoop fuel1 r V = FArchiveFileReader.SerializeLoop fuel2 r V := by
  induction fuel1 with
  | zero => intro fuel2 r V _ h; omega
  | succ n ih =>
    intro fuel2 r V hB h1 h2
    obtain ⟨m, rfl⟩ : ∃ m, fuel2 = m + 1 := ⟨fuel2 - 1, by omega⟩
    unfold FArchiveFileReader.SerializeStarved
    rw [FArchiveFileReader.SerializeLoop, FArchiveFileReader.SerializeLoop]
    by_cases hV : (V.length : Int) > 0
    · rw [if_pos hV, if_pos hV, if_pos hV]
      cases ht : r.SerializeTurn V with
      | none => exact ⟨rfl, rfl⟩
      | some t =>
        cases t with
        | ret r1 V1 => exact ⟨rfl, rfl⟩
        | next r1 copied =>
          obtain ⟨hp1, hp2, hp3⟩ := r.rd_SerializeTurn_progress V r1 copied hB ht
          have hlen : (V.drop copied.length).length < n := by
            rw [List.length_drop]
            omega
          have hlen2 : (V.drop copied.length).length < m := by
            rw [List.length_drop]
            omega
          obtain ⟨hs, hl⟩ := ih m r1 (V.drop copied.length) hp3 hlen hlen2
          simp only
          rw [hs, hl]
          exact ⟨rfl, rfl⟩
    · rw [if_neg hV, if_neg hV, if_neg hV]
      exact ⟨rfl, rfl⟩

theorem FArchiveFileWriter.wr_LoopStep_measure (next cur : FArchiveFileWriter × List BYTE)
    (h : FArchiveFileWriter.LoopStep next cur) :
    FArchiveFileWriter.loopMeasure next < FArchiveFileWriter.loopMeasure cur := by
  obtain ⟨hgt, hno, hfl, hV⟩ := h
  obtain ⟨hc, -, -, -⟩ := FArchiveFileWriter.wr_Flush_fields _ _ hfl
  unfold FArchiveFileWriter.loopMeasure
  rw [hc, hV, List.length_drop, if_neg (by decide)]
  by_cases hfull : cur.1.BufferCount = 4096
  · rw [if_pos hfull, hfull]
    simp
  · rw [if_neg hfull]
    omega

theorem FArchiveFileWriter.wr_LoopStep_wf : WellFounded FArchiveFileWriter.LoopStep :=
  Subrelation.wf (fun {a b} h => FArchiveFileWriter.wr_LoopStep_measure a b h)
    (measure FArchiveFileWriter.loopMeasure).wf

theorem FArchiveFileWriter.wr_LoopStep_unfold (next cur : FArchiveFileWriter × List BYTE)
    (fuel : Nat) (h : FArchiveFileWriter.LoopStep next cur) :
    FArchiveFileWriter.SerializeLoop (fuel + 1) cur.1 cur.2
      = FArchiveFileWriter.SerializeLoop fuel next.1 next.2 := by
  obtain ⟨hgt, hno, hfl, hV⟩ := h
  rw [FArchiveFileWriter.SerializeLoop]
  simp only
  rw [if_pos hgt, if_neg hno, hfl, hV]

theorem FArchiveFileReader.rd_LoopStep_unfold (next cur : FArchiveFileReader × List BYTE)
    (fuel : Nat) (h : FArchiveFileReader.LoopStep next cur) :
    ∃ copied, FArchiveFileReader.SerializeLoop (fuel + 1) cur.1 cur.2
      = (FArchiveFileReader.SerializeLoop fuel next.1 next.2).map
          (fun res => (res.1, copied ++ res.2)) := by
  obtain ⟨hV, copied, ht, hn⟩ := h
  refine ⟨copied, ?_⟩
  rw [FArchiveFileReader.SerializeLoop, if_pos hV, ht, hn]
  simp only
  cases FArchiveFileReader.SerializeLoop fuel next.1 (List.drop copied.length cur.2) with
  | none => rfl
  | some res => rfl

theorem FArchiveFileWriter.wr_SerializeLoop_fuel (fuel1 : Nat) :
    ∀ (fuel2 : Nat) (w : FArchiveFileWriter) (V : List BYTE),
      0 ≤ w.BufferCount → w.BufferCount ≤ 4096 →
      (V.length : Int) + w.BufferCount ≤ 4096 * fuel1 → 0 < fuel1 →
      (V.length : Int) + w.BufferCount ≤ 4096 * fuel2 → 0 < fuel2 →
      FArchiveFileWriter.SerializeStarved fuel1 w V = false ∧
      FArchiveFileWriter.SerializeLoop fuel1 w V = FArchiveFileWriter.SerializeLoop fuel2 w V := by
  induction fuel1 with
  | zero => intro fuel2 w V _ _ _ h; omega
  | succ n ih =>
    intro fuel2 w V h0 h1 hf1 _ hf2 hp2
    obtain ⟨m, rfl⟩ : ∃ m, fuel2 = m + 1 := ⟨fuel2 - 1, by omega⟩
    unfold FArchiveFileWriter.SerializeStarved
    rw [FArchiveFileWriter.SerializeLoop, FArchiveFileWriter.SerializeLoop]
    simp only
    by_cases hgt : (V.length : Int) > 4096 - w.BufferCount
    · rw [if_pos hgt, if_pos hgt, if_pos hgt]
      have hno : ¬ (4096 - w.BufferCount < 0 ∨ w.BufferCount < 0) := by omega
      rw [if_neg hno, if_neg hno, if_neg hno]
      cases hfl : FArchiveFileWriter.Flush
          { w with
            Buffer := appMemcpy w.Buffer w.BufferCount.toNat
              (V.take (4096 - w.BufferCount).toNat)
            BufferCount := w.BufferCount + (4096 - w.BufferCount) } with
      | none => exact ⟨rfl, rfl⟩
      | some w2 =>
        obtain ⟨hc, -, -, -⟩ := FArchiveFileWriter.wr_Flush_fields _ _ hfl
        have hl : ((V.drop (4096 - w.BufferCount).toNat).length : Int)
            = V.length - (4096 - w.BufferCount) := by
          rw [List.length_drop]
          omega
        simp only
        exact ih m w2 (V.drop (4096 - w.BufferCount).toNat) (by omega) (by omega)
          (by push_cast at hf1 ⊢; omega) (by push_cast at hf1; omega)
          (by push_cast at hf2 ⊢; omega) (by push_cast at hf2; omega)
    · rw [if_neg hgt, if_neg hgt, if_neg hgt]
      exact ⟨rfl, rfl⟩

/-- C20: the loops of `Serialize` terminate, whatever the handle calls do.  Reader, from every
state whose array has its 1024 bytes (so from every state with
`BufferBase ≤ Pos ≤ BufferBase + BufferCount`): a turn that does not return
copies at least one byte and at most the bytes left, no infinite run of turns
exists, and with any fuel above `Length` the loop does not run out of fuel and
gives the result of `Serialize`.  Writer, from every state with
`0 ≤ BufferCount ≤ 4096`: no infinite run of turns exists, and with any fuel
above `Length` the loop does not run out of fuel and gives the result it gives
inside `Serialize`; with `BufferCount = 4096` and an open handle the first
turn consumes no byte of the payload and leaves `BufferCount = 0`. -/
theorem C20_serialize_terminates (r : FArchiveFileReader) (w : FArchiveFileWriter)
    (V : List BYTE) (fuel : Nat) (hB : r.Buffer.length = 1024)
    (h0 : 0 ≤ w.BufferCount) (h1 : w.BufferCount ≤ 4096) (hfuel : V.length < fuel) :
    (∀ r1 copied, r.SerializeTurn V = some (FArchiveFileReader.Turn.next r1 copied) →
      0 < copied.length ∧ copied.length ≤ V.length) ∧
    Acc FArchiveFileReader.LoopStep (r, V) ∧
    FArchiveFileReader.SerializeStarved fuel r V = false ∧
    FArchiveFileReader.SerializeLoop fuel r V = r.Serialize V ∧
    Acc FArchiveFileWriter.LoopStep (w, V) ∧
    FArchiveFileWriter.SerializeStarved fuel w V = false ∧
    FArchiveFileWriter.SerializeLoop fuel w V
      = FArchiveFileWriter.SerializeLoop (V.length + 1) w V ∧
    (w.BufferCount = 4096 → w.File = true → 0 < V.length →
      ∃ w2, FArchiveFileWriter.LoopStep (w2, V) (w, V) ∧ w2.BufferCount = 0) := by
  obtain ⟨hrs, hrl⟩ := FArchiveFileReader.rd_SerializeLoop_fuel fuel (V.length + 1) r V hB hfuel
    (Nat.lt_succ_self _)
  have hwf1 : (V.length : Int) + w.BufferCount ≤ 4096 * (fuel : Int) := by omega
  have hwf2 : (V.length : Int) + w.BufferCount ≤ 4096 * ((V.length + 1 : Nat) : Int) := by
    push_cast
    omega
  obtain ⟨hws, hwl⟩ := FArchiveFileWriter.wr_SerializeLoop_fuel fuel (V.length + 1) w V h0 h1
    hwf1 (by omega) hwf2 (by omega)
  refine ⟨?_, FArchiveFileReader.rd_LoopStep_acc (V.length + 1) r V (Nat.lt_succ_self _) hB,
    hrs, hrl, FArchiveFileWriter.wr_LoopStep_wf.apply (w, V), hws, hwl, ?_⟩
  · intro r1 copied ht
    obtain ⟨h2, h3, -⟩ := r.rd_SerializeTurn_progress V r1 copied hB ht
    exact ⟨h2, h3⟩
  · intro hfull hF hV
    have hsome : (FArchiveFileWriter.Flush
        { w with
          Buffer := appMemcpy w.Buffer w.BufferCount.toNat (V.take (4096 - w.BufferCount).toNat)
          BufferCount := w.BufferCount + (4096 - w.BufferCount) }).isSome = true :=
      FArchiveFileWriter.wr_Flush_isSome _ hF (by simp only; omega) (by simp only; omega)
    obtain ⟨w2, hw2⟩ := Option.isSome_iff_exists.mp hsome
    obtain ⟨hc, -, -, -⟩ := FArchiveFileWriter.wr_Flush_fields _ _ hw2
    refine ⟨w2, ⟨?_, ?_, hw2, ?_⟩, hc⟩
    · simp only
      omega
    · simp only
      omega
    · simp only
      rw [hfull]
      rfl

/-- C20 on a reader over a five-byte file and on the writer with ten staged bytes, for a
transfer of three bytes run with fuel 7. -/
theorem C20_serialize_terminates_witness :
    FArchiveFileReader.SerializeStarved 7 sampleReader [0, 0, 0] = false ∧
    FArchiveFileReader.SerializeLoop 7 sampleReader [0, 0, 0]
      = sampleReader.Serialize [0, 0, 0] ∧
    FArchiveFileWriter.SerializeStarved 7 tenByteWriter [0, 0, 0] = false := by
  obtain ⟨-, -, h3, h4, -, h6, -⟩ := C20_serialize_terminates sampleReader tenByteWriter
    [0, 0, 0] 7 (List.length_replicate _ _) (by decide) (by decide) (by decide)
  exact ⟨h3, h4, h6⟩
